import Mathlib

/-!
# MQTT topic routing engine of easegress (`pkg/object/mqttproxy/topic.go`)

A shallow embedding of the topic validator/splitter, the topic level cache and the
subscription trie, followed by the properties proved about them.

Conventions of the embedding

* Go strings are Lean strings (valid UTF-8); `len` is `String.utf8ByteSize` and the index that
  `range` yields is the byte offset of the rune.
* A Go `map[string]V` is an association list with one entry per key; `range` over the map
  visits the entries in list order.  New keys are appended, an assignment to a present key
  keeps its position.  Go leaves the iteration order unspecified: the reachable states are
  closed under rearranging the entries of any map (`Reorder`).
* A `byte` QoS is a natural number (no arithmetic is performed on it).
* A run-time panic (index or slice bounds out of range) is an explicit outcome.
* The readers-writer lock is not modelled: every operation is one atomic step.
-/

namespace mqttproxy

/-! ## Go maps as association lists -/

/-- Lookup `m[k]` with the comma-ok result. -/
def mapGet {V : Type} : List (String × V) → String → Option V
  | [], _ => none
  | (k', v) :: m, k => if k' = k then some v else mapGet m k

/-- Assignment `m[k] = v`. -/
def mapSet {V : Type} : List (String × V) → String → V → List (String × V)
  | [], k, v => [(k, v)]
  | (k', v') :: m, k, v => if k' = k then (k, v) :: m else (k', v') :: mapSet m k v

/-- Builtin `delete(m, k)`. -/
def mapDelete {V : Type} : List (String × V) → String → List (String × V)
  | [], _ => []
  | (k', v') :: m, k => if k' = k then mapDelete m k else (k', v') :: mapDelete m k

/-! ## splitTopic -/

/-- Outcome of `splitTopic`: `(levels, true)`, `(nil, false)`, or a run-time panic. -/
inductive SplitResult where
  | panic : SplitResult
  | invalid : SplitResult
  | valid (levels : List String) : SplitResult
  deriving DecidableEq

/-- Slice expression `topic[lo:hi]`; it panics unless `lo <= hi <= len(topic)`. -/
def goSlice (topic : String) (lo hi : Nat) : Option String :=
  if lo ≤ hi ∧ hi ≤ topic.utf8ByteSize then some (topic.extract ⟨lo⟩ ⟨hi⟩) else none

/-- Indexed store `levels[loc] = level`; it panics unless `loc < len(levels)`. -/
def setIndex (levels : List String) (loc : Nat) (level : String) : Option (List String) :=
  if loc < levels.length then some (levels.set loc level) else none

/-- The local variables of `splitTopic` that live across loop iterations. -/
structure splitState where
  levels : List String
  levelsLoc : Nat
  levelStart : Nat
  wildCardFlag : Bool
  deriving DecidableEq

/-- The loop `for i, char := range topic` of `splitTopic`, run on the runes that remain, `i`
being the byte offset of the first of them.  `Except.error` carries an early exit. -/
def splitLoop (topic : String) : List Char → Nat → splitState → Except SplitResult splitState
  | [], _, st => .ok st
  | char :: rest, i, st =>
    if char = '/' then
      match goSlice topic st.levelStart i with
      | none => .error .panic
      | some level =>
        if level.utf8ByteSize > 1 ∧ st.wildCardFlag = true then .error .invalid
        else
          match setIndex st.levels st.levelsLoc level with
          | none => .error .panic
          | some levels =>
            splitLoop topic rest (i + char.utf8Size) ⟨levels, st.levelsLoc + 1, i + 1, false⟩
    else if char = '+' then
      splitLoop topic rest (i + char.utf8Size) { st with wildCardFlag := true }
    else if char = '#' then
      if (i : Int) ≠ (topic.utf8ByteSize : Int) - 1 then .error .invalid
      else splitLoop topic rest (i + char.utf8Size) { st with wildCardFlag := true }
    else splitLoop topic rest (i + char.utf8Size) st

/-- Function `splitTopic(topic string) ([]string, bool)`. -/
def splitTopic (topic : String) : SplitResult :=
  let levels := List.replicate (topic.data.count '/' + 1) ""
  match splitLoop topic topic.data 0 ⟨levels, 0, 0, false⟩ with
  | .error r => r
  | .ok st =>
    match goSlice topic st.levelStart topic.utf8ByteSize with
    | none => .panic
    | some level =>
      if level.utf8ByteSize > 1 ∧ st.wildCardFlag = true then .invalid
      else
        match setIndex st.levels st.levelsLoc level with
        | none => .panic
        | some levels => .valid levels

/-! ## The topic level cache -/

/-- What an operation can fail with: a Go panic, or the error value
`fmt.Errorf("topic %v is invalid", topic)`. -/
inductive Err where
  | panic : Err
  | invalidTopic (msg : String) : Err
  deriving DecidableEq

/-- The LRU cache of `github.com/hashicorp/golang-lru` as far as `topicLevelManager` uses it:
at most `size` entries, most recently used first. -/
structure lruCache where
  size : Nat
  items : List (String × List String)
  deriving DecidableEq

/-- Method `Cache.Get`: a hit moves the entry to the front. -/
def lruCache.Get (c : lruCache) (key : String) : lruCache × Option (List String) :=
  match mapGet c.items key with
  | some val => (⟨c.size, (key, val) :: mapDelete c.items key⟩, some val)
  | none => (c, none)

/-- Method `Cache.Add`: a present key is updated and moved to the front; a new key is pushed to
the front and the oldest entry is evicted when the size is exceeded. -/
def lruCache.Add (c : lruCache) (key : String) (val : List String) : lruCache :=
  match mapGet c.items key with
  | some _ => ⟨c.size, (key, val) :: mapDelete c.items key⟩
  | none =>
    let items := (key, val) :: c.items
    if items.length > c.size then ⟨c.size, items.dropLast⟩ else ⟨c.size, items⟩

structure topicLevelManager where
  data : lruCache
  deriving DecidableEq

/-- Function `newTopicLevelManager(cacheSize)`, for the promised `cacheSize > 0`. -/
def newTopicLevelManager (cacheSize : Nat) : topicLevelManager :=
  ⟨⟨cacheSize, []⟩⟩

/-- Method `topicLevelManager.get`. -/
def topicLevelManager.get (t : topicLevelManager) (topic : String) :
    topicLevelManager × Except Err (List String) :=
  match t.data.Get topic with
  | (data, some val) => (⟨data⟩, .ok val)
  | (data, none) =>
    match splitTopic topic with
    | .valid levels => (⟨data.Add topic levels⟩, .ok levels)
    | .invalid => (⟨data⟩, .error (.invalidTopic ("topic " ++ topic ++ " is invalid")))
    | .panic => (⟨data⟩, .error .panic)

/-! ## The subscription trie -/

/-- Type `topicNode`: clients with their qos, and the child nodes by level. -/
inductive topicNode where
  | mk (clients : List (String × Nat)) (nodes : List (String × topicNode)) : topicNode

def topicNode.clients : topicNode → List (String × Nat)
  | .mk clients _ => clients

def topicNode.nodes : topicNode → List (String × topicNode)
  | .mk _ nodes => nodes

/-- Function `newNode()`. -/
def newNode : topicNode := .mk [] []

/-- Method `topicNode.addClients(ans)`. -/
def topicNode.addClients (node : topicNode) (ans : List (String × Nat)) : List (String × Nat) :=
  node.clients.foldl (fun ans e => mapSet ans e.1 e.2) ans

/-- The walk of `insert` below `node` along `levels`, and the final
`node.clients[clientID] = qos`.  The result is `node` after the in-place updates. -/
def insertLevels : List String → Nat → String → topicNode → topicNode
  | [], qos, clientID, node => .mk (mapSet node.clients clientID qos) node.nodes
  | l :: levels, qos, clientID, node =>
    match mapGet node.nodes l with
    | some nextNode =>
      .mk node.clients (mapSet node.nodes l (insertLevels levels qos clientID nextNode))
    | none =>
      .mk node.clients (mapSet node.nodes l (insertLevels levels qos clientID newNode))

/-- The body of `remove` below `node` along `levels`.  `none` is the early `return nil` at a
missing level (nothing was written).  Otherwise the result is `node` after the in-place
updates, with a flag telling whether the upward "clear memory" loop is still running when it
comes back to `node` (it has not yet met a non-empty node).  The recursion stack plays the
part of `prevNodes`. -/
def removeLevels : List String → String → topicNode → Option (topicNode × Bool)
  | [], clientID, node => some (.mk (mapDelete node.clients clientID) node.nodes, true)
  | l :: levels, clientID, node =>
    match mapGet node.nodes l with
    | none => none
    | some nextNode =>
      match removeLevels levels clientID nextNode with
      | none => none
      | some (child, clearing) =>
        if clearing = true ∧ child.clients.length = 0 ∧ child.nodes.length = 0 then
          some (.mk node.clients (mapDelete node.nodes l), true)
        else
          some (.mk node.clients (mapSet node.nodes l child), false)

/-- The loop `for nodeLevel, nextNode := range node.nodes` of `findSubscribers` for one
frontier node; the state is `(ans, nextLevelNodes)`. -/
def scanChildren (topicLevel : String) :
    List (String × topicNode) → List (String × Nat) × List topicNode →
      List (String × Nat) × List topicNode
  | [], acc => acc
  | (nodeLevel, nextNode) :: rest, (ans, nextLevelNodes) =>
    if nodeLevel = "#" then
      scanChildren topicLevel rest (nextNode.addClients ans, nextLevelNodes)
    else if nodeLevel = "+" ∨ nodeLevel = topicLevel then
      scanChildren topicLevel rest (ans, nextLevelNodes ++ [nextNode])
    else
      scanChildren topicLevel rest (ans, nextLevelNodes)

/-- The loop `for _, node := range currentLevelNodes` of `findSubscribers`. -/
def scanFrontier (topicLevel : String) (currentLevelNodes : List topicNode)
    (acc : List (String × Nat) × List topicNode) : List (String × Nat) × List topicNode :=
  currentLevelNodes.foldl (fun acc node => scanChildren topicLevel node.nodes acc) acc

/-- The closing loop `for _, n := range currentLevelNodes` of `findSubscribers`. -/
def finishFrontier (currentLevelNodes : List topicNode) (ans : List (String × Nat)) :
    List (String × Nat) :=
  currentLevelNodes.foldl
    (fun ans n =>
      let ans := n.addClients ans
      match mapGet n.nodes "#" with
      | some val => val.addClients ans
      | none => ans)
    ans

/-- The loop `for _, topicLevel := range levels` of `findSubscribers` with what follows it. -/
def findLevels : List String → List topicNode → List (String × Nat) → List (String × Nat)
  | [], currentLevelNodes, ans => finishFrontier currentLevelNodes ans
  | topicLevel :: levels, currentLevelNodes, ans =>
    match scanFrontier topicLevel currentLevelNodes (ans, []) with
    | (ans, nextLevelNodes) =>
      if nextLevelNodes.length = 0 then ans else findLevels levels nextLevelNodes ans

/-- Type `TopicManager` (without its lock). -/
structure TopicManager where
  root : topicNode
  levelMgr : topicLevelManager

/-- Function `newTopicManager(cacheSize)`. -/
def newTopicManager (cacheSize : Nat) : TopicManager :=
  ⟨newNode, newTopicLevelManager cacheSize⟩

/-- Method `TopicManager.getLevels`. -/
def TopicManager.getLevels (mgr : TopicManager) (topic : String) :
    topicLevelManager × Except Err (List String) :=
  mgr.levelMgr.get topic

/-- Method `TopicManager.insert`; `none` is the `nil` error. -/
def TopicManager.insert (mgr : TopicManager) (topic : String) (qos : Nat) (clientID : String) :
    TopicManager × Option Err :=
  match mgr.getLevels topic with
  | (levelMgr, .error err) => (⟨mgr.root, levelMgr⟩, some err)
  | (levelMgr, .ok levels) => (⟨insertLevels levels qos clientID mgr.root, levelMgr⟩, none)

/-- Method `TopicManager.remove`; `none` is the `nil` error. -/
def TopicManager.remove (mgr : TopicManager) (topic : String) (clientID : String) :
    TopicManager × Option Err :=
  match mgr.getLevels topic with
  | (levelMgr, .error err) => (⟨mgr.root, levelMgr⟩, some err)
  | (levelMgr, .ok levels) =>
    match removeLevels levels clientID mgr.root with
    | none => (⟨mgr.root, levelMgr⟩, none)
    | some (root, _) => (⟨root, levelMgr⟩, none)

/-- Method `TopicManager.subscribe`: the loop over `topics`, reading `qoss[i]` (a panic when
`qoss` is too short). -/
def TopicManager.subscribe (mgr : TopicManager) :
    List String → List Nat → String → TopicManager × Option Err
  | [], _, _ => (mgr, none)
  | _ :: _, [], _ => (mgr, some .panic)
  | t :: topics, q :: qoss, clientID =>
    match mgr.insert t q clientID with
    | (mgr', some err) => (mgr', some err)
    | (mgr', none) => TopicManager.subscribe mgr' topics qoss clientID

/-- Method `TopicManager.unsubscribe`. -/
def TopicManager.unsubscribe (mgr : TopicManager) :
    List String → String → TopicManager × Option Err
  | [], _ => (mgr, none)
  | t :: topics, clientID =>
    match mgr.remove t clientID with
    | (mgr', some err) => (mgr', some err)
    | (mgr', none) => TopicManager.unsubscribe mgr' topics clientID

/-- Method `TopicManager.findSubscribers`. -/
def TopicManager.findSubscribers (mgr : TopicManager) (topic : String) :
    TopicManager × Except Err (List (String × Nat)) :=
  match mgr.getLevels topic with
  | (levelMgr, .error err) => (⟨mgr.root, levelMgr⟩, .error err)
  | (levelMgr, .ok levels) => (⟨mgr.root, levelMgr⟩, .ok (findLevels levels [mgr.root] []))

/-! ## Specification-level definitions and definitions used in the proofs -/

/-- Whether a level holds a wildcard character. -/
def hasWild (cs : List Char) : Bool := cs.any (fun c => decide (c = '+' ∨ c = '#'))

/-- The part of `splitTopic` after the loop. -/
def splitFinish (topic : String) (st : splitState) : SplitResult :=
  match goSlice topic st.levelStart topic.utf8ByteSize with
  | none => .panic
  | some level =>
    if level.utf8ByteSize > 1 ∧ st.wildCardFlag = true then .invalid
    else
      match setIndex st.levels st.levelsLoc level with
      | none => .panic
      | some levels => .valid levels

/-- The loop of `splitTopic` from an intermediate state, followed by the part after it. -/
def splitRun (topic : String) (rest : List Char) (i : Nat) (st : splitState) : SplitResult :=
  match splitLoop topic rest i st with
  | .error r => r
  | .ok st => splitFinish topic st

/-- What the loop computes, on lists of characters: `dn` are the finished levels, `cur` the
characters of the level being read. -/
def refSplit (dn : List String) (cur : List Char) : List Char → SplitResult
  | [] => if cur.length > 1 ∧ hasWild cur = true then .invalid else .valid (dn ++ [⟨cur⟩])
  | c :: r =>
    if c = '/' then
      if cur.length > 1 ∧ hasWild cur = true then .invalid else refSplit (dn ++ [⟨cur⟩]) [] r
    else if c = '#' ∧ r ≠ [] then .invalid
    else refSplit dn (cur ++ [c]) r

/-- Legality of a list of levels, by recursion: a level before the last is free of wildcard
characters or is `+`; the last may also be `#`. -/
def legalLevels : List (List Char) → Prop
  | [] => True
  | [l] => hasWild l = false ∨ l = ['+'] ∨ l = ['#']
  | l :: l2 :: ls => (hasWild l = false ∨ l = ['+']) ∧ legalLevels (l2 :: ls)

/-- The levels of a topic: the pieces between its `/` characters. -/
def topicLevels (topic : String) : List String :=
  (topic.data.splitOn '/').map String.mk

/-- The rule for one level: it is free of `+` and `#`, or it is exactly `+`, or it is exactly
`#` and it is the final level. -/
def levelLegal (level : String) (isFinal : Bool) : Prop :=
  ('+' ∉ level.data ∧ '#' ∉ level.data) ∨ level = "+" ∨ (level = "#" ∧ isFinal = true)

/-- The node reached from `node` by following the child entries named by `path`. -/
def walk : List String → topicNode → Option topicNode
  | [], node => some node
  | l :: path, node =>
    match mapGet node.nodes l with
    | none => none
    | some nextNode => walk path nextNode

/-- The subscription recorded in the trie below `node` for the filter `filter` and the
client: the QoS found in the clients map of the node at the end of the path. -/
def getSub (node : topicNode) (filter : List String) (clientID : String) : Option Nat :=
  match walk filter node with
  | none => none
  | some n => mapGet n.clients clientID

/-- A node is empty when it has no clients and no children. -/
def topicNode.isEmpty (node : topicNode) : Prop :=
  node.clients.length = 0 ∧ node.nodes.length = 0

instance (node : topicNode) : Decidable node.isEmpty := by
  unfold topicNode.isEmpty; infer_instance

/-- The association lists of the node and of all nodes below it are maps: no key occurs
twice. -/
inductive topicNode.WF : topicNode → Prop
  | mk (clients : List (String × Nat)) (nodes : List (String × topicNode)) :
      (clients.map Prod.fst).Nodup → (nodes.map Prod.fst).Nodup →
      (∀ e ∈ nodes, topicNode.WF e.2) → topicNode.WF (.mk clients nodes)

/-- No node strictly below the given node is empty. -/
inductive topicNode.Compact : topicNode → Prop
  | mk (clients : List (String × Nat)) (nodes : List (String × topicNode)) :
      (∀ e ∈ nodes, ¬ e.2.isEmpty) → (∀ e ∈ nodes, topicNode.Compact e.2) →
      topicNode.Compact (.mk clients nodes)

/-- Pairwise agreement of filter levels with topic levels: each filter level is `+` or equals
the topic level, and the two sequences have the same length. -/
def levelsMatch : List String → List String → Bool
  | [], [] => true
  | f :: filter, t :: topic => (decide (f = "+") || decide (f = t)) && levelsMatch filter topic
  | _, _ => false

/-- A filter matches a topic (both as level sequences): the levels agree pairwise, or the
filter ends in `#` and its levels before the `#` agree with a prefix of the topic levels. -/
def filterMatches (filter topic : List String) : Bool :=
  levelsMatch filter topic ||
    (decide (filter.getLast? = some "#") &&
      levelsMatch filter.dropLast (topic.take filter.dropLast.length))

/-- The paths below a frontier node whose clients `findLevels` collects for the remaining
topic levels. -/
inductive TrieMatch : List String → List String → Prop
  | hash (topic : List String) : TrieMatch ["#"] topic
  | nil : TrieMatch [] []
  | cons {f t : String} {filter topic : List String} :
      f ≠ "#" → (f = "+" ∨ f = t) → TrieMatch filter topic → TrieMatch (f :: filter) (t :: topic)

/-- The level `#` occurs at most as the last level. -/
def hashOnlyLast : List String → Prop
  | [] => True
  | [_] => True
  | f :: f2 :: filter => f ≠ "#" ∧ hashOnlyLast (f2 :: filter)

/-- Every cached entry maps a valid topic to the levels `splitTopic` returns for it. -/
def lruCache.Consistent (c : lruCache) : Prop :=
  ∀ e ∈ c.items, splitTopic e.1 = .valid e.2

def topicLevelManager.Consistent (t : topicLevelManager) : Prop :=
  t.data.Consistent

/-- The error value `fmt.Errorf("topic %v is invalid", topic)`. -/
def invalidTopicErr (topic : String) : Err :=
  .invalidTopic ("topic " ++ topic ++ " is invalid")

/-- One rearrangement of the entries of a map in the trie: Go leaves the order in which
`range` visits a map unspecified, so the entries of the clients map or of the children map of
any node may stand in any order. -/
inductive Reorder : topicNode → topicNode → Prop
  | clients {clients clients2 : List (String × Nat)} (nodes : List (String × topicNode)) :
      clients.Perm clients2 → Reorder (.mk clients nodes) (.mk clients2 nodes)
  | nodes (clients : List (String × Nat)) {nodes nodes2 : List (String × topicNode)} :
      nodes.Perm nodes2 → Reorder (.mk clients nodes) (.mk clients nodes2)
  | child (clients : List (String × Nat)) (before : List (String × topicNode)) (k : String)
      {m m2 : topicNode} (after : List (String × topicNode)) :
      Reorder m m2 →
      Reorder (.mk clients (before ++ (k, m) :: after)) (.mk clients (before ++ (k, m2) :: after))

/-- The subscriptions currently held, as the history of calls determines them: the QoS of
the subscription of a client to a filter (given by its levels), if there is one. -/
abbrev SubTable : Type := List String → String → Option Nat

def SubTable.empty : SubTable := fun _ _ => none

/-- A subscription is recorded; an earlier one of the same client to the same filter is
replaced. -/
def SubTable.put (S : SubTable) (filter : List String) (clientID : String) (qos : Nat) :
    SubTable :=
  fun f c => if f = filter ∧ c = clientID then some qos else S f c

/-- A subscription is dropped. -/
def SubTable.del (S : SubTable) (filter : List String) (clientID : String) : SubTable :=
  fun f c => if f = filter ∧ c = clientID then none else S f c

/-- The subscriptions after a call of `subscribe`: the topics are recorded in order, up to the
first one that is invalid (or for which `qoss` has no entry). -/
def SubTable.subscribe (S : SubTable) : List String → List Nat → String → SubTable
  | [], _, _ => S
  | _ :: _, [], _ => S
  | t :: topics, q :: qoss, clientID =>
    match splitTopic t with
    | .valid levels => SubTable.subscribe (S.put levels clientID q) topics qoss clientID
    | _ => S

/-- The subscriptions after a call of `unsubscribe`: the topics are dropped in order, up to
the first one that is invalid. -/
def SubTable.unsubscribe (S : SubTable) : List String → String → SubTable
  | [], _ => S
  | t :: topics, clientID =>
    match splitTopic t with
    | .valid levels => SubTable.unsubscribe (S.del levels clientID) topics clientID
    | _ => S

/-- The states of a topic manager that calls of its methods reach from a new manager, each
with the subscriptions held in it.  Calls that fail are included, and between calls the
entries of any map of the trie may be rearranged, so that every order in which Go may
iterate over the maps is covered. -/
inductive Reached : TopicManager → SubTable → Prop
  | init (cacheSize : Nat) (h : 0 < cacheSize) :
      Reached (newTopicManager cacheSize) SubTable.empty
  | subscribe {mgr : TopicManager} {S : SubTable} (topics : List String) (qoss : List Nat)
      (clientID : String) :
      Reached mgr S → Reached (mgr.subscribe topics qoss clientID).1
        (S.subscribe topics qoss clientID)
  | unsubscribe {mgr : TopicManager} {S : SubTable} (topics : List String) (clientID : String) :
      Reached mgr S → Reached (mgr.unsubscribe topics clientID).1 (S.unsubscribe topics clientID)
  | findSubscribers {mgr : TopicManager} {S : SubTable} (topic : String) :
      Reached mgr S → Reached (mgr.findSubscribers topic).1 S
  | reorder {mgr : TopicManager} {S : SubTable} (root : topicNode) :
      Reached mgr S → Reorder mgr.root root → Reached ⟨root, mgr.levelMgr⟩ S

/-- What holds in every reached state. -/
structure Inv (mgr : TopicManager) (S : SubTable) : Prop where
  wf : mgr.root.WF
  compact : mgr.root.Compact
  cache : mgr.levelMgr.Consistent
  table : ∀ f c, getSub mgr.root f c = S f c
  valid : ∀ f c q, S f c = some q → ∃ topic, splitTopic topic = .valid f

/-- The trie after the insertions of the given filters (as levels) with their QoS, in order,
for one client. -/
def insertAll (clientID : String) (root : topicNode) (subs : List (List String × Nat)) :
    topicNode :=
  subs.foldl (fun r s => insertLevels s.1 s.2 clientID r) root

/-- Node `n` is reachable from `root` through one or more child entries. -/
inductive Descendant (root : topicNode) : topicNode → Prop
  | child {k : String} {n : topicNode} : (k, n) ∈ root.nodes → Descendant root n
  | step {m : topicNode} {k : String} {n : topicNode} :
      Descendant root m → (k, n) ∈ m.nodes → Descendant root n

/-! ## Cache states and the accesses of splitTopic -/

/-- The states of a topic level manager that calls of `get` reach from a new one with a
positive cache size. -/
inductive CacheReached : topicLevelManager → Prop
  | init (cacheSize : Nat) (h : 0 < cacheSize) : CacheReached (newTopicLevelManager cacheSize)
  | get {t : topicLevelManager} (topic : String) : CacheReached t → CacheReached (t.get topic).1

/-- A bounds-checked access that `splitTopic` performs: the slice expression `topic[lo:hi]`
or the indexed store `levels[loc] = level`. -/
inductive Access where
  | slice (lo hi : Nat) : Access
  | store (loc : Nat) : Access
  deriving DecidableEq

/-- The index of an indexed store. -/
def Access.storeIdx : Access → Option Nat
  | .slice _ _ => none
  | .store loc => some loc

/-- The loop of `splitTopic` as in `splitLoop`, returning also the accesses it performs, in
order; an access is recorded before its bounds are checked. -/
def splitLoopTraced (topic : String) :
    List Char → Nat → splitState → Except SplitResult splitState × List Access
  | [], _, st => (.ok st, [])
  | char :: rest, i, st =>
    if char = '/' then
      match goSlice topic st.levelStart i with
      | none => (.error .panic, [.slice st.levelStart i])
      | some level =>
        if level.utf8ByteSize > 1 ∧ st.wildCardFlag = true then
          (.error .invalid, [.slice st.levelStart i])
        else
          match setIndex st.levels st.levelsLoc level with
          | none => (.error .panic, [.slice st.levelStart i, .store st.levelsLoc])
          | some levels =>
            ((splitLoopTraced topic rest (i + char.utf8Size)
                ⟨levels, st.levelsLoc + 1, i + 1, false⟩).1,
              .slice st.levelStart i :: .store st.levelsLoc ::
                (splitLoopTraced topic rest (i + char.utf8Size)
                  ⟨levels, st.levelsLoc + 1, i + 1, false⟩).2)
    else if char = '+' then
      splitLoopTraced topic rest (i + char.utf8Size) { st with wildCardFlag := true }
    else if char = '#' then
      if (i : Int) ≠ (topic.utf8ByteSize : Int) - 1 then (.error .invalid, [])
      else splitLoopTraced topic rest (i + char.utf8Size) { st with wildCardFlag := true }
    else splitLoopTraced topic rest (i + char.utf8Size) st

/-- Function `splitTopic` as in `splitTopic`, returning also the accesses it performs. -/
def splitTopicTraced (topic : String) : SplitResult × List Access :=
  let levels := List.replicate (topic.data.count '/' + 1) ""
  match splitLoopTraced topic topic.data 0 ⟨levels, 0, 0, false⟩ with
  | (.error r, trace) => (r, trace)
  | (.ok st, trace) =>
    match goSlice topic st.levelStart topic.utf8ByteSize with
    | none => (.panic, trace ++ [.slice st.levelStart topic.utf8ByteSize])
    | some level =>
      if level.utf8ByteSize > 1 ∧ st.wildCardFlag = true then
        (.invalid, trace ++ [.slice st.levelStart topic.utf8ByteSize])
      else
        match setIndex st.levels st.levelsLoc level with
        | none =>
          (.panic, trace ++ [.slice st.levelStart topic.utf8ByteSize, .store st.levelsLoc])
        | some levels =>
          (.valid levels,
            trace ++ [.slice st.levelStart topic.utf8ByteSize, .store st.levelsLoc])

/-- An access is within bounds for a string of `len` bytes and a slice of `n` entries. -/
def Access.InBounds (len n : Nat) : Access → Prop
  | .slice lo hi => lo ≤ hi ∧ hi ≤ len
  | .store loc => loc < n

end mqttproxy

/-!
# Cluster coordination layer (`pkg/cluster/cluster.go`) and its use by the admin API
(`pkg/api/cluster.go`)

Conventions of the embedding

* An `int64` is an integer; conversions to `int64` and arithmetic that may overflow wrap
  explicitly (`toInt64`).
* The world outside the process (the consensus store, the member list, the resources behind
  client, session and server handles) is a value of type `World`.  Requests to it fail as its
  script of `faults` says, one entry per request; with the script used up, requests succeed.
* Handles are natural numbers, fresh ones taken from `World.nextID`; `nil` is `none`.
* The readers-writer locks are not modelled: every method is one atomic step.
-/

set_option linter.dupNamespace false

namespace cluster
open mqttproxy (mapGet mapSet mapDelete)

/-- Equality of results is decidable. -/
instance instDecidableEqExcept {ε α : Type} [DecidableEq ε] [DecidableEq α] :
    DecidableEq (Except ε α)
  | .ok a, .ok b =>
    if h : a = b then isTrue (by rw [h]) else isFalse (fun h2 => h (Except.ok.inj h2))
  | .error a, .error b =>
    if h : a = b then isTrue (by rw [h]) else isFalse (fun h2 => h (Except.error.inj h2))
  | .ok _, .error _ => isFalse (fun h => by cases h)
  | .error _, .ok _ => isFalse (fun h => by cases h)

/-! ## Package strconv and package fmt, as far as they are used -/

/-- The `Err` field of a `*strconv.NumError`: `strconv.ErrSyntax` or `strconv.ErrRange`. -/
inductive NumError where
  | invalid : NumError
  | range : NumError
  deriving DecidableEq

/-- Conversion to `int64`, wrapping around. -/
def toInt64 (x : Int) : Int := (x + 2 ^ 63) % 2 ^ 64 - 2 ^ 63

/-- The value of a digit in `strconv.ParseUint`: `0` to `9`, and letters of either case
from 10 on. -/
def digitValue (c : Char) : Option Nat :=
  if '0' ≤ c ∧ c ≤ '9' then some (c.toNat - '0'.toNat)
  else if 'a' ≤ c ∧ c ≤ 'z' then some (c.toNat - 'a'.toNat + 10)
  else if 'A' ≤ c ∧ c ≤ 'Z' then some (c.toNat - 'A'.toNat + 10)
  else none

/-- Constant `maxUint64`. -/
def maxUint64 : Nat := 2 ^ 64 - 1

/-- The digit loop of `strconv.ParseUint(s, base, 64)`; `n` is the number read so far.  The
test for `n*base` overflowing is `n >= cutoff` with `cutoff = maxUint64/base + 1`, the test
for `n + d` overflowing or exceeding `maxVal` is made on the unbounded sum. -/
def parseUintLoop (base : Nat) : List Char → Nat → Except NumError Nat
  | [], n => .ok n
  | c :: cs, n =>
    match digitValue c with
    | none => .error .invalid
    | some d =>
      if d ≥ base then .error .invalid
      else if n ≥ maxUint64 / base + 1 then .error .range
      else if n * base + d > maxUint64 then .error .range
      else parseUintLoop base cs (n * base + d)

/-- Function `strconv.ParseUint(s, base, 64)` for a base from 2 to 36. -/
def ParseUint (s : List Char) (base : Nat) : Except NumError Nat :=
  match s with
  | [] => .error .invalid
  | _ :: _ => parseUintLoop base s 0

/-- Function `strconv.ParseInt(s, base, 64)` for a base from 2 to 36. -/
def ParseInt (s : String) (base : Nat) : Except NumError Int :=
  match s.data with
  | [] => .error .invalid
  | c :: rest =>
    let neg : Bool := decide (c = '-')
    let digits := if c = '+' ∨ c = '-' then rest else c :: rest
    match ParseUint digits base with
    | .error e => .error e
    | .ok un =>
      if neg = false ∧ un ≥ 2 ^ 63 then .error .range
      else if neg = true ∧ un > 2 ^ 63 then .error .range
      else if neg = true then .ok (toInt64 (- toInt64 un))
      else .ok (toInt64 un)

/-- Constant `ldigits` of package fmt. -/
def ldigits : List Char := "0123456789abcdefx".data

/-- The digit loop of `fmt.fmtInteger` for `u`, most significant digit first; the first
argument bounds the number of iterations (64 are enough for a `uint64` in any base). -/
def fmtDigits (base : Nat) : Nat → Nat → List Char
  | 0, u => [ldigits.getD u '?']
  | fuel + 1, u =>
    if u ≥ base then fmtDigits base fuel (u / base) ++ [ldigits.getD (u % base) '?']
    else [ldigits.getD u '?']

/-- Formatting of an `int64` by `fmt.Sprintf` with the verb `%d` (base 10) or `%x` (base 16):
a minus sign for a negative number, then the digits of its absolute value. -/
def fmtInteger (base : Nat) (v : Int) : String :=
  ⟨(if v < 0 then ['-'] else []) ++ fmtDigits base 64 v.natAbs⟩

/-! ## Errors -/

/-- An `error` value: one with a message (made by `fmt.Errorf`, or returned by the etcd
client), a `*strconv.NumError`, or one made by `fmt.Errorf` from a format that ends in the
verb `%v` for another error, `msg` being the text before it. -/
inductive Error where
  | text (msg : String) : Error
  | num (err : NumError) : Error
  | wrapped (msg : String) (err : Error) : Error
  deriving DecidableEq

/-- Function `strTolease`. -/
def strTolease (s : String) : Except Error Int :=
  match ParseInt s 16 with
  | .error err => .error (.num err)
  | .ok lease => .ok lease

/-! ## The world outside -/

/-- A resource behind a handle. -/
inductive Resource where
  | client (id : Nat) : Resource
  | session (id : Nat) : Resource
  | server (id : Nat) : Resource
  deriving DecidableEq

/-- The consensus store and the other things outside the process: the keys with their values,
the lease a key was put under, the member list (name and id), the leases revoked and the
resources closed so far, the next fresh handle, the outcomes of the coming requests
(`some msg`: the request fails with that error), and the leases the store holds (granted
and not revoked since). -/
structure World where
  kv : List (String × String)
  leaseOf : List (String × Int)
  members : List (String × Nat)
  revoked : List Int
  closed : List Resource
  nextID : Nat
  faults : List (Option String)
  granted : List Int
  deriving DecidableEq

/-- One request to the outside: it takes the next outcome of the script. -/
def World.request (w : World) : Option String × World :=
  match w.faults with
  | [] => (none, w)
  | f :: faults => (f, { w with faults := faults })

/-- Type `cluster`: the member name of the options, and the four handles. -/
structure cluster where
  memberName : String
  server : Option Nat
  client : Option Nat
  lease : Option Int
  session : Option Nat
  deriving DecidableEq

/-- Modelled from the spec: the key layout (type `Layout`, not among the sources): the
config version key and the lease key of a member, `/leases/<memberName>`. -/
def Layout.ConfigVersion : String := "/config/version"

/-- Modelled from the spec: method `Layout.OtherLease` (not among the sources), the lease key
of the named member. -/
def Layout.OtherLease (memberName : String) : String := "/leases/" ++ memberName

/-- Modelled from the spec: method `Layout.Lease` (not among the sources), the lease key of
this member. -/
def Layout.Lease (c : cluster) : String := Layout.OtherLease c.memberName

/-- Method `cluster.getClient`. -/
def cluster.getClient (c : cluster) (w : World) : cluster × World × Except Error Nat :=
  match c.client with
  | some client => (c, w, .ok client)
  | none =>
    match w.request with
    | (some err, w) => (c, w, .error (.text ("create client failed: " ++ err)))
    | (none, w) =>
      ({ c with client := some w.nextID }, { w with nextID := w.nextID + 1 }, .ok w.nextID)

/-- Method `cluster.closeClient`; the error of `Close` is only logged. -/
def cluster.closeClient (c : cluster) (w : World) : cluster × World :=
  match c.client with
  | none => (c, w)
  | some client =>
    ({ c with client := none }, { w with closed := w.closed ++ [.client client] })

/-- Method `cluster.getSession`. -/
def cluster.getSession (c : cluster) (w : World) : cluster × World × Except Error Nat :=
  match c.session with
  | some session => (c, w, .ok session)
  | none =>
    match c.getClient w with
    | (c, w, .error err) => (c, w, .error err)
    | (c, w, .ok _) =>
      match w.request with
      | (some err, w) => (c, w, .error (.text ("create session failed: " ++ err)))
      | (none, w) => (c, { w with nextID := w.nextID + 1 }, .ok w.nextID)

/-- Method `cluster.closeSession`; the error of `Close` is only logged. -/
def cluster.closeSession (c : cluster) (w : World) : cluster × World :=
  match c.session with
  | none => (c, w)
  | some session =>
    ({ c with session := none }, { w with closed := w.closed ++ [.session session] })

/-- Function `closeEtcdServer`, as the closing of the server behind the handle. -/
def closeEtcdServer (s : Nat) (w : World) : World :=
  { w with closed := w.closed ++ [.server s] }

/-- Method `cluster.closeServer`. -/
def cluster.closeServer (c : cluster) (w : World) : cluster × World :=
  match c.server with
  | none => (c, w)
  | some server => (c, closeEtcdServer server w)

/-- Modelled from the spec: method `cluster.Get` (not among the sources): with the lazily
constructed client, one request that returns the value under the key, if there is one. -/
def cluster.Get (c : cluster) (w : World) (key : String) :
    cluster × World × Except Error (Option String) :=
  match c.getClient w with
  | (c, w, .error err) => (c, w, .error err)
  | (c, w, .ok _) =>
    match w.request with
    | (some err, w) => (c, w, .error (.text err))
    | (none, w) => (c, w, .ok (mapGet w.kv key))

/-- Modelled from the spec: method `cluster.Put` (not among the sources): with the lazily
constructed client, one request that stores the value under the key, under no lease. -/
def cluster.Put (c : cluster) (w : World) (key value : String) :
    cluster × World × Option Error :=
  match c.getClient w with
  | (c, w, .error err) => (c, w, some err)
  | (c, w, .ok _) =>
    match w.request with
    | (some err, w) => (c, w, some (.text err))
    | (none, w) =>
      (c, { w with kv := mapSet w.kv key value, leaseOf := mapDelete w.leaseOf key }, none)

/-- The request `client.MemberList`. -/
def MemberList (w : World) : World × Except Error (List (String × Nat)) :=
  match w.request with
  | (some err, w) => (w, .error (.text err))
  | (none, w) => (w, .ok w.members)

/-- The request `client.MemberRemove`. -/
def MemberRemove (w : World) (id : Nat) : World × Option Error :=
  match w.request with
  | (some err, w) => (w, some (.text err))
  | (none, w) => ({ w with members := w.members.filter (fun m => decide (m.2 ≠ id)) }, none)

/-- The request `client.Lease.Revoke`: for a lease the store holds, the lease is revoked and
the keys put under it vanish; for any other lease id the store answers that the lease is
not found. -/
def LeaseRevoke (w : World) (lease : Int) : World × Option Error :=
  match w.request with
  | (some err, w) => (w, some (.text err))
  | (none, w) =>
    if lease ∈ w.granted then
      ({ w with
          kv := w.kv.filter (fun e => decide (mapGet w.leaseOf e.1 ≠ some lease)),
          leaseOf := w.leaseOf.filter (fun e => decide (e.2 ≠ lease)),
          revoked := w.revoked ++ [lease],
          granted := w.granted.filter (fun l => decide (l ≠ lease)) }, none)
    else (w, some (.text "etcdserver: requested lease not found"))

/-- The loop of `PurgeMember` over the member list: the id of the last member of that name,
the loop variable being fresh in each iteration.  (With one loop variable shared by the
iterations the pointer `&member.ID` reads the id of the last member of the list instead;
what is proved of `PurgeMember` below holds for every id.) -/
def findMemberID (members : List (String × Nat)) (memberName : String) : Option Nat :=
  members.foldl (fun id member => if member.1 = memberName then some member.2 else id) none

/-- The statement `if id != nil` of `PurgeMember` with its call of `client.MemberRemove`. -/
def removeIfFound (w : World) (id : Option Nat) : World × Option Error :=
  match id with
  | some id => MemberRemove w id
  | none => (w, none)

/-- Method `cluster.PurgeMember`; `none` is the `nil` error. -/
def cluster.PurgeMember (c : cluster) (w : World) (memberName : String) :
    cluster × World × Option Error :=
  match c.getClient w with
  | (c, w, .error err) => (c, w, some err)
  | (c, w, .ok _) =>
    match MemberList w with
    | (w, .error err) => (c, w, some err)
    | (w, .ok members) =>
      match removeIfFound w (findMemberID members memberName) with
      | (w, some err) => (c, w, some err)
      | (w, none) =>
        let leaseKey := Layout.OtherLease memberName
        match c.Get w leaseKey with
        | (c, w, .error err) => (c, w, some err)
        | (c, w, .ok none) => (c, w, some (.text (leaseKey ++ " not found")))
        | (c, w, .ok (some leaseStr)) =>
          match strTolease leaseStr with
          | .error err => (c, w, some err)
          | .ok lease =>
            match LeaseRevoke w lease with
            | (w, some err) => (c, w, some err)
            | (w, none) => (c, w, none)

/-- Method `cluster.getLease`. -/
def cluster.getLease (c : cluster) : Except Error Int :=
  match c.lease with
  | none => .error (.text "lease is not ready")
  | some lease => .ok lease

/-- The request `client.Lease.Grant`: the store grants a lease with a fresh id, taken from
`World.nextID` as an `int64`. -/
def LeaseGrant (w : World) : World × Except Error Int :=
  match w.request with
  | (some err, w) => (w, .error (.text err))
  | (none, w) =>
    ({ w with nextID := w.nextID + 1, granted := w.granted ++ [toInt64 (w.nextID : Int)] },
      .ok (toInt64 (w.nextID : Int)))

/-- Modelled from the spec: method `cluster.PutUnderLease` (not among the sources): with the
lazily constructed client and the lease read from the in-memory field by `getLease`, one
request that stores the value under the key, under that lease; for a lease the store does
not hold it answers that the lease is not found. -/
def cluster.PutUnderLease (c : cluster) (w : World) (key value : String) :
    cluster × World × Option Error :=
  match c.getClient w with
  | (c, w, .error err) => (c, w, some err)
  | (c, w, .ok _) =>
    match c.getLease with
    | .error err => (c, w, some err)
    | .ok lease =>
      match w.request with
      | (some err, w) => (c, w, some (.text err))
      | (none, w) =>
        if lease ∈ w.granted then
          (c, { w with kv := mapSet w.kv key value, leaseOf := mapSet w.leaseOf key lease },
            none)
        else (c, w, some (.text "etcdserver: requested lease not found"))

/-- Method `cluster.initLease`; `none` is the `nil` error. -/
def cluster.initLease (c : cluster) (w : World) : cluster × World × Option Error :=
  match c.getLease with
  | .ok _ => (c, w, none)
  | .error _ =>
    match c.Get w (Layout.Lease c) with
    | (c, w, .error err) => (c, w, some err)
    | (c, w, .ok (some leaseStr)) =>
      match strTolease leaseStr with
      | .error err => (c, w, some err)
      | .ok lease => ({ c with lease := some lease }, w, none)
    | (c, w, .ok none) =>
      match c.getClient w with
      | (c, w, .error err) => (c, w, some err)
      | (c, w, .ok _) =>
        match LeaseGrant w with
        | (w, .error err) => (c, w, some err)
        | (w, .ok lease) =>
          match ({ c with lease := some lease } : cluster).PutUnderLease w (Layout.Lease c)
              (fmtInteger 16 lease) with
          | (c, w, some err) =>
            (c, w, some (.wrapped ("put lease to " ++ Layout.Lease c ++ " failed: ") err))
          | (c, w, none) => (c, w, none)

end cluster

namespace api
open cluster (World Error NumError ParseInt fmtInteger toInt64)

/-- What a method of the admin API ends with when it does not return: the panic raised by
`ClusterPanic(err)`, or the panic on a version that does not parse. -/
inductive Panic where
  | clusterPanic (err : Error) : Panic
  | parseVersion (value : String) (err : NumError) : Panic
  deriving DecidableEq

/-- Type `Server`, by its cluster. -/
structure Server where
  cluster : cluster.cluster
  deriving DecidableEq

/-- Method `Server._getVersion`. -/
def Server._getVersion (s : Server) (w : World) : Server × World × Except Panic Int :=
  match s.cluster.Get w cluster.Layout.ConfigVersion with
  | (c, w, .error err) => (⟨c⟩, w, .error (.clusterPanic err))
  | (c, w, .ok none) => (⟨c⟩, w, .ok 0)
  | (c, w, .ok (some value)) =>
    match ParseInt value 10 with
    | .error err => (⟨c⟩, w, .error (.parseVersion value err))
    | .ok version => (⟨c⟩, w, .ok version)

/-- Method `Server._plusOneVersion`. -/
def Server._plusOneVersion (s : Server) (w : World) : Server × World × Except Panic Int :=
  match s._getVersion w with
  | (s, w, .error p) => (s, w, .error p)
  | (s, w, .ok version) =>
    let version := toInt64 (version + 1)
    let value := fmtInteger 10 version
    match s.cluster.Put w cluster.Layout.ConfigVersion value with
    | (c, w, some err) => (⟨c⟩, w, .error (.clusterPanic err))
    | (c, w, none) => (⟨c⟩, w, .ok version)

/-- Consecutive calls of `_plusOneVersion` by one writer: the versions returned, in order, up
to the first call that panics. -/
def plusOneVersions : Nat → Server → World → Server × World × List Int
  | 0, s, w => (s, w, [])
  | k + 1, s, w =>
    match s._plusOneVersion w with
    | (s, w, .error _) => (s, w, [])
    | (s, w, .ok version) =>
      ((plusOneVersions k s w).1, (plusOneVersions k s w).2.1,
        version :: (plusOneVersions k s w).2.2)

/-- The config version the store holds, as `_getVersion` reads it: 0 when the version key is
absent, else the base 10 value of the text under the key. -/
def storedVersion (w : World) : Except NumError Int :=
  match mqttproxy.mapGet w.kv cluster.Layout.ConfigVersion with
  | none => .ok 0
  | some value => ParseInt value 10

end api

/-! ## Theorems -/

namespace mqttproxy

open String (utf8Len)


theorem splitTopic_eq_splitRun (topic : String) :
    splitTopic topic =
      splitRun topic topic.data 0 ⟨List.replicate (topic.data.count '/' + 1) "", 0, 0, false⟩ := by
  rfl

theorem length_le_utf8Len (cs : List Char) : cs.length ≤ utf8Len cs := by
  induction cs with
  | nil => simp
  | cons c cs ih =>
    have := Char.utf8Size_pos c
    simp only [List.length_cons, String.utf8Len_cons]
    omega

theorem utf8Len_gt_one_iff_of_hasWild (cs : List Char) (h : hasWild cs = true) :
    utf8Len cs > 1 ↔ cs.length > 1 := by
  constructor
  · intro hlen
    match cs, h, hlen with
    | [], _, hlen => simp at hlen
    | [c], h, hlen =>
      simp only [hasWild, List.any_cons, List.any_nil, Bool.or_false, decide_eq_true_eq] at h
      rcases h with rfl | rfl <;> simp at hlen <;> revert hlen <;> decide
    | _ :: _ :: _, _, _ => simp
  · intro hlen
    have := length_le_utf8Len cs
    omega

theorem hasWild_append_singleton (cs : List Char) (c : Char) :
    hasWild (cs ++ [c]) = (hasWild cs || decide (c = '+' ∨ c = '#')) := by
  simp [hasWild]

theorem list_set_append_replicate (dn : List String) (n : Nat) (lv : String) :
    (dn ++ List.replicate (n + 1) "").set dn.length lv = dn ++ lv :: List.replicate n "" := by
  induction dn with
  | nil => simp [List.replicate_succ]
  | cons d dn ih => simpa using ih

theorem goSlice_mid (topic : String) (pre cur rest : List Char)
    (h : topic.data = pre ++ cur ++ rest) :
    goSlice topic (utf8Len pre) (utf8Len pre + utf8Len cur) = some ⟨cur⟩ := by
  have ht : topic = ⟨pre ++ cur ++ rest⟩ := by cases topic; simp_all
  subst ht
  have hle : utf8Len pre ≤ utf8Len pre + utf8Len cur ∧
      utf8Len pre + utf8Len cur ≤ (⟨pre ++ cur ++ rest⟩ : String).utf8ByteSize := by
    simp only [String.utf8ByteSize_mk, String.utf8Len_append]
    omega
  rw [goSlice, if_pos hle, String.extract_of_valid]

theorem setIndex_next (dn : List String) (n : Nat) (lv : String) :
    setIndex (dn ++ List.replicate (n + 1) "") dn.length lv =
      some (dn ++ lv :: List.replicate n "") := by
  have hlt : dn.length < (dn ++ List.replicate (n + 1) "").length := by simp
  rw [setIndex, if_pos hlt, list_set_append_replicate]

theorem level_reject_iff (cur : List Char) (flag : Bool) (hf : flag = hasWild cur) :
    ((⟨cur⟩ : String).utf8ByteSize > 1 ∧ flag = true) ↔ (cur.length > 1 ∧ hasWild cur = true) := by
  subst hf
  constructor
  · rintro ⟨h1, h2⟩
    exact ⟨(utf8Len_gt_one_iff_of_hasWild cur h2).1 h1, h2⟩
  · rintro ⟨h1, h2⟩
    exact ⟨(utf8Len_gt_one_iff_of_hasWild cur h2).2 h1, h2⟩

theorem splitRun_eq_refSplit (topic : String) (rest : List Char) :
    ∀ (pre cur : List Char) (dn : List String) (st : splitState) (i : Nat),
      topic.data = pre ++ cur ++ rest →
      st.levelStart = utf8Len pre →
      i = utf8Len pre + utf8Len cur →
      st.levels = dn ++ List.replicate (rest.count '/' + 1) "" →
      st.levelsLoc = dn.length →
      st.wildCardFlag = hasWild cur →
      splitRun topic rest i st = refSplit dn cur rest := by
  induction rest with
  | nil =>
    intro pre cur dn st i htopic hstart hi hlevels hloc hflag
    have hlen : topic.utf8ByteSize = utf8Len pre + utf8Len cur := by
      cases topic; simp_all
    have hslice := goSlice_mid topic pre cur [] htopic
    simp only [splitRun, splitLoop, splitFinish, refSplit, hstart, hlen, hslice, hlevels, hloc,
      List.count_nil, setIndex_next, List.replicate_zero]
    by_cases hrej : cur.length > 1 ∧ hasWild cur = true
    · rw [if_pos ((level_reject_iff cur _ hflag).2 hrej), if_pos hrej]
    · rw [if_neg (fun h => hrej ((level_reject_iff cur _ hflag).1 h)), if_neg hrej]
  | cons c r ih =>
    intro pre cur dn st i htopic hstart hi hlevels hloc hflag
    by_cases hslash : c = '/'
    · subst hslash
      have hslice := goSlice_mid topic pre cur ('/' :: r) htopic
      have hcount : List.count '/' ('/' :: r) + 1 = (List.count '/' r + 1) + 1 := by simp
      rw [hcount] at hlevels
      by_cases hrej : cur.length > 1 ∧ hasWild cur = true
      · rw [← hi] at hslice
        simp only [splitRun, splitLoop, refSplit, if_true, hstart, hslice,
          if_pos ((level_reject_iff cur _ hflag).2 hrej), if_pos hrej]
      · have hnr := fun h => hrej ((level_reject_iff cur _ hflag).1 h)
        have hrec := ih (pre ++ cur ++ ['/']) [] (dn ++ [⟨cur⟩])
          ⟨dn ++ ⟨cur⟩ :: List.replicate (List.count '/' r + 1) "", st.levelsLoc + 1, i + 1, false⟩
          (i + Char.utf8Size '/') (by simp [htopic])
          (by simp [hi]; rfl) (by simp [hi]; rfl)
          (by simp) (by simp [hloc]) (by simp [hasWild])
        rw [← hi] at hslice
        simp only [splitRun, splitLoop, refSplit, if_true, hstart, hslice, if_neg hnr, if_neg hrej,
          hlevels, hloc, setIndex_next]
        simpa [splitRun, hloc] using hrec
    · have hdata : topic.data = pre ++ (cur ++ [c]) ++ r := by simp [htopic]
      have hi2 : i + c.utf8Size = utf8Len pre + utf8Len (cur ++ [c]) := by
        simp [hi]; omega
      have hlev2 : st.levels = dn ++ List.replicate (r.count '/' + 1) "" := by
        rw [hlevels, List.count_cons_of_ne (Ne.symm hslash)]
      by_cases hplus : c = '+'
      · subst hplus
        have hrec := ih pre (cur ++ ['+']) dn { st with wildCardFlag := true } (i + Char.utf8Size '+')
          hdata hstart hi2 hlev2 hloc (by simp [hasWild_append_singleton])
        simp only [splitRun, splitLoop, refSplit, if_neg hslash, if_true]
        rw [if_neg (by simp)]
        simpa [splitRun] using hrec
      · by_cases hhash : c = '#'
        · subst hhash
          have hlen : (topic.utf8ByteSize : Int) = (i : Int) + 1 + (utf8Len r : Int) := by
            have : topic.utf8ByteSize = i + 1 + utf8Len r := by
              cases topic
              simp only [String.utf8ByteSize_mk] at *
              subst htopic
              simp [hi]
              have : Char.utf8Size '#' = 1 := rfl
              omega
            exact_mod_cast this
          by_cases hr : r = []
          · have hrec := ih pre (cur ++ ['#']) dn { st with wildCardFlag := true }
              (i + Char.utf8Size '#') hdata hstart hi2 hlev2 hloc
              (by simp [hasWild_append_singleton])
            have hcheck : ¬ ((i : Int) ≠ (topic.utf8ByteSize : Int) - 1) := by
              rw [hlen, hr]; simp
            simp only [splitRun, splitLoop, refSplit, if_neg hslash, if_neg hplus, if_true,
              if_neg hcheck]
            rw [if_neg (by simp [hr])]
            simpa [splitRun] using hrec
          · have hpos : 0 < utf8Len r := by
              rcases Nat.eq_zero_or_pos (utf8Len r) with h0 | h0
              · exact absurd (String.utf8Len_eq_zero.1 h0) hr
              · exact h0
            have hcheck : (i : Int) ≠ (topic.utf8ByteSize : Int) - 1 := by
              rw [hlen]; omega
            simp only [splitRun, splitLoop, refSplit, if_neg hslash, if_neg hplus, if_true,
              if_pos hcheck]
            rw [if_pos ⟨trivial, hr⟩]
        · have hrec := ih pre (cur ++ [c]) dn st (i + c.utf8Size) hdata hstart hi2 hlev2 hloc
            (by simp [hasWild_append_singleton, hplus, hhash, hflag])
          simp only [splitRun, splitLoop, refSplit, if_neg hslash, if_neg hplus, if_neg hhash]
          rw [if_neg (by simp [hhash])]
          simpa [splitRun] using hrec

theorem splitTopic_eq_refSplit (topic : String) :
    splitTopic topic = refSplit [] [] topic.data := by
  rw [splitTopic_eq_splitRun]
  exact splitRun_eq_refSplit topic topic.data [] [] [] _ 0 (by simp) rfl rfl (by simp) rfl rfl

theorem legalLevels_cons_of_ne_nil (l : List Char) (ls : List (List Char)) (h : ls ≠ []) :
    legalLevels (l :: ls) ↔ (hasWild l = false ∨ l = ['+']) ∧ legalLevels ls := by
  cases ls with
  | nil => exact absurd rfl h
  | cons l2 ls => simp [legalLevels]

theorem splitOn_append_of_not_mem (cur r : List Char) (h : '/' ∉ cur) :
    (cur ++ r).splitOn '/' = List.modifyHead (cur ++ ·) (r.splitOn '/') := by
  induction cur with
  | nil =>
    simp only [List.nil_append]
    cases r.splitOn '/' <;> simp [List.modifyHead]
  | cons c cur ih =>
    have hc : (c == '/') = false := by
      simp only [beq_eq_false_iff_ne, ne_eq]
      intro hc
      exact h (by simp [hc])
    have hcur : '/' ∉ cur := fun hm => h (List.mem_cons_of_mem _ hm)
    have ih2 := ih hcur
    simp only [List.splitOn] at ih2 ⊢
    rw [List.cons_append, List.splitOnP_cons, hc, ih2]
    simp only [Bool.false_eq_true, if_false, List.modifyHead_modifyHead]
    congr

theorem splitOn_slash_of_not_mem (cur r : List Char) (h : '/' ∉ cur) :
    (cur ++ '/' :: r).splitOn '/' = cur :: r.splitOn '/' := by
  simp only [List.splitOn]
  apply List.splitOnP_first
  · intro x hx
    simp only [beq_iff_eq]
    intro hxs
    exact h (hxs ▸ hx)
  · simp

theorem splitOn_ne_nil (r : List Char) : r.splitOn '/' ≠ [] := by
  simp only [List.splitOn]
  exact List.splitOnP_ne_nil _ _

theorem splitOn_singleton_eq (r x : List Char) (h : r.splitOn '/' = [x]) : x = r := by
  have := List.intercalate_splitOn r '/'
  rw [h] at this
  simpa [List.intercalate] using this

theorem level_accept_iff (cur : List Char) :
    ¬ (cur.length > 1 ∧ hasWild cur = true) ↔
      (hasWild cur = false ∨ cur = ['+'] ∨ cur = ['#']) := by
  constructor
  · intro h
    by_cases hw : hasWild cur = true
    · right
      have hlen : cur.length ≤ 1 := by
        by_contra hc
        exact h ⟨by omega, hw⟩
      match cur, hw, hlen with
      | [], hw, _ => simp [hasWild] at hw
      | [c], hw, _ =>
        simp only [hasWild, List.any_cons, List.any_nil, Bool.or_false, decide_eq_true_eq] at hw
        rcases hw with rfl | rfl <;> simp
      | _ :: _ :: _, _, hlen => simp at hlen
    · left
      simpa using hw
  · rintro (h | h | h) ⟨h1, h2⟩
    · rw [h] at h2; exact absurd h2 (by simp)
    · subst h; simp at h1
    · subst h; simp at h1

theorem refSplit_valid_eq (rest : List Char) :
    ∀ (dn : List String) (cur : List Char) (levels : List String), '/' ∉ cur →
      refSplit dn cur rest = .valid levels →
      levels = dn ++ ((cur ++ rest).splitOn '/').map String.mk := by
  induction rest with
  | nil =>
    intro dn cur levels hcur h
    have hsingle : (cur ++ []).splitOn '/' = [cur] := by
      have := splitOn_append_of_not_mem cur [] hcur
      simpa [List.modifyHead] using this
    rw [hsingle]
    simp only [refSplit] at h
    split at h
    · exact absurd h (by simp)
    · simp only [SplitResult.valid.injEq] at h
      simp [← h]
  | cons c r ih =>
    intro dn cur levels hcur h
    by_cases hslash : c = '/'
    · subst hslash
      rw [splitOn_slash_of_not_mem cur r hcur]
      simp only [refSplit, if_true] at h
      split at h
      · exact absurd h (by simp)
      · have := ih (dn ++ [⟨cur⟩]) [] levels (by simp) h
        simpa using this
    · simp only [refSplit, if_neg hslash] at h
      split at h
      · exact absurd h (by simp)
      · have hcur2 : '/' ∉ cur ++ [c] := by
          simp only [List.mem_append, List.mem_singleton, not_or]
          exact ⟨hcur, fun hc => hslash hc.symm⟩
        have := ih dn (cur ++ [c]) levels hcur2 h
        simpa using this

theorem refSplit_ne_panic (rest : List Char) :
    ∀ (dn : List String) (cur : List Char), refSplit dn cur rest ≠ .panic := by
  induction rest with
  | nil =>
    intro dn cur
    simp only [refSplit]
    split <;> simp
  | cons c r ih =>
    intro dn cur
    simp only [refSplit]
    split
    · split
      · simp
      · exact ih _ _
    · split
      · simp
      · exact ih _ _

theorem hasWild_append_char (cur : List Char) (c : Char) (x : List Char)
    (hc : c = '+' ∨ c = '#') : hasWild (cur ++ c :: x) = true := by
  simp only [hasWild, List.any_append, List.any_cons, Bool.or_eq_true, List.any_eq_true,
    decide_eq_true_eq]
  right; left; exact hc

theorem refSplit_valid_iff (rest : List Char) :
    ∀ (dn : List String) (cur : List Char), '/' ∉ cur → ('#' ∈ cur → rest = []) →
      ((∃ levels, refSplit dn cur rest = .valid levels) ↔
        legalLevels ((cur ++ rest).splitOn '/')) := by
  induction rest with
  | nil =>
    intro dn cur hcur _
    have hsingle : (cur ++ []).splitOn '/' = [cur] := by
      have := splitOn_append_of_not_mem cur [] hcur
      simpa [List.modifyHead] using this
    rw [hsingle]
    simp only [refSplit, legalLevels]
    rw [← level_accept_iff]
    by_cases hrej : cur.length > 1 ∧ hasWild cur = true
    · simp [hrej]
    · simp [hrej]
  | cons c r ih =>
    intro dn cur hcur hhash
    by_cases hslash : c = '/'
    · subst hslash
      rw [splitOn_slash_of_not_mem cur r hcur,
        legalLevels_cons_of_ne_nil _ _ (splitOn_ne_nil r)]
      have hnohash : '#' ∉ cur := fun hm => by simpa using hhash hm
      have ih2 := ih (dn ++ [⟨cur⟩]) [] (by simp) (by simp)
      simp only [List.nil_append] at ih2
      simp only [refSplit, if_true]
      by_cases hrej : cur.length > 1 ∧ hasWild cur = true
      · rw [if_pos hrej]
        constructor
        · rintro ⟨_, h⟩; exact absurd h (by simp)
        · rintro ⟨h, _⟩
          exact absurd ((level_accept_iff cur).2 (h.imp_right Or.inl)) (not_not.2 hrej)
      · rw [if_neg hrej, ih2]
        constructor
        · intro h
          refine ⟨?_, h⟩
          rcases (level_accept_iff cur).1 hrej with h1 | h1 | h1
          · exact Or.inl h1
          · exact Or.inr h1
          · exact absurd (by simp [h1]) hnohash
        · exact fun h => h.2
    · have hcur2 : '/' ∉ cur ++ [c] := by
        simp only [List.mem_append, List.mem_singleton, not_or]
        exact ⟨hcur, fun hc => hslash hc.symm⟩
      have happ : cur ++ c :: r = (cur ++ [c]) ++ r := by simp
      simp only [refSplit, if_neg hslash]
      by_cases hbad : c = '#' ∧ r ≠ []
      · rw [if_pos hbad]
        obtain ⟨rfl, hr⟩ := hbad
        constructor
        · rintro ⟨_, h⟩; exact absurd h (by simp)
        · intro hlegal
          exfalso
          rw [happ, splitOn_append_of_not_mem _ r hcur2] at hlegal
          rcases hsp : r.splitOn '/' with _ | ⟨x, xs⟩
          · exact splitOn_ne_nil r hsp
          · rw [hsp] at hlegal
            simp only [List.modifyHead, List.append_assoc, List.singleton_append] at hlegal
            have hw : hasWild (cur ++ '#' :: x) = true := hasWild_append_char cur '#' x (Or.inr rfl)
            cases xs with
            | nil =>
              have hx : x = r := splitOn_singleton_eq r x hsp
              subst hx
              simp only [legalLevels, hw] at hlegal
              rcases hlegal with h | h | h
              · exact absurd h (by simp)
              · have := congrArg List.length h
                simp at this
                exact hr (List.length_eq_zero.1 (by omega))
              · have := congrArg List.length h
                simp at this
                exact hr (List.length_eq_zero.1 (by omega))
            | cons x2 xs =>
              simp only [legalLevels, hw] at hlegal
              rcases hlegal.1 with h | h
              · exact absurd h (by simp)
              · cases cur with
                | nil => simp at h
                | cons a cur => cases cur <;> simp at h
      · rw [if_neg hbad, happ]
        apply ih dn (cur ++ [c]) hcur2
        intro hm
        simp only [List.mem_append, List.mem_singleton] at hm
        rcases hm with hm | hm
        · simpa using hhash hm
        · by_contra hr
          exact hbad ⟨hm.symm, hr⟩

theorem hasWild_eq_false_iff (l : List Char) : hasWild l = false ↔ ('+' ∉ l ∧ '#' ∉ l) := by
  simp only [hasWild, List.any_eq_false, decide_eq_true_eq, not_or]
  constructor
  · intro h
    exact ⟨fun hm => (h _ hm).1 rfl, fun hm => (h _ hm).2 rfl⟩
  · rintro ⟨h1, h2⟩ x hx
    exact ⟨fun he => h1 (he ▸ hx), fun he => h2 (he ▸ hx)⟩

theorem levelLegal_mk (l : List Char) (isFinal : Bool) :
    levelLegal ⟨l⟩ isFinal ↔
      (hasWild l = false ∨ l = ['+'] ∨ (l = ['#'] ∧ isFinal = true)) := by
  simp only [levelLegal, hasWild_eq_false_iff]
  have h1 : ((⟨l⟩ : String) = "+") ↔ l = ['+'] := by
    constructor
    · intro h; exact congrArg String.data h
    · intro h; rw [h]
  have h2 : ((⟨l⟩ : String) = "#") ↔ l = ['#'] := by
    constructor
    · intro h; exact congrArg String.data h
    · intro h; rw [h]
  rw [h1, h2]

theorem legalLevels_iff_forall (ls : List (List Char)) :
    legalLevels ls ↔
      ∀ (j : Nat) (h : j < ls.length),
        levelLegal ⟨ls.get ⟨j, h⟩⟩ (decide (j + 1 = ls.length)) := by
  induction ls with
  | nil => simp [legalLevels]
  | cons l ls ih =>
    cases ls with
    | nil =>
      simp only [legalLevels, List.length_singleton]
      constructor
      · intro h j hj
        have hj0 : j = 0 := by omega
        subst hj0
        rw [levelLegal_mk]
        simpa using h
      · intro h
        have := h 0 (by simp)
        rw [levelLegal_mk] at this
        simpa using this
    | cons l2 ls =>
      simp only [legalLevels]
      rw [ih]
      constructor
      · rintro ⟨h0, hrest⟩ j hj
        cases j with
        | zero =>
          rw [levelLegal_mk]
          rcases h0 with h0 | h0
          · exact Or.inl h0
          · exact Or.inr (Or.inl h0)
        | succ j =>
          have := hrest j (by simpa using hj)
          simpa using this
      · intro h
        constructor
        · have h0 := h 0 (by simp)
          rw [levelLegal_mk] at h0
          rcases h0 with h0 | h0 | h0
          · exact Or.inl h0
          · exact Or.inr h0
          · simp at h0
        · intro j hj
          have := h (j + 1) (by simpa using hj)
          simpa using this

theorem splitTopic_valid_iff_legal (topic : String) :
    (∃ levels, splitTopic topic = .valid levels) ↔
      ∀ (j : Nat) (h : j < (topicLevels topic).length),
        levelLegal ((topicLevels topic).get ⟨j, h⟩) (decide (j + 1 = (topicLevels topic).length)) := by
  rw [splitTopic_eq_refSplit, refSplit_valid_iff topic.data [] [] (by simp) (by simp),
    legalLevels_iff_forall]
  simp only [List.nil_append, topicLevels, List.length_map, List.get_eq_getElem, List.getElem_map]

theorem splitTopic_valid_eq_topicLevels (topic : String) (levels : List String)
    (h : splitTopic topic = .valid levels) : levels = topicLevels topic := by
  rw [splitTopic_eq_refSplit] at h
  have := refSplit_valid_eq topic.data [] [] levels (by simp) h
  simpa [topicLevels] using this

theorem splitTopic_ne_panic (topic : String) : splitTopic topic ≠ .panic := by
  rw [splitTopic_eq_refSplit]
  exact refSplit_ne_panic _ _ _

theorem length_splitOn (r : List Char) : (r.splitOn '/').length = r.count '/' + 1 := by
  induction r with
  | nil => simp
  | cons c r ih =>
    simp only [List.splitOn] at ih ⊢
    rw [List.splitOnP_cons]
    by_cases hc : c = '/'
    · subst hc
      simp [ih]
    · have hb : (c == '/') = false := by simpa using hc
      rw [hb]
      simp only [Bool.false_eq_true, if_false, List.length_modifyHead, ih]
      rw [List.count_cons_of_ne (Ne.symm hc)]

theorem intercalate_go_data (sep : String) (as : List String) :
    ∀ acc : String, (String.intercalate.go acc sep as).data =
      acc.data ++ (as.map (fun a => sep.data ++ a.data)).flatten := by
  induction as with
  | nil => intro acc; simp [String.intercalate.go]
  | cons a as ih =>
    intro acc
    simp only [String.intercalate.go, ih, String.data_append, List.map_cons, List.flatten_cons,
      List.append_assoc]

theorem list_intercalate_eq (sep : List Char) (ls : List (List Char)) (l : List Char) :
    sep.intercalate (l :: ls) = l ++ (ls.map (fun a => sep ++ a)).flatten := by
  induction ls generalizing l with
  | nil => simp [List.intercalate]
  | cons l2 ls ih =>
    have := ih l2
    simp only [List.intercalate, List.intersperse, List.flatten_cons] at this ⊢
    simp [this]

theorem intercalate_topicLevels (topic : String) :
    "/".intercalate (topicLevels topic) = topic := by
  have hsp := List.intercalate_splitOn topic.data '/'
  rcases hls : topic.data.splitOn '/' with _ | ⟨l, ls⟩
  · exact absurd hls (splitOn_ne_nil _)
  · rw [hls, list_intercalate_eq] at hsp
    apply String.ext
    simp only [topicLevels, hls, List.map_cons, String.intercalate, intercalate_go_data,
      List.map_map]
    rw [← hsp]
    congr

theorem not_mem_of_mem_splitOn (r l : List Char) (h : l ∈ r.splitOn '/') : '/' ∉ l := by
  induction r generalizing l with
  | nil => simp at h; subst h; simp
  | cons c r ih =>
    simp only [List.splitOn] at ih h
    rw [List.splitOnP_cons] at h
    by_cases hc : c = '/'
    · subst hc
      simp only [beq_self_eq_true, if_true, List.mem_cons] at h
      rcases h with h | h
      · subst h; simp
      · exact ih l h
    · have hb : (c == '/') = false := by simpa using hc
      rw [hb] at h
      simp only [Bool.false_eq_true, if_false] at h
      rcases hsp : List.splitOnP (fun x => x == '/') r with _ | ⟨x, xs⟩
      · rw [hsp] at h; simp [List.modifyHead] at h
      · rw [hsp] at h ih
        simp only [List.modifyHead, List.mem_cons] at h
        rcases h with h | h
        · subst h
          simp only [List.mem_cons, not_or]
          exact ⟨fun he => hc he.symm, ih x (by simp)⟩
        · exact ih l (by simp [h])

example : topicLevels "a//b" = ["a", "", "b"] := by decide
example : "/".intercalate ["a", "", "b"] = "a//b" := by decide

/-! ### Association lists -/

section maps
variable {V : Type}

theorem mapGet_mem {m : List (String × V)} {k : String} {v : V} (h : mapGet m k = some v) :
    (k, v) ∈ m := by
  induction m with
  | nil => simp [mapGet] at h
  | cons e m ih =>
    obtain ⟨k', v'⟩ := e
    simp only [mapGet] at h
    split at h
    · next hk => subst hk; simp only [Option.some.injEq] at h; subst h; simp
    · exact List.mem_cons_of_mem _ (ih h)

theorem mapGet_of_mem {m : List (String × V)} {k : String} {v : V}
    (hnd : (m.map Prod.fst).Nodup) (h : (k, v) ∈ m) : mapGet m k = some v := by
  induction m with
  | nil => simp at h
  | cons e m ih =>
    obtain ⟨k', v'⟩ := e
    simp only [List.map_cons, List.nodup_cons, List.mem_map, Prod.exists, exists_and_right,
      exists_eq_right, not_exists] at hnd
    simp only [List.mem_cons, Prod.mk.injEq] at h
    simp only [mapGet]
    rcases h with ⟨rfl, rfl⟩ | h
    · simp
    · have hne : k' ≠ k := fun hk => hnd.1 v (hk ▸ h)
      rw [if_neg hne]
      exact ih hnd.2 h

theorem mapGet_eq_none_iff {m : List (String × V)} {k : String} :
    mapGet m k = none ↔ k ∉ m.map Prod.fst := by
  induction m with
  | nil => simp [mapGet]
  | cons e m ih =>
    obtain ⟨k', v'⟩ := e
    simp only [mapGet, List.map_cons, List.mem_cons, not_or]
    split
    · next hk => simp [hk]
    · next hk => rw [ih]; exact ⟨fun h => ⟨fun he => hk he.symm, h⟩, fun h => h.2⟩

theorem mapGet_mapSet_self (m : List (String × V)) (k : String) (v : V) :
    mapGet (mapSet m k v) k = some v := by
  induction m with
  | nil => simp [mapSet, mapGet]
  | cons e m ih =>
    obtain ⟨k', v'⟩ := e
    simp only [mapSet]
    split
    · simp [mapGet]
    · next hk => simp [mapGet, hk, ih]

theorem mapGet_mapSet_of_ne (m : List (String × V)) {k k2 : String} (v : V) (h : k2 ≠ k) :
    mapGet (mapSet m k v) k2 = mapGet m k2 := by
  induction m with
  | nil => simp [mapSet, mapGet, h.symm]
  | cons e m ih =>
    obtain ⟨k', v'⟩ := e
    simp only [mapSet]
    split
    · next hk =>
      subst hk
      simp [mapGet, h.symm]
    · next hk =>
      simp only [mapGet]
      rw [ih]

theorem mapGet_mapDelete_self (m : List (String × V)) (k : String) :
    mapGet (mapDelete m k) k = none := by
  induction m with
  | nil => simp [mapDelete, mapGet]
  | cons e m ih =>
    obtain ⟨k', v'⟩ := e
    simp only [mapDelete]
    split
    · exact ih
    · next hk => simp [mapGet, hk, ih]

theorem mapGet_mapDelete_of_ne (m : List (String × V)) {k k2 : String} (h : k2 ≠ k) :
    mapGet (mapDelete m k) k2 = mapGet m k2 := by
  induction m with
  | nil => simp [mapDelete, mapGet]
  | cons e m ih =>
    obtain ⟨k', v'⟩ := e
    simp only [mapDelete]
    split
    · next hk =>
      subst hk
      simp [mapGet, h.symm, ih]
    · next hk =>
      simp only [mapGet]
      rw [ih]

theorem mapSet_self {m : List (String × V)} {k : String} {v : V} (h : mapGet m k = some v) :
    mapSet m k v = m := by
  induction m with
  | nil => simp [mapGet] at h
  | cons e m ih =>
    obtain ⟨k', v'⟩ := e
    simp only [mapGet] at h
    simp only [mapSet]
    split at h
    · next hk =>
      simp only [Option.some.injEq] at h
      simp [hk, h]
    · next hk =>
      rw [if_neg hk, ih h]

theorem mapSet_mapSet (m : List (String × V)) (k : String) (v w : V) :
    mapSet (mapSet m k v) k w = mapSet m k w := by
  induction m with
  | nil => simp [mapSet]
  | cons e m ih =>
    obtain ⟨k', v'⟩ := e
    simp only [mapSet]
    split
    · simp [mapSet]
    · next hk => simp [mapSet, hk, ih]

theorem mapDelete_of_none {m : List (String × V)} {k : String} (h : mapGet m k = none) :
    mapDelete m k = m := by
  induction m with
  | nil => simp [mapDelete]
  | cons e m ih =>
    obtain ⟨k', v'⟩ := e
    simp only [mapGet] at h
    simp only [mapDelete]
    split at h
    · simp at h
    · next hk => rw [if_neg hk, ih h]

theorem mapDelete_mapSet_of_none {m : List (String × V)} {k : String} (v : V)
    (h : mapGet m k = none) : mapDelete (mapSet m k v) k = m := by
  induction m with
  | nil => simp [mapSet, mapDelete]
  | cons e m ih =>
    obtain ⟨k', v'⟩ := e
    simp only [mapGet] at h
    split at h
    · simp at h
    · next hk => simp [mapSet, mapDelete, hk, ih h]

theorem mapDelete_mapDelete (m : List (String × V)) (k : String) :
    mapDelete (mapDelete m k) k = mapDelete m k :=
  mapDelete_of_none (mapGet_mapDelete_self m k)

theorem mapSet_ne_nil (m : List (String × V)) (k : String) (v : V) : mapSet m k v ≠ [] := by
  cases m with
  | nil => simp [mapSet]
  | cons e m =>
    obtain ⟨k', v'⟩ := e
    simp only [mapSet]
    split <;> simp

theorem mem_mapSet {m : List (String × V)} {k : String} {v : V} {e : String × V}
    (h : e ∈ mapSet m k v) : e ∈ m ∨ e = (k, v) := by
  induction m with
  | nil => simpa [mapSet] using h
  | cons e' m ih =>
    obtain ⟨k', v'⟩ := e'
    simp only [mapSet] at h
    split at h
    · simp only [List.mem_cons] at h ⊢
      rcases h with h | h
      · exact Or.inr h
      · exact Or.inl (Or.inr h)
    · simp only [List.mem_cons] at h ⊢
      rcases h with h | h
      · exact Or.inl (Or.inl h)
      · rcases ih h with h | h
        · exact Or.inl (Or.inr h)
        · exact Or.inr h

theorem mem_mapDelete {m : List (String × V)} {k : String} {e : String × V}
    (h : e ∈ mapDelete m k) : e ∈ m ∧ e.1 ≠ k := by
  induction m with
  | nil => simp [mapDelete] at h
  | cons e' m ih =>
    obtain ⟨k', v'⟩ := e'
    simp only [mapDelete] at h
    split at h
    · exact ⟨List.mem_cons_of_mem _ (ih h).1, (ih h).2⟩
    · next hk =>
      simp only [List.mem_cons] at h ⊢
      rcases h with h | h
      · subst h; exact ⟨Or.inl rfl, hk⟩
      · exact ⟨Or.inr (ih h).1, (ih h).2⟩

theorem keys_mapSet (m : List (String × V)) (k : String) (v : V) :
    (mapSet m k v).map Prod.fst =
      if k ∈ m.map Prod.fst then m.map Prod.fst else m.map Prod.fst ++ [k] := by
  induction m with
  | nil => simp [mapSet]
  | cons e m ih =>
    obtain ⟨k', v'⟩ := e
    simp only [mapSet]
    split
    · next hk => subst hk; simp
    · next hk =>
      simp only [List.map_cons, ih, List.mem_cons]
      have hne : ¬ k = k' := fun h => hk h.symm
      by_cases hmem : k ∈ m.map Prod.fst
      · simp [hmem]
      · simp [hmem, hne]

theorem nodup_keys_mapSet {m : List (String × V)} (k : String) (v : V)
    (h : (m.map Prod.fst).Nodup) : ((mapSet m k v).map Prod.fst).Nodup := by
  rw [keys_mapSet]
  split
  · exact h
  · next hk =>
    rw [List.nodup_append]
    refine ⟨h, by simp, ?_⟩
    intro a ha hb
    simp only [List.mem_singleton] at hb
    exact hk (hb ▸ ha)

theorem sublist_mapDelete (m : List (String × V)) (k : String) :
    (mapDelete m k).Sublist m := by
  induction m with
  | nil => simp [mapDelete]
  | cons e m ih =>
    obtain ⟨k', v'⟩ := e
    simp only [mapDelete]
    split
    · exact ih.trans (List.sublist_cons_self _ _)
    · exact ih.cons₂ _

theorem nodup_keys_mapDelete {m : List (String × V)} (k : String)
    (h : (m.map Prod.fst).Nodup) : ((mapDelete m k).map Prod.fst).Nodup :=
  h.sublist ((sublist_mapDelete m k).map _)

theorem mem_keys_mapSet_of_mem {m : List (String × V)} {k2 : String} (k : String) (v : V)
    (h : k2 ∈ m.map Prod.fst) : k2 ∈ (mapSet m k v).map Prod.fst := by
  rw [keys_mapSet]
  split
  · exact h
  · exact List.mem_append_left _ h

theorem mem_keys_mapSet_self (m : List (String × V)) (k : String) (v : V) :
    k ∈ (mapSet m k v).map Prod.fst := by
  rw [keys_mapSet]
  split
  · next h => exact h
  · simp

end maps

@[simp] theorem topicNode.clients_mk (clients : List (String × Nat))
    (nodes : List (String × topicNode)) : (topicNode.mk clients nodes).clients = clients := rfl

@[simp] theorem topicNode.nodes_mk (clients : List (String × Nat))
    (nodes : List (String × topicNode)) : (topicNode.mk clients nodes).nodes = nodes := rfl

theorem topicNode.eta (node : topicNode) : topicNode.mk node.clients node.nodes = node := by
  cases node; rfl

theorem WF_iff (node : topicNode) :
    node.WF ↔ (node.clients.map Prod.fst).Nodup ∧ (node.nodes.map Prod.fst).Nodup ∧
      ∀ e ∈ node.nodes, e.2.WF := by
  constructor
  · intro h
    cases h with
    | mk clients nodes h1 h2 h3 => exact ⟨h1, h2, h3⟩
  · rintro ⟨h1, h2, h3⟩
    cases node with
    | mk clients nodes => exact .mk clients nodes h1 h2 h3

theorem Compact_iff (node : topicNode) :
    node.Compact ↔ ∀ e ∈ node.nodes, ¬ e.2.isEmpty ∧ e.2.Compact := by
  constructor
  · intro h
    cases h with
    | mk clients nodes h1 h2 => exact fun e he => ⟨h1 e he, h2 e he⟩
  · intro h
    cases node with
    | mk clients nodes => exact .mk clients nodes (fun e he => (h e he).1) (fun e he => (h e he).2)

theorem WF_newNode : newNode.WF := by
  rw [WF_iff]; simp [newNode, topicNode.clients_mk, topicNode.nodes_mk]

theorem Compact_newNode : newNode.Compact := by
  rw [Compact_iff]; simp [newNode]

theorem isEmpty_newNode : newNode.isEmpty := by
  simp [newNode, topicNode.isEmpty, topicNode.clients_mk, topicNode.nodes_mk]

theorem eq_newNode_of_isEmpty {node : topicNode} (h : node.isEmpty) : node = newNode := by
  cases node with
  | mk clients nodes =>
    simp only [topicNode.isEmpty, topicNode.clients_mk, topicNode.nodes_mk, List.length_eq_zero] at h
    simp [newNode, h.1, h.2]

/-! ### insertLevels -/

theorem insertLevels_nil (qos : Nat) (c : String) (node : topicNode) :
    insertLevels [] qos c node = .mk (mapSet node.clients c qos) node.nodes := rfl

theorem insertLevels_cons (l : String) (ls : List String) (qos : Nat) (c : String)
    (node : topicNode) :
    insertLevels (l :: ls) qos c node =
      .mk node.clients (mapSet node.nodes l
        (insertLevels ls qos c ((mapGet node.nodes l).getD newNode))) := by
  simp only [insertLevels]
  cases mapGet node.nodes l <;> rfl

theorem insertLevels_not_isEmpty (ls : List String) (qos : Nat) (c : String) (node : topicNode) :
    ¬ (insertLevels ls qos c node).isEmpty := by
  cases ls with
  | nil =>
    rw [insertLevels_nil]
    simp only [topicNode.isEmpty, topicNode.clients_mk, List.length_eq_zero]
    exact fun h => mapSet_ne_nil _ _ _ h.1
  | cons l ls =>
    rw [insertLevels_cons]
    simp only [topicNode.isEmpty, topicNode.nodes_mk, List.length_eq_zero]
    exact fun h => mapSet_ne_nil _ _ _ h.2

theorem WF_child {node child : topicNode} {l : String} (h : node.WF)
    (hc : mapGet node.nodes l = some child) : child.WF :=
  ((WF_iff node).1 h).2.2 _ (mapGet_mem hc)

theorem WF_getD {node : topicNode} (l : String) (h : node.WF) :
    ((mapGet node.nodes l).getD newNode).WF := by
  cases hc : mapGet node.nodes l with
  | none => exact WF_newNode
  | some child => exact WF_child h hc

theorem Compact_child {node child : topicNode} {l : String} (h : node.Compact)
    (hc : mapGet node.nodes l = some child) : ¬ child.isEmpty ∧ child.Compact :=
  (Compact_iff node).1 h _ (mapGet_mem hc)

theorem Compact_getD {node : topicNode} (l : String) (h : node.Compact) :
    ((mapGet node.nodes l).getD newNode).Compact := by
  cases hc : mapGet node.nodes l with
  | none => exact Compact_newNode
  | some child => exact (Compact_child h hc).2

theorem WF_insertLevels (ls : List String) (qos : Nat) (c : String) :
    ∀ node : topicNode, node.WF → (insertLevels ls qos c node).WF := by
  induction ls with
  | nil =>
    intro node h
    rw [insertLevels_nil, WF_iff]
    rw [WF_iff] at h
    exact ⟨nodup_keys_mapSet _ _ h.1, h.2.1, h.2.2⟩
  | cons l ls ih =>
    intro node h
    rw [insertLevels_cons, WF_iff]
    have h0 := (WF_iff node).1 h
    refine ⟨h0.1, nodup_keys_mapSet _ _ h0.2.1, ?_⟩
    intro e he
    rcases mem_mapSet he with he | he
    · exact h0.2.2 e he
    · subst he
      exact ih _ (WF_getD l h)

theorem Compact_insertLevels (ls : List String) (qos : Nat) (c : String) :
    ∀ node : topicNode, node.Compact → (insertLevels ls qos c node).Compact := by
  induction ls with
  | nil =>
    intro node h
    rw [insertLevels_nil, Compact_iff]
    exact (Compact_iff node).1 h
  | cons l ls ih =>
    intro node h
    rw [insertLevels_cons, Compact_iff]
    intro e he
    rcases mem_mapSet he with he | he
    · exact (Compact_iff node).1 h e he
    · subst he
      exact ⟨insertLevels_not_isEmpty _ _ _ _, ih _ (Compact_getD l h)⟩

theorem getSub_nil (node : topicNode) (c : String) : getSub node [] c = mapGet node.clients c :=
  rfl

theorem getSub_cons (node : topicNode) (l : String) (ls : List String) (c : String) :
    getSub node (l :: ls) c =
      match mapGet node.nodes l with
      | none => none
      | some child => getSub child ls c := by
  simp only [getSub, walk]
  cases mapGet node.nodes l <;> rfl

theorem getSub_newNode (f : List String) (c : String) : getSub newNode f c = none := by
  cases f with
  | nil => rfl
  | cons l ls => rfl

theorem getSub_getD (node : topicNode) (l : String) (ls : List String) (c : String) :
    getSub ((mapGet node.nodes l).getD newNode) ls c = getSub node (l :: ls) c := by
  rw [getSub_cons]
  cases mapGet node.nodes l with
  | none => exact getSub_newNode _ _
  | some child => rfl

/-- The subscription table after `insertLevels`: the entry of the inserted filter and client
is the new QoS, every other entry is as before. -/
theorem getSub_insertLevels (ls : List String) (qos : Nat) (c : String) :
    ∀ (node : topicNode) (f : List String) (c2 : String),
      getSub (insertLevels ls qos c node) f c2 =
        if f = ls ∧ c2 = c then some qos else getSub node f c2 := by
  induction ls with
  | nil =>
    intro node f c2
    rw [insertLevels_nil]
    cases f with
    | nil =>
      simp only [getSub_nil, topicNode.clients_mk, true_and]
      by_cases hc : c2 = c
      · subst hc; simp [mapGet_mapSet_self]
      · simp [hc, mapGet_mapSet_of_ne _ _ hc]
    | cons l2 f => simp [getSub_cons]
  | cons l ls ih =>
    intro node f c2
    rw [insertLevels_cons]
    cases f with
    | nil => simp [getSub_nil]
    | cons l2 f =>
      rw [getSub_cons]
      simp only [topicNode.nodes_mk]
      by_cases hl : l2 = l
      · subst hl
        rw [mapGet_mapSet_self]
        simp only [ih, getSub_getD, List.cons.injEq, true_and]
      · rw [mapGet_mapSet_of_ne _ _ hl, ← getSub_cons]
        simp [hl]

/-! ### removeLevels -/

theorem removeLevels_nil (c : String) (node : topicNode) :
    removeLevels [] c node = some (.mk (mapDelete node.clients c) node.nodes, true) := rfl

theorem removeLevels_cons_none {l : String} (ls : List String) (c : String) {node : topicNode}
    (h : mapGet node.nodes l = none) : removeLevels (l :: ls) c node = none := by
  simp only [removeLevels, h]

theorem removeLevels_cons_some_none {l : String} {ls : List String} {c : String}
    {node next : topicNode} (h : mapGet node.nodes l = some next)
    (hr : removeLevels ls c next = none) : removeLevels (l :: ls) c node = none := by
  simp only [removeLevels, h, hr]

theorem removeLevels_cons_some {l : String} {ls : List String} {c : String}
    {node next child : topicNode} {clearing : Bool} (h : mapGet node.nodes l = some next)
    (hr : removeLevels ls c next = some (child, clearing)) :
    removeLevels (l :: ls) c node =
      if clearing = true ∧ child.isEmpty then
        some (.mk node.clients (mapDelete node.nodes l), true)
      else some (.mk node.clients (mapSet node.nodes l child), false) := by
  simp only [removeLevels, h, hr, topicNode.isEmpty]

/-- Case analysis of one step of `removeLevels`. -/
theorem removeLevels_cons_cases (l : String) (ls : List String) (c : String) (node : topicNode) :
    (mapGet node.nodes l = none ∧ removeLevels (l :: ls) c node = none) ∨
    (∃ next, mapGet node.nodes l = some next ∧ removeLevels ls c next = none ∧
      removeLevels (l :: ls) c node = none) ∨
    (∃ next child, mapGet node.nodes l = some next ∧
      removeLevels ls c next = some (child, true) ∧ child.isEmpty ∧
      removeLevels (l :: ls) c node = some (.mk node.clients (mapDelete node.nodes l), true)) ∨
    (∃ next child clearing, mapGet node.nodes l = some next ∧
      removeLevels ls c next = some (child, clearing) ∧ ¬ (clearing = true ∧ child.isEmpty) ∧
      removeLevels (l :: ls) c node =
        some (.mk node.clients (mapSet node.nodes l child), false)) := by
  cases h : mapGet node.nodes l with
  | none => exact Or.inl ⟨rfl, removeLevels_cons_none ls c h⟩
  | some next =>
    right
    cases hr : removeLevels ls c next with
    | none => exact Or.inl ⟨next, rfl, hr, removeLevels_cons_some_none h hr⟩
    | some r =>
      obtain ⟨child, clearing⟩ := r
      right
      have hstep := removeLevels_cons_some h hr
      by_cases hcond : clearing = true ∧ child.isEmpty
      · left
        rw [if_pos hcond] at hstep
        obtain ⟨rfl, hemp⟩ := hcond
        exact ⟨next, child, rfl, hr, hemp, hstep⟩
      · right
        rw [if_neg hcond] at hstep
        exact ⟨next, child, clearing, rfl, hr, hcond, hstep⟩

theorem removeLevels_false_nodes_ne_nil (ls : List String) (c : String) (node node2 : topicNode)
    (h : removeLevels ls c node = some (node2, false)) : node2.nodes ≠ [] := by
  cases ls with
  | nil => simp [removeLevels_nil] at h
  | cons l ls =>
    rcases removeLevels_cons_cases l ls c node with ⟨_, h1⟩ | ⟨_, _, _, h1⟩ | ⟨_, _, _, _, _, h1⟩ |
      ⟨_, child, _, _, _, _, h1⟩
    · rw [h1] at h; simp at h
    · rw [h1] at h; simp at h
    · rw [h1] at h; simp at h
    · rw [h1] at h
      simp only [Option.some.injEq, Prod.mk.injEq, and_true] at h
      subst h
      exact mapSet_ne_nil _ _ _

theorem removeLevels_kept_not_isEmpty {ls : List String} {c : String} {next child : topicNode}
    {clearing : Bool} (hr : removeLevels ls c next = some (child, clearing))
    (hcond : ¬ (clearing = true ∧ child.isEmpty)) : ¬ child.isEmpty := by
  intro hemp
  cases clearing with
  | true => exact hcond ⟨rfl, hemp⟩
  | false =>
    have := removeLevels_false_nodes_ne_nil ls c next child hr
    exact this (List.length_eq_zero.1 hemp.2)

theorem getSub_of_isEmpty {node : topicNode} (h : node.isEmpty) (f : List String) (c : String) :
    getSub node f c = none := by
  rw [eq_newNode_of_isEmpty h]; exact getSub_newNode f c

/-- The subscription table after `removeLevels`: the entry of the removed filter and client is
gone, every other entry is as before. -/
theorem getSub_removeLevels (ls : List String) (c : String) :
    ∀ (node node2 : topicNode) (clearing : Bool),
      removeLevels ls c node = some (node2, clearing) →
      ∀ (f : List String) (c2 : String),
        getSub node2 f c2 = if f = ls ∧ c2 = c then none else getSub node f c2 := by
  induction ls with
  | nil =>
    intro node node2 clearing h f c2
    simp only [removeLevels_nil, Option.some.injEq, Prod.mk.injEq] at h
    rw [← h.1]
    cases f with
    | nil =>
      simp only [getSub_nil, topicNode.clients_mk, true_and]
      by_cases hc : c2 = c
      · subst hc; simp [mapGet_mapDelete_self]
      · simp [hc, mapGet_mapDelete_of_ne _ hc]
    | cons l2 f => simp [getSub_cons]
  | cons l ls ih =>
    intro node node2 clearing h f c2
    rcases removeLevels_cons_cases l ls c node with ⟨_, h1⟩ | ⟨_, _, _, h1⟩ |
      ⟨next, child, hg, hr, hemp, h1⟩ | ⟨next, child, cl, hg, hr, hcond, h1⟩
    · rw [h1] at h; simp at h
    · rw [h1] at h; simp at h
    · rw [h1] at h
      simp only [Option.some.injEq, Prod.mk.injEq] at h
      rw [← h.1]
      cases f with
      | nil => simp [getSub_nil]
      | cons l2 f =>
        rw [getSub_cons, getSub_cons]
        simp only [topicNode.nodes_mk, List.cons.injEq]
        by_cases hl : l2 = l
        · subst hl
          rw [mapGet_mapDelete_self, hg]
          have := ih next child true hr f c2
          rw [getSub_of_isEmpty hemp] at this
          simp only [true_and]
          split
          · rfl
          · next hne => rw [if_neg hne] at this; exact this
        · rw [mapGet_mapDelete_of_ne _ hl]
          simp [hl]
    · rw [h1] at h
      simp only [Option.some.injEq, Prod.mk.injEq] at h
      rw [← h.1]
      cases f with
      | nil => simp [getSub_nil]
      | cons l2 f =>
        rw [getSub_cons, getSub_cons]
        simp only [topicNode.nodes_mk, List.cons.injEq]
        by_cases hl : l2 = l
        · subst hl
          rw [mapGet_mapSet_self, hg]
          simpa using ih next child cl hr f c2
        · rw [mapGet_mapSet_of_ne _ _ hl]
          simp [hl]

theorem getSub_of_removeLevels_none (ls : List String) (c : String) :
    ∀ node : topicNode, removeLevels ls c node = none → ∀ c2, getSub node ls c2 = none := by
  induction ls with
  | nil => intro node h; simp [removeLevels_nil] at h
  | cons l ls ih =>
    intro node h c2
    rw [getSub_cons]
    rcases removeLevels_cons_cases l ls c node with ⟨hg, _⟩ | ⟨next, hg, hr, _⟩ |
      ⟨_, _, _, _, _, h1⟩ | ⟨_, _, _, _, _, _, h1⟩
    · rw [hg]
    · rw [hg]; exact ih next hr c2
    · rw [h1] at h; simp at h
    · rw [h1] at h; simp at h

theorem WF_removeLevels (ls : List String) (c : String) :
    ∀ (node node2 : topicNode) (clearing : Bool), node.WF →
      removeLevels ls c node = some (node2, clearing) → node2.WF := by
  induction ls with
  | nil =>
    intro node node2 clearing hwf h
    simp only [removeLevels_nil, Option.some.injEq, Prod.mk.injEq] at h
    rw [← h.1, WF_iff]
    rw [WF_iff] at hwf
    exact ⟨nodup_keys_mapDelete _ hwf.1, hwf.2.1, hwf.2.2⟩
  | cons l ls ih =>
    intro node node2 clearing hwf h
    have h0 := (WF_iff node).1 hwf
    rcases removeLevels_cons_cases l ls c node with ⟨_, h1⟩ | ⟨_, _, _, h1⟩ |
      ⟨next, child, hg, hr, hemp, h1⟩ | ⟨next, child, cl, hg, hr, hcond, h1⟩
    · rw [h1] at h; simp at h
    · rw [h1] at h; simp at h
    · rw [h1] at h
      simp only [Option.some.injEq, Prod.mk.injEq] at h
      rw [← h.1, WF_iff]
      exact ⟨h0.1, nodup_keys_mapDelete _ h0.2.1, fun e he => h0.2.2 e (mem_mapDelete he).1⟩
    · rw [h1] at h
      simp only [Option.some.injEq, Prod.mk.injEq] at h
      rw [← h.1, WF_iff]
      refine ⟨h0.1, nodup_keys_mapSet _ _ h0.2.1, ?_⟩
      intro e he
      rcases mem_mapSet he with he | he
      · exact h0.2.2 e he
      · subst he
        exact ih next child cl (WF_child hwf hg) hr

theorem Compact_removeLevels (ls : List String) (c : String) :
    ∀ (node node2 : topicNode) (clearing : Bool), node.Compact →
      removeLevels ls c node = some (node2, clearing) → node2.Compact := by
  induction ls with
  | nil =>
    intro node node2 clearing hc h
    simp only [removeLevels_nil, Option.some.injEq, Prod.mk.injEq] at h
    rw [← h.1, Compact_iff]
    exact (Compact_iff node).1 hc
  | cons l ls ih =>
    intro node node2 clearing hc h
    have h0 := (Compact_iff node).1 hc
    rcases removeLevels_cons_cases l ls c node with ⟨_, h1⟩ | ⟨_, _, _, h1⟩ |
      ⟨next, child, hg, hr, hemp, h1⟩ | ⟨next, child, cl, hg, hr, hcond, h1⟩
    · rw [h1] at h; simp at h
    · rw [h1] at h; simp at h
    · rw [h1] at h
      simp only [Option.some.injEq, Prod.mk.injEq] at h
      rw [← h.1, Compact_iff]
      exact fun e he => h0 e (mem_mapDelete he).1
    · rw [h1] at h
      simp only [Option.some.injEq, Prod.mk.injEq] at h
      rw [← h.1, Compact_iff]
      intro e he
      rcases mem_mapSet he with he | he
      · exact h0 e he
      · subst he
        exact ⟨removeLevels_kept_not_isEmpty hr hcond, ih next child cl (Compact_child hc hg).2 hr⟩

/-- Removing again what was just removed changes nothing. -/
theorem removeLevels_idem (ls : List String) (c : String) :
    ∀ (node node2 : topicNode) (clearing : Bool),
      removeLevels ls c node = some (node2, clearing) →
      removeLevels ls c node2 = none ∨ ∃ cl2, removeLevels ls c node2 = some (node2, cl2) := by
  induction ls with
  | nil =>
    intro node node2 clearing h
    simp only [removeLevels_nil, Option.some.injEq, Prod.mk.injEq] at h
    right
    refine ⟨true, ?_⟩
    rw [← h.1, removeLevels_nil]
    simp [mapDelete_mapDelete]
  | cons l ls ih =>
    intro node node2 clearing h
    rcases removeLevels_cons_cases l ls c node with ⟨_, h1⟩ | ⟨_, _, _, h1⟩ |
      ⟨next, child, hg, hr, hemp, h1⟩ | ⟨next, child, cl, hg, hr, hcond, h1⟩
    · rw [h1] at h; simp at h
    · rw [h1] at h; simp at h
    · rw [h1] at h
      simp only [Option.some.injEq, Prod.mk.injEq] at h
      rw [← h.1]
      left
      exact removeLevels_cons_none ls c (by simp [mapGet_mapDelete_self])
    · rw [h1] at h
      simp only [Option.some.injEq, Prod.mk.injEq] at h
      rw [← h.1]
      have hg2 : mapGet (topicNode.mk node.clients (mapSet node.nodes l child)).nodes l =
          some child := by simp [mapGet_mapSet_self]
      rcases ih next child cl hr with h2 | ⟨cl2, h2⟩
      · left
        exact removeLevels_cons_some_none hg2 h2
      · right
        refine ⟨false, ?_⟩
        rw [removeLevels_cons_some hg2 h2,
          if_neg (fun hh => removeLevels_kept_not_isEmpty hr hcond hh.2)]
        simp [mapSet_mapSet]

/-- Removing a subscription that is not recorded changes nothing, when no node below is
empty. -/
theorem removeLevels_of_getSub_none (ls : List String) (c : String) :
    ∀ node : topicNode, node.Compact → getSub node ls c = none →
      removeLevels ls c node = none ∨ ∃ cl, removeLevels ls c node = some (node, cl) := by
  induction ls with
  | nil =>
    intro node _ hsub
    right
    refine ⟨true, ?_⟩
    rw [removeLevels_nil, mapDelete_of_none (by simpa [getSub_nil] using hsub), topicNode.eta]
  | cons l ls ih =>
    intro node hc hsub
    rw [getSub_cons] at hsub
    cases hg : mapGet node.nodes l with
    | none => exact Or.inl (removeLevels_cons_none ls c hg)
    | some next =>
      rw [hg] at hsub
      have hcn := Compact_child hc hg
      rcases ih next hcn.2 hsub with h2 | ⟨cl, h2⟩
      · exact Or.inl (removeLevels_cons_some_none hg h2)
      · right
        refine ⟨false, ?_⟩
        rw [removeLevels_cons_some hg h2, if_neg (fun hh => hcn.1 hh.2), mapSet_self hg,
          topicNode.eta]

/-- Inserting a subscription that was not recorded and removing it again gives back the node,
when no node below is empty. -/
theorem removeLevels_insertLevels (ls : List String) (qos : Nat) (c : String) :
    ∀ node : topicNode, node.Compact → getSub node ls c = none →
      ∃ cl, removeLevels ls c (insertLevels ls qos c node) = some (node, cl) ∧
        (node.isEmpty → cl = true) := by
  induction ls with
  | nil =>
    intro node _ hsub
    refine ⟨true, ?_, fun _ => rfl⟩
    rw [insertLevels_nil, removeLevels_nil]
    simp only [topicNode.clients_mk, topicNode.nodes_mk]
    rw [mapDelete_mapSet_of_none _ (by simpa [getSub_nil] using hsub), topicNode.eta]
  | cons l ls ih =>
    intro node hc hsub
    rw [insertLevels_cons]
    have hg2 : mapGet (topicNode.mk node.clients (mapSet node.nodes l
        (insertLevels ls qos c ((mapGet node.nodes l).getD newNode)))).nodes l =
          some (insertLevels ls qos c ((mapGet node.nodes l).getD newNode)) := by
      simp [mapGet_mapSet_self]
    rw [← getSub_getD] at hsub
    obtain ⟨cl, hrem, hcl⟩ := ih _ (Compact_getD l hc) hsub
    rw [removeLevels_cons_some hg2 hrem]
    cases hg : mapGet node.nodes l with
    | none =>
      rw [hg] at hcl
      have hcl2 : cl = true := hcl isEmpty_newNode
      refine ⟨true, ?_, fun _ => rfl⟩
      simp only [Option.getD_none]
      rw [if_pos ⟨hcl2, isEmpty_newNode⟩]
      simp only [topicNode.clients_mk, topicNode.nodes_mk]
      rw [mapDelete_mapSet_of_none _ hg, topicNode.eta]
    | some next =>
      have hcn := Compact_child hc hg
      refine ⟨false, ?_, ?_⟩
      · simp only [Option.getD_some]
        rw [if_neg (fun hh => hcn.1 hh.2)]
        simp only [topicNode.clients_mk, topicNode.nodes_mk]
        rw [mapSet_mapSet, mapSet_self hg, topicNode.eta]
      · intro hemp
        have := mapGet_mem hg
        rw [List.length_eq_zero.1 hemp.2] at this
        simp at this

/-! ### addClients -/

theorem mem_foldl_mapSet (l : List (String × Nat)) :
    ∀ (ans : List (String × Nat)) (e : String × Nat),
      e ∈ l.foldl (fun ans e => mapSet ans e.1 e.2) ans → e ∈ ans ∨ e ∈ l := by
  induction l with
  | nil => intro ans e h; exact Or.inl h
  | cons x l ih =>
    intro ans e h
    simp only [List.foldl_cons] at h
    rcases ih _ e h with h | h
    · rcases mem_mapSet h with h | h
      · exact Or.inl h
      · exact Or.inr (h ▸ List.mem_cons_self _ _)
    · exact Or.inr (List.mem_cons_of_mem _ h)

theorem keys_foldl_mapSet_mono (l : List (String × Nat)) :
    ∀ (ans : List (String × Nat)) (c : String),
      c ∈ ans.map Prod.fst → c ∈ (l.foldl (fun ans e => mapSet ans e.1 e.2) ans).map Prod.fst := by
  induction l with
  | nil => intro ans c h; exact h
  | cons x l ih =>
    intro ans c h
    simp only [List.foldl_cons]
    exact ih _ c (mem_keys_mapSet_of_mem _ _ h)

theorem keys_foldl_mapSet_mem (l : List (String × Nat)) :
    ∀ (ans : List (String × Nat)) (c : String),
      c ∈ l.map Prod.fst → c ∈ (l.foldl (fun ans e => mapSet ans e.1 e.2) ans).map Prod.fst := by
  induction l with
  | nil => intro ans c h; simp at h
  | cons x l ih =>
    intro ans c h
    simp only [List.foldl_cons]
    simp only [List.map_cons, List.mem_cons] at h
    rcases h with h | h
    · exact keys_foldl_mapSet_mono l _ c (h ▸ mem_keys_mapSet_self _ _ _)
    · exact ih _ c h

theorem mem_addClients {node : topicNode} {ans : List (String × Nat)} {e : String × Nat}
    (h : e ∈ node.addClients ans) : e ∈ ans ∨ e ∈ node.clients :=
  mem_foldl_mapSet _ _ _ h

theorem keys_addClients_mono (node : topicNode) {ans : List (String × Nat)} {c : String}
    (h : c ∈ ans.map Prod.fst) : c ∈ (node.addClients ans).map Prod.fst :=
  keys_foldl_mapSet_mono _ _ _ h

theorem keys_addClients_mem {node : topicNode} (ans : List (String × Nat)) {c : String}
    (h : c ∈ node.clients.map Prod.fst) : c ∈ (node.addClients ans).map Prod.fst :=
  keys_foldl_mapSet_mem _ _ _ h

/-! ### The loops of findSubscribers -/

theorem scanChildren_sound (t : String) (ch : List (String × topicNode)) :
    ∀ (ans : List (String × Nat)) (next : List topicNode),
      (∀ e ∈ (scanChildren t ch (ans, next)).1,
        e ∈ ans ∨ ∃ m, ("#", m) ∈ ch ∧ e ∈ m.clients) ∧
      (∀ n ∈ (scanChildren t ch (ans, next)).2,
        n ∈ next ∨ ∃ k, (k, n) ∈ ch ∧ k ≠ "#" ∧ (k = "+" ∨ k = t)) := by
  induction ch with
  | nil => intro ans next; simp [scanChildren]
  | cons x ch ih =>
    obtain ⟨k, m⟩ := x
    intro ans next
    simp only [scanChildren]
    split
    · next hk =>
      subst hk
      obtain ⟨h1, h2⟩ := ih (m.addClients ans) next
      constructor
      · intro e he
        rcases h1 e he with h | ⟨m2, hm, hc⟩
        · rcases mem_addClients h with h | h
          · exact Or.inl h
          · exact Or.inr ⟨m, List.mem_cons_self _ _, h⟩
        · exact Or.inr ⟨m2, List.mem_cons_of_mem _ hm, hc⟩
      · intro n hn
        rcases h2 n hn with h | ⟨k, hm, hc⟩
        · exact Or.inl h
        · exact Or.inr ⟨k, List.mem_cons_of_mem _ hm, hc⟩
    · next hk =>
      split
      · next hk2 =>
        obtain ⟨h1, h2⟩ := ih ans (next ++ [m])
        constructor
        · intro e he
          rcases h1 e he with h | ⟨m2, hm, hc⟩
          · exact Or.inl h
          · exact Or.inr ⟨m2, List.mem_cons_of_mem _ hm, hc⟩
        · intro n hn
          rcases h2 n hn with h | ⟨k2, hm, hc⟩
          · simp only [List.mem_append, List.mem_singleton] at h
            rcases h with h | h
            · exact Or.inl h
            · subst h
              exact Or.inr ⟨k, List.mem_cons_self _ _, hk, hk2⟩
          · exact Or.inr ⟨k2, List.mem_cons_of_mem _ hm, hc⟩
      · obtain ⟨h1, h2⟩ := ih ans next
        constructor
        · intro e he
          rcases h1 e he with h | ⟨m2, hm, hc⟩
          · exact Or.inl h
          · exact Or.inr ⟨m2, List.mem_cons_of_mem _ hm, hc⟩
        · intro n hn
          rcases h2 n hn with h | ⟨k2, hm, hc⟩
          · exact Or.inl h
          · exact Or.inr ⟨k2, List.mem_cons_of_mem _ hm, hc⟩

theorem scanChildren_complete (t : String) (ch : List (String × topicNode)) :
    ∀ (ans : List (String × Nat)) (next : List topicNode),
      (∀ c, (c ∈ ans.map Prod.fst ∨ ∃ m, ("#", m) ∈ ch ∧ c ∈ m.clients.map Prod.fst) →
        c ∈ (scanChildren t ch (ans, next)).1.map Prod.fst) ∧
      (∀ n, (n ∈ next ∨ ∃ k, (k, n) ∈ ch ∧ k ≠ "#" ∧ (k = "+" ∨ k = t)) →
        n ∈ (scanChildren t ch (ans, next)).2) := by
  induction ch with
  | nil => intro ans next; simp [scanChildren]
  | cons x ch ih =>
    obtain ⟨k, m⟩ := x
    intro ans next
    simp only [scanChildren]
    split
    · next hk =>
      subst hk
      obtain ⟨h1, h2⟩ := ih (m.addClients ans) next
      constructor
      · intro c hc
        apply h1
        rcases hc with hc | ⟨m2, hm, hc⟩
        · exact Or.inl (keys_addClients_mono m hc)
        · simp only [List.mem_cons, Prod.mk.injEq, true_and] at hm
          rcases hm with hm | hm
          · subst hm; exact Or.inl (keys_addClients_mem ans hc)
          · exact Or.inr ⟨m2, hm, hc⟩
      · intro n hn
        apply h2
        rcases hn with hn | ⟨k, hm, hk1, hk2⟩
        · exact Or.inl hn
        · simp only [List.mem_cons, Prod.mk.injEq] at hm
          rcases hm with hm | hm
          · exact absurd hm.1 hk1
          · exact Or.inr ⟨k, hm, hk1, hk2⟩
    · next hk =>
      split
      · next hk2 =>
        obtain ⟨h1, h2⟩ := ih ans (next ++ [m])
        constructor
        · intro c hc
          apply h1
          rcases hc with hc | ⟨m2, hm, hc⟩
          · exact Or.inl hc
          · simp only [List.mem_cons, Prod.mk.injEq] at hm
            rcases hm with hm | hm
            · exact absurd hm.1.symm hk
            · exact Or.inr ⟨m2, hm, hc⟩
        · intro n hn
          apply h2
          rcases hn with hn | ⟨k3, hm, hk1, hk3⟩
          · exact Or.inl (List.mem_append_left _ hn)
          · simp only [List.mem_cons, Prod.mk.injEq] at hm
            rcases hm with hm | hm
            · exact Or.inl (by simp [hm.2])
            · exact Or.inr ⟨k3, hm, hk1, hk3⟩
      · next hk2 =>
        obtain ⟨h1, h2⟩ := ih ans next
        constructor
        · intro c hc
          apply h1
          rcases hc with hc | ⟨m2, hm, hc⟩
          · exact Or.inl hc
          · simp only [List.mem_cons, Prod.mk.injEq] at hm
            rcases hm with hm | hm
            · exact absurd hm.1.symm hk
            · exact Or.inr ⟨m2, hm, hc⟩
        · intro n hn
          apply h2
          rcases hn with hn | ⟨k3, hm, hk1, hk3⟩
          · exact Or.inl hn
          · simp only [List.mem_cons, Prod.mk.injEq] at hm
            rcases hm with hm | hm
            · exact absurd (hm.1 ▸ hk3) hk2
            · exact Or.inr ⟨k3, hm, hk1, hk3⟩

theorem scanFrontier_sound (t : String) (cur : List topicNode) :
    ∀ (acc : List (String × Nat) × List topicNode),
      (∀ e ∈ (scanFrontier t cur acc).1,
        e ∈ acc.1 ∨ ∃ n ∈ cur, ∃ m, ("#", m) ∈ n.nodes ∧ e ∈ m.clients) ∧
      (∀ n2 ∈ (scanFrontier t cur acc).2,
        n2 ∈ acc.2 ∨ ∃ n ∈ cur, ∃ k, (k, n2) ∈ n.nodes ∧ k ≠ "#" ∧ (k = "+" ∨ k = t)) := by
  induction cur with
  | nil => intro acc; simp [scanFrontier]
  | cons n cur ih =>
    intro acc
    obtain ⟨ans, next⟩ := acc
    simp only [scanFrontier, List.foldl_cons]
    obtain ⟨h1, h2⟩ := ih (scanChildren t n.nodes (ans, next))
    obtain ⟨g1, g2⟩ := scanChildren_sound t n.nodes ans next
    simp only [scanFrontier] at h1 h2
    constructor
    · intro e he
      rcases h1 e he with h | ⟨n3, hn3, hx⟩
      · rcases g1 e h with h | hx
        · exact Or.inl h
        · exact Or.inr ⟨n, List.mem_cons_self _ _, hx⟩
      · exact Or.inr ⟨n3, List.mem_cons_of_mem _ hn3, hx⟩
    · intro n2 hn2
      rcases h2 n2 hn2 with h | ⟨n3, hn3, hx⟩
      · rcases g2 n2 h with h | hx
        · exact Or.inl h
        · exact Or.inr ⟨n, List.mem_cons_self _ _, hx⟩
      · exact Or.inr ⟨n3, List.mem_cons_of_mem _ hn3, hx⟩

theorem scanFrontier_complete (t : String) (cur : List topicNode) :
    ∀ (acc : List (String × Nat) × List topicNode),
      (∀ c, (c ∈ acc.1.map Prod.fst ∨
          ∃ n ∈ cur, ∃ m, ("#", m) ∈ n.nodes ∧ c ∈ m.clients.map Prod.fst) →
        c ∈ (scanFrontier t cur acc).1.map Prod.fst) ∧
      (∀ n2, (n2 ∈ acc.2 ∨ ∃ n ∈ cur, ∃ k, (k, n2) ∈ n.nodes ∧ k ≠ "#" ∧ (k = "+" ∨ k = t)) →
        n2 ∈ (scanFrontier t cur acc).2) := by
  induction cur with
  | nil => intro acc; simp [scanFrontier]
  | cons n cur ih =>
    intro acc
    obtain ⟨ans, next⟩ := acc
    simp only [scanFrontier, List.foldl_cons]
    obtain ⟨h1, h2⟩ := ih (scanChildren t n.nodes (ans, next))
    obtain ⟨g1, g2⟩ := scanChildren_complete t n.nodes ans next
    simp only [scanFrontier] at h1 h2
    constructor
    · intro c hc
      apply h1
      rcases hc with hc | ⟨n3, hn3, hx⟩
      · exact Or.inl (g1 c (Or.inl hc))
      · simp only [List.mem_cons] at hn3
        rcases hn3 with hn3 | hn3
        · subst hn3; exact Or.inl (g1 c (Or.inr hx))
        · exact Or.inr ⟨n3, hn3, hx⟩
    · intro n2 hn2
      apply h2
      rcases hn2 with hn2 | ⟨n3, hn3, hx⟩
      · exact Or.inl (g2 n2 (Or.inl hn2))
      · simp only [List.mem_cons] at hn3
        rcases hn3 with hn3 | hn3
        · subst hn3; exact Or.inl (g2 n2 (Or.inr hx))
        · exact Or.inr ⟨n3, hn3, hx⟩

theorem finishFrontier_sound (cur : List topicNode) :
    ∀ (ans : List (String × Nat)), ∀ e ∈ finishFrontier cur ans,
      e ∈ ans ∨ ∃ n ∈ cur, e ∈ n.clients ∨ ∃ m, mapGet n.nodes "#" = some m ∧ e ∈ m.clients := by
  induction cur with
  | nil => intro ans e he; exact Or.inl he
  | cons n cur ih =>
    intro ans e he
    simp only [finishFrontier, List.foldl_cons] at he
    rcases ih _ e he with h | ⟨n3, hn3, hx⟩
    · cases hg : mapGet n.nodes "#" with
      | none =>
        simp only [hg] at h
        rcases mem_addClients h with h | h
        · exact Or.inl h
        · exact Or.inr ⟨n, List.mem_cons_self _ _, Or.inl h⟩
      | some m =>
        simp only [hg] at h
        rcases mem_addClients h with h | h
        · rcases mem_addClients h with h | h
          · exact Or.inl h
          · exact Or.inr ⟨n, List.mem_cons_self _ _, Or.inl h⟩
        · exact Or.inr ⟨n, List.mem_cons_self _ _, Or.inr ⟨m, hg, h⟩⟩
    · exact Or.inr ⟨n3, List.mem_cons_of_mem _ hn3, hx⟩

theorem finishFrontier_complete (cur : List topicNode) :
    ∀ (ans : List (String × Nat)) (c : String),
      (c ∈ ans.map Prod.fst ∨ ∃ n ∈ cur, c ∈ n.clients.map Prod.fst ∨
        ∃ m, mapGet n.nodes "#" = some m ∧ c ∈ m.clients.map Prod.fst) →
      c ∈ (finishFrontier cur ans).map Prod.fst := by
  induction cur with
  | nil => intro ans c hc; simpa [finishFrontier] using hc
  | cons n cur ih =>
    intro ans c hc
    simp only [finishFrontier, List.foldl_cons]
    apply ih
    have hstep : (c ∈ ans.map Prod.fst ∨ c ∈ n.clients.map Prod.fst ∨
        ∃ m, mapGet n.nodes "#" = some m ∧ c ∈ m.clients.map Prod.fst) →
        c ∈ (match mapGet n.nodes "#" with
          | some val => val.addClients (n.addClients ans)
          | none => n.addClients ans).map Prod.fst := by
      intro h
      cases hg : mapGet n.nodes "#" with
      | none =>
        simp only
        rcases h with h | h | ⟨m, hm, _⟩
        · exact keys_addClients_mono n h
        · exact keys_addClients_mem ans h
        · rw [hg] at hm; simp at hm
      | some m =>
        simp only
        rcases h with h | h | ⟨m2, hm, h⟩
        · exact keys_addClients_mono m (keys_addClients_mono n h)
        · exact keys_addClients_mono m (keys_addClients_mem ans h)
        · rw [hg] at hm
          simp only [Option.some.injEq] at hm
          subst hm
          exact keys_addClients_mem _ h
    rcases hc with hc | ⟨n3, hn3, hx⟩
    · exact Or.inl (hstep (Or.inl hc))
    · simp only [List.mem_cons] at hn3
      rcases hn3 with hn3 | hn3
      · subst hn3; exact Or.inl (hstep (Or.inr hx))
      · exact Or.inr ⟨n3, hn3, hx⟩

theorem findLevels_nil (cur : List topicNode) (ans : List (String × Nat)) :
    findLevels [] cur ans = finishFrontier cur ans := rfl

theorem findLevels_cons (t : String) (ts : List String) (cur : List topicNode)
    (ans : List (String × Nat)) :
    findLevels (t :: ts) cur ans =
      if (scanFrontier t cur (ans, [])).2.length = 0 then (scanFrontier t cur (ans, [])).1
      else findLevels ts (scanFrontier t cur (ans, [])).2 (scanFrontier t cur (ans, [])).1 := by
  simp only [findLevels]

/-- Every entry of the result of `findLevels` was in `ans` already or is a client entry of a
node below a frontier node, along a path that the remaining topic levels select. -/
theorem findLevels_sound (levels : List String) :
    ∀ (cur : List topicNode) (ans : List (String × Nat)), (∀ n ∈ cur, n.WF) →
      ∀ e ∈ findLevels levels cur ans,
        e ∈ ans ∨ ∃ n ∈ cur, ∃ path m, walk path n = some m ∧
          mapGet m.clients e.1 = some e.2 ∧ TrieMatch path levels := by
  induction levels with
  | nil =>
    intro cur ans hwf e he
    rw [findLevels_nil] at he
    rcases finishFrontier_sound cur ans e he with h | ⟨n, hn, h | ⟨m, hm, h⟩⟩
    · exact Or.inl h
    · right
      refine ⟨n, hn, [], n, rfl, ?_, TrieMatch.nil⟩
      exact mapGet_of_mem ((WF_iff n).1 (hwf n hn)).1 h
    · right
      refine ⟨n, hn, ["#"], m, ?_, ?_, TrieMatch.hash []⟩
      · simp [walk, hm]
      · exact mapGet_of_mem ((WF_iff m).1 (WF_child (hwf n hn) hm)).1 h
  | cons t ts ih =>
    intro cur ans hwf e he
    rw [findLevels_cons] at he
    obtain ⟨h1, h2⟩ := scanFrontier_sound t cur (ans, [])
    have hans : ∀ e ∈ (scanFrontier t cur (ans, [])).1,
        e ∈ ans ∨ ∃ n ∈ cur, ∃ path m, walk path n = some m ∧
          mapGet m.clients e.1 = some e.2 ∧ TrieMatch path (t :: ts) := by
      intro e he
      rcases h1 e he with h | ⟨n, hn, m, hm, h⟩
      · exact Or.inl h
      · right
        have hwn := (WF_iff n).1 (hwf n hn)
        have hg : mapGet n.nodes "#" = some m := mapGet_of_mem hwn.2.1 hm
        refine ⟨n, hn, ["#"], m, ?_, ?_, TrieMatch.hash _⟩
        · simp [walk, hg]
        · exact mapGet_of_mem ((WF_iff m).1 (hwn.2.2 _ hm)).1 h
    split at he
    · exact hans e he
    · have hwf2 : ∀ n ∈ (scanFrontier t cur (ans, [])).2, n.WF := by
        intro n2 hn2
        rcases h2 n2 hn2 with h | ⟨n, hn, k, hk, _⟩
        · simp at h
        · exact ((WF_iff n).1 (hwf n hn)).2.2 _ hk
      rcases ih _ _ hwf2 e he with h | ⟨n2, hn2, path, m, hw, hc, hmatch⟩
      · exact hans e h
      · right
        rcases h2 n2 hn2 with h | ⟨n, hn, k, hk, hk1, hk2⟩
        · simp at h
        · have hg : mapGet n.nodes k = some n2 :=
            mapGet_of_mem ((WF_iff n).1 (hwf n hn)).2.1 hk
          refine ⟨n, hn, k :: path, m, ?_, hc, TrieMatch.cons hk1 hk2 hmatch⟩
          simp [walk, hg, hw]

/-- Every client recorded at a node below a frontier node, along a path that the remaining
topic levels select, is a key of the result of `findLevels`; keys of `ans` are kept. -/
theorem findLevels_complete (levels : List String) :
    ∀ (cur : List topicNode) (ans : List (String × Nat)) (c : String),
      (c ∈ ans.map Prod.fst ∨ ∃ n ∈ cur, ∃ path m q, walk path n = some m ∧
          mapGet m.clients c = some q ∧ TrieMatch path levels) →
      c ∈ (findLevels levels cur ans).map Prod.fst := by
  induction levels with
  | nil =>
    intro cur ans c h
    rw [findLevels_nil]
    apply finishFrontier_complete
    rcases h with h | ⟨n, hn, path, m, q, hw, hc, hmatch⟩
    · exact Or.inl h
    · right
      refine ⟨n, hn, ?_⟩
      cases hmatch with
      | hash _ =>
        right
        simp only [walk] at hw
        cases hg : mapGet n.nodes "#" with
        | none => rw [hg] at hw; simp at hw
        | some m2 =>
          rw [hg] at hw
          simp only [Option.some.injEq] at hw
          subst hw
          exact ⟨m2, rfl, List.mem_map_of_mem Prod.fst (mapGet_mem hc)⟩
      | nil =>
        left
        simp only [walk, Option.some.injEq] at hw
        subst hw
        exact List.mem_map_of_mem Prod.fst (mapGet_mem hc)
  | cons t ts ih =>
    intro cur ans c h
    rw [findLevels_cons]
    obtain ⟨h1, h2⟩ := scanFrontier_complete t cur (ans, [])
    have key : c ∈ (scanFrontier t cur (ans, [])).1.map Prod.fst ∨
        ∃ n2 ∈ (scanFrontier t cur (ans, [])).2, ∃ path m q, walk path n2 = some m ∧
          mapGet m.clients c = some q ∧ TrieMatch path ts := by
      rcases h with h | ⟨n, hn, path, m, q, hw, hc, hmatch⟩
      · exact Or.inl (h1 c (Or.inl h))
      · cases hmatch with
        | hash _ =>
          left
          simp only [walk] at hw
          cases hg : mapGet n.nodes "#" with
          | none => rw [hg] at hw; simp at hw
          | some m2 =>
            rw [hg] at hw
            simp only [Option.some.injEq] at hw
            subst hw
            exact h1 c (Or.inr ⟨n, hn, m2, mapGet_mem hg,
              List.mem_map_of_mem Prod.fst (mapGet_mem hc)⟩)
        | @cons f _ filter _ hf1 hf2 hrest =>
          right
          simp only [walk] at hw
          cases hg : mapGet n.nodes f with
          | none => rw [hg] at hw; simp at hw
          | some n2 =>
            rw [hg] at hw
            exact ⟨n2, h2 n2 (Or.inr ⟨n, hn, f, mapGet_mem hg, hf1, hf2⟩), filter, m, q, hw, hc,
              hrest⟩
    split
    · next hlen =>
      rcases key with hk | ⟨n2, hn2, _⟩
      · exact hk
      · rw [List.length_eq_zero.1 hlen] at hn2
        simp at hn2
    · exact ih _ _ c key

/-! ### The selected paths and the matching rule -/

theorem levelsMatch_cons (f t : String) (fs ts : List String) :
    levelsMatch (f :: fs) (t :: ts) = true ↔ (f = "+" ∨ f = t) ∧ levelsMatch fs ts = true := by
  simp [levelsMatch]

theorem levelsMatch_nil_left (ts : List String) : levelsMatch [] ts = true ↔ ts = [] := by
  cases ts <;> simp [levelsMatch]

theorem levelsMatch_nil_right (fs : List String) : levelsMatch fs [] = true ↔ fs = [] := by
  cases fs <;> simp [levelsMatch]

theorem filterMatches_iff (filter topic : List String) :
    filterMatches filter topic = true ↔
      levelsMatch filter topic = true ∨
        (filter.getLast? = some "#" ∧
          levelsMatch filter.dropLast (topic.take filter.dropLast.length) = true) := by
  simp [filterMatches]

theorem filterMatches_of_trieMatch {filter topic : List String} (h : TrieMatch filter topic) :
    filterMatches filter topic = true := by
  induction h with
  | hash topic => simp [filterMatches, levelsMatch]
  | nil => simp [filterMatches, levelsMatch]
  | @cons f t filter topic _ hft hrest ih =>
    rw [filterMatches_iff] at ih ⊢
    rcases ih with ih | ⟨hlast, hpre⟩
    · exact Or.inl ((levelsMatch_cons _ _ _ _).2 ⟨hft, ih⟩)
    · right
      cases filter with
      | nil => simp at hlast
      | cons f2 filter =>
        refine ⟨by simpa using hlast, ?_⟩
        simp only [List.dropLast_cons₂, List.length_cons, List.take_succ_cons]
        exact (levelsMatch_cons _ _ _ _).2 ⟨hft, hpre⟩

theorem trieMatch_of_filterMatches (filter : List String) :
    ∀ topic : List String, hashOnlyLast filter → filterMatches filter topic = true →
      TrieMatch filter topic := by
  induction filter with
  | nil =>
    intro topic _ h
    rw [filterMatches_iff] at h
    rcases h with h | ⟨hlast, _⟩
    · rw [(levelsMatch_nil_left topic).1 h]; exact TrieMatch.nil
    · simp at hlast
  | cons f filter ih =>
    intro topic hvalid h
    cases filter with
    | nil =>
      by_cases hf : f = "#"
      · subst hf; exact TrieMatch.hash _
      · rw [filterMatches_iff] at h
        rcases h with h | ⟨hlast, _⟩
        · cases topic with
          | nil => simp [levelsMatch] at h
          | cons t topic =>
            rw [levelsMatch_cons] at h
            rw [(levelsMatch_nil_left topic).1 h.2]
            exact TrieMatch.cons hf h.1 TrieMatch.nil
        · simp at hlast; exact absurd hlast hf
    | cons f2 filter =>
      obtain ⟨hf, hvalid2⟩ := hvalid
      rw [filterMatches_iff] at h
      cases topic with
      | nil =>
        rcases h with h | ⟨_, h⟩
        · simp [levelsMatch] at h
        · simp [levelsMatch] at h
      | cons t topic =>
        rcases h with h | ⟨hlast, h⟩
        · rw [levelsMatch_cons] at h
          exact TrieMatch.cons hf h.1 (ih topic hvalid2 (by rw [filterMatches_iff]; exact Or.inl h.2))
        · simp only [List.dropLast_cons₂, List.length_cons, List.take_succ_cons] at h
          rw [levelsMatch_cons] at h
          refine TrieMatch.cons hf h.1 (ih topic hvalid2 ?_)
          rw [filterMatches_iff]
          exact Or.inr ⟨by simpa using hlast, h.2⟩

theorem levelsMatch_refl (levels : List String) : levelsMatch levels levels = true := by
  induction levels with
  | nil => rfl
  | cons l ls ih => simp [levelsMatch, ih]

theorem filterMatches_refl (levels : List String) : filterMatches levels levels = true := by
  simp [filterMatches, levelsMatch_refl]

theorem consistent_newTopicLevelManager (cacheSize : Nat) :
    (newTopicLevelManager cacheSize).Consistent := by
  intro e he
  simp [newTopicLevelManager] at he

theorem get_of_valid {t : topicLevelManager} {topic : String} {levels : List String}
    (hc : t.Consistent) (hv : splitTopic topic = .valid levels) :
    (t.get topic).2 = .ok levels ∧ (t.get topic).1.Consistent := by
  unfold topicLevelManager.get lruCache.Get
  cases hg : mapGet t.data.items topic with
  | some val =>
    have hval := hc _ (mapGet_mem hg)
    simp only at hval
    rw [hv] at hval
    simp only [SplitResult.valid.injEq] at hval
    subst hval
    refine ⟨rfl, ?_⟩
    intro e he
    simp only [List.mem_cons] at he
    rcases he with he | he
    · subst he; exact hv
    · exact hc e (mem_mapDelete he).1
  | none =>
    simp only [hv]
    refine ⟨trivial, ?_⟩
    intro e he
    simp only [lruCache.Add, hg] at he
    have hmem : e ∈ (topic, levels) :: t.data.items := by
      split at he
      · exact List.mem_of_mem_dropLast he
      · exact he
    simp only [List.mem_cons] at hmem
    rcases hmem with hmem | hmem
    · subst hmem; exact hv
    · exact hc e hmem

theorem get_of_invalid {t : topicLevelManager} {topic : String}
    (hc : t.Consistent) (hv : splitTopic topic = .invalid) :
    t.get topic = (t, .error (invalidTopicErr topic)) := by
  unfold topicLevelManager.get lruCache.Get
  cases hg : mapGet t.data.items topic with
  | some val =>
    have hval := hc _ (mapGet_mem hg)
    simp only at hval
    rw [hv] at hval
    exact absurd hval (by simp)
  | none =>
    simp only [hv]
    rfl

theorem splitTopic_cases (topic : String) :
    splitTopic topic = .invalid ∨ ∃ levels, splitTopic topic = .valid levels := by
  cases h : splitTopic topic with
  | panic => exact absurd h (splitTopic_ne_panic topic)
  | invalid => exact Or.inl rfl
  | valid levels => exact Or.inr ⟨levels, rfl⟩

/-! ### insert, remove, findSubscribers on the manager -/

theorem insert_of_valid {mgr : TopicManager} {topic : String} {levels : List String}
    (qos : Nat) (c : String) (hc : mgr.levelMgr.Consistent)
    (hv : splitTopic topic = .valid levels) :
    (mgr.insert topic qos c).2 = none ∧
      (mgr.insert topic qos c).1.root = insertLevels levels qos c mgr.root ∧
      (mgr.insert topic qos c).1.levelMgr.Consistent := by
  obtain ⟨h1, h2⟩ := get_of_valid hc hv
  unfold TopicManager.insert TopicManager.getLevels
  rcases hget : mgr.levelMgr.get topic with ⟨lm, r⟩
  rw [hget] at h1 h2
  simp only at h1 h2
  subst h1
  exact ⟨rfl, rfl, h2⟩

theorem insert_of_invalid {mgr : TopicManager} {topic : String}
    (qos : Nat) (c : String) (hc : mgr.levelMgr.Consistent)
    (hv : splitTopic topic = .invalid) :
    mgr.insert topic qos c = (mgr, some (invalidTopicErr topic)) := by
  unfold TopicManager.insert TopicManager.getLevels
  rw [get_of_invalid hc hv]

theorem remove_of_valid {mgr : TopicManager} {topic : String} {levels : List String}
    (c : String) (hc : mgr.levelMgr.Consistent)
    (hv : splitTopic topic = .valid levels) :
    (mgr.remove topic c).2 = none ∧
      (mgr.remove topic c).1.root =
        (match removeLevels levels c mgr.root with
          | none => mgr.root
          | some (root, _) => root) ∧
      (mgr.remove topic c).1.levelMgr.Consistent := by
  obtain ⟨h1, h2⟩ := get_of_valid hc hv
  unfold TopicManager.remove TopicManager.getLevels
  rcases hget : mgr.levelMgr.get topic with ⟨lm, r⟩
  rw [hget] at h1 h2
  simp only at h1 h2
  subst h1
  dsimp only
  cases hr : removeLevels levels c mgr.root with
  | none => exact ⟨rfl, rfl, h2⟩
  | some p => exact ⟨rfl, rfl, h2⟩

theorem remove_of_invalid {mgr : TopicManager} {topic : String}
    (c : String) (hc : mgr.levelMgr.Consistent)
    (hv : splitTopic topic = .invalid) :
    mgr.remove topic c = (mgr, some (invalidTopicErr topic)) := by
  unfold TopicManager.remove TopicManager.getLevels
  rw [get_of_invalid hc hv]

theorem findSubscribers_of_valid {mgr : TopicManager} {topic : String} {levels : List String}
    (hc : mgr.levelMgr.Consistent) (hv : splitTopic topic = .valid levels) :
    (mgr.findSubscribers topic).2 = .ok (findLevels levels [mgr.root] []) ∧
      (mgr.findSubscribers topic).1.root = mgr.root ∧
      (mgr.findSubscribers topic).1.levelMgr.Consistent := by
  obtain ⟨h1, h2⟩ := get_of_valid hc hv
  unfold TopicManager.findSubscribers TopicManager.getLevels
  rcases hget : mgr.levelMgr.get topic with ⟨lm, r⟩
  rw [hget] at h1 h2
  simp only at h1 h2
  subst h1
  exact ⟨rfl, rfl, h2⟩

theorem findSubscribers_of_invalid {mgr : TopicManager} {topic : String}
    (hc : mgr.levelMgr.Consistent) (hv : splitTopic topic = .invalid) :
    mgr.findSubscribers topic = (mgr, .error (invalidTopicErr topic)) := by
  unfold TopicManager.findSubscribers TopicManager.getLevels
  rw [get_of_invalid hc hv]

theorem subscribe_nil (mgr : TopicManager) (qoss : List Nat) (c : String) :
    mgr.subscribe [] qoss c = (mgr, none) := by
  unfold TopicManager.subscribe; rfl

theorem subscribe_cons_nil (mgr : TopicManager) (t : String) (ts : List String) (c : String) :
    mgr.subscribe (t :: ts) [] c = (mgr, some .panic) := by
  unfold TopicManager.subscribe; rfl

theorem subscribe_cons_of_valid {mgr : TopicManager} {t : String} {levels : List String}
    (ts : List String) (q : Nat) (qs : List Nat) (c : String)
    (hc : mgr.levelMgr.Consistent) (hv : splitTopic t = .valid levels) :
    mgr.subscribe (t :: ts) (q :: qs) c = (mgr.insert t q c).1.subscribe ts qs c := by
  obtain ⟨h1, _, _⟩ := insert_of_valid q c hc hv
  rw [TopicManager.subscribe]
  rcases hi : mgr.insert t q c with ⟨m, e⟩
  rw [hi] at h1
  simp only at h1
  subst h1
  rfl

theorem subscribe_cons_of_invalid {mgr : TopicManager} {t : String}
    (ts : List String) (q : Nat) (qs : List Nat) (c : String)
    (hc : mgr.levelMgr.Consistent) (hv : splitTopic t = .invalid) :
    mgr.subscribe (t :: ts) (q :: qs) c = (mgr, some (invalidTopicErr t)) := by
  rw [TopicManager.subscribe, insert_of_invalid q c hc hv]

theorem unsubscribe_nil (mgr : TopicManager) (c : String) :
    mgr.unsubscribe [] c = (mgr, none) := by
  unfold TopicManager.unsubscribe; rfl

theorem unsubscribe_cons_of_valid {mgr : TopicManager} {t : String} {levels : List String}
    (ts : List String) (c : String)
    (hc : mgr.levelMgr.Consistent) (hv : splitTopic t = .valid levels) :
    mgr.unsubscribe (t :: ts) c = (mgr.remove t c).1.unsubscribe ts c := by
  obtain ⟨h1, _, _⟩ := remove_of_valid c hc hv
  rw [TopicManager.unsubscribe]
  rcases hi : mgr.remove t c with ⟨m, e⟩
  rw [hi] at h1
  simp only at h1
  subst h1
  rfl

theorem unsubscribe_cons_of_invalid {mgr : TopicManager} {t : String}
    (ts : List String) (c : String)
    (hc : mgr.levelMgr.Consistent) (hv : splitTopic t = .invalid) :
    mgr.unsubscribe (t :: ts) c = (mgr, some (invalidTopicErr t)) := by
  rw [TopicManager.unsubscribe, remove_of_invalid c hc hv]

theorem mapGet_perm {V : Type} {m m2 : List (String × V)} (k : String)
    (hnd : (m.map Prod.fst).Nodup) (hp : m.Perm m2) : mapGet m k = mapGet m2 k := by
  have hnd2 : (m2.map Prod.fst).Nodup := (hp.map Prod.fst).nodup_iff.1 hnd
  cases hg : mapGet m k with
  | some v => exact (mapGet_of_mem hnd2 (hp.mem_iff.1 (mapGet_mem hg))).symm
  | none =>
    have hk : k ∉ m2.map Prod.fst := fun h =>
      mapGet_eq_none_iff.1 hg ((hp.map Prod.fst).mem_iff.2 h)
    exact (mapGet_eq_none_iff.2 hk).symm

theorem Reorder_isEmpty {t t2 : topicNode} (h : Reorder t t2) : t.isEmpty ↔ t2.isEmpty := by
  cases h with
  | clients nodes hp => simp [topicNode.isEmpty, hp.length_eq]
  | nodes clients hp => simp [topicNode.isEmpty, hp.length_eq]
  | child clients before k after _ => simp [topicNode.isEmpty]

theorem WF_reorder {t t2 : topicNode} (h : Reorder t t2) : t.WF → t2.WF := by
  induction h with
  | clients nodes hp =>
    intro hwf
    rw [WF_iff] at hwf ⊢
    exact ⟨(hp.map Prod.fst).nodup_iff.1 hwf.1, hwf.2.1, hwf.2.2⟩
  | nodes clients hp =>
    intro hwf
    rw [WF_iff] at hwf ⊢
    exact ⟨hwf.1, (hp.map Prod.fst).nodup_iff.1 hwf.2.1,
      fun e he => hwf.2.2 e (hp.mem_iff.2 he)⟩
  | child clients before k after _ ih =>
    intro hwf
    rw [WF_iff] at hwf ⊢
    simp only [topicNode.clients_mk, topicNode.nodes_mk, List.map_append, List.map_cons,
      List.mem_append, List.mem_cons] at hwf ⊢
    refine ⟨hwf.1, hwf.2.1, ?_⟩
    intro e he
    rcases he with he | he | he
    · exact hwf.2.2 e (Or.inl he)
    · subst he
      exact ih (hwf.2.2 _ (Or.inr (Or.inl rfl)))
    · exact hwf.2.2 e (Or.inr (Or.inr he))

theorem Compact_reorder {t t2 : topicNode} (h : Reorder t t2) : t.Compact → t2.Compact := by
  induction h with
  | clients nodes hp =>
    intro hc
    rw [Compact_iff] at hc ⊢
    exact hc
  | nodes clients hp =>
    intro hc
    rw [Compact_iff] at hc ⊢
    exact fun e he => hc e (hp.mem_iff.2 he)
  | child clients before k after hr ih =>
    intro hc
    rw [Compact_iff] at hc ⊢
    simp only [topicNode.nodes_mk, List.mem_append, List.mem_cons] at hc ⊢
    intro e he
    rcases he with he | he | he
    · exact hc e (Or.inl he)
    · subst he
      have := hc _ (Or.inr (Or.inl rfl))
      exact ⟨fun hemp => this.1 ((Reorder_isEmpty hr).2 hemp), ih this.2⟩
    · exact hc e (Or.inr (Or.inr he))

theorem getSub_child_congr (before after : List (String × topicNode)) (k : String)
    (m m2 : topicNode) (l : String) (ls : List String) (c : String)
    (h : getSub m ls c = getSub m2 ls c) :
    (match mapGet (before ++ (k, m) :: after) l with
      | none => none
      | some child => getSub child ls c) =
    (match mapGet (before ++ (k, m2) :: after) l with
      | none => none
      | some child => getSub child ls c) := by
  induction before with
  | nil =>
    simp only [List.nil_append, mapGet]
    by_cases hk : k = l
    · simp only [hk, if_true]; exact h
    · simp only [hk, if_false]
  | cons e before ih =>
    obtain ⟨k2, v2⟩ := e
    rw [List.cons_append, List.cons_append]
    simp only [mapGet]
    by_cases hk : k2 = l
    · simp only [hk, if_true]
    · simp only [hk, if_false]; exact ih

/-- The subscriptions recorded in the trie do not depend on the order of the entries. -/
theorem getSub_reorder {t t2 : topicNode} (h : Reorder t t2) :
    t.WF → ∀ (f : List String) (c : String), getSub t f c = getSub t2 f c := by
  induction h with
  | clients nodes hp =>
    intro hwf f c
    cases f with
    | nil =>
      simp only [getSub_nil, topicNode.clients_mk]
      exact mapGet_perm c ((WF_iff _).1 hwf).1 hp
    | cons l ls => simp only [getSub_cons, topicNode.nodes_mk]
  | @nodes clients nodes nodes2 hp =>
    intro hwf f c
    cases f with
    | nil => simp only [getSub_nil, topicNode.clients_mk]
    | cons l ls =>
      simp only [getSub_cons, topicNode.nodes_mk]
      have hm : mapGet nodes l = mapGet nodes2 l := mapGet_perm l ((WF_iff _).1 hwf).2.1 hp
      rw [hm]
  | @child clients before k m m2 after _ ih =>
    intro hwf f c
    cases f with
    | nil => simp only [getSub_nil, topicNode.clients_mk]
    | cons l ls =>
      simp only [getSub_cons, topicNode.nodes_mk]
      apply getSub_child_congr
      exact ih (((WF_iff _).1 hwf).2.2 (k, m) (by simp)) ls c

theorem Inv_init (cacheSize : Nat) : Inv (newTopicManager cacheSize) SubTable.empty where
  wf := WF_newNode
  compact := Compact_newNode
  cache := consistent_newTopicLevelManager cacheSize
  table := fun f c => getSub_newNode f c
  valid := fun f c q h => by simp [SubTable.empty] at h

theorem Inv_insert {mgr : TopicManager} {S : SubTable} {t : String} {levels : List String}
    (q : Nat) (c : String) (h : Inv mgr S) (hv : splitTopic t = .valid levels) :
    Inv (mgr.insert t q c).1 (S.put levels c q) := by
  obtain ⟨_, h2, h3⟩ := insert_of_valid q c h.cache hv
  refine ⟨?_, ?_, h3, ?_, ?_⟩
  · rw [h2]; exact WF_insertLevels _ _ _ _ h.wf
  · rw [h2]; exact Compact_insertLevels _ _ _ _ h.compact
  · intro f c2
    rw [h2, getSub_insertLevels, h.table]
    rfl
  · intro f c2 q2 hs
    simp only [SubTable.put] at hs
    split at hs
    · next hc => exact ⟨t, hc.1 ▸ hv⟩
    · exact h.valid f c2 q2 hs

theorem Inv_remove {mgr : TopicManager} {S : SubTable} {t : String} {levels : List String}
    (c : String) (h : Inv mgr S) (hv : splitTopic t = .valid levels) :
    Inv (mgr.remove t c).1 (S.del levels c) := by
  obtain ⟨_, h2, h3⟩ := remove_of_valid c h.cache hv
  have hvalid : ∀ f c2 q, S.del levels c f c2 = some q → ∃ topic, splitTopic topic = .valid f := by
    intro f c2 q2 hs
    simp only [SubTable.del] at hs
    split at hs
    · simp at hs
    · exact h.valid f c2 q2 hs
  cases hr : removeLevels levels c mgr.root with
  | none =>
    rw [hr] at h2
    simp only at h2
    refine ⟨h2 ▸ h.wf, h2 ▸ h.compact, h3, ?_, hvalid⟩
    intro f c2
    rw [h2, h.table]
    simp only [SubTable.del]
    split
    · next hc =>
      rw [← h.table, hc.1]
      exact getSub_of_removeLevels_none levels c mgr.root hr c2
    · rfl
  | some p =>
    obtain ⟨root, cl⟩ := p
    rw [hr] at h2
    simp only at h2
    refine ⟨h2 ▸ WF_removeLevels _ _ _ _ _ h.wf hr, h2 ▸ Compact_removeLevels _ _ _ _ _ h.compact hr,
      h3, ?_, hvalid⟩
    intro f c2
    rw [h2, getSub_removeLevels levels c mgr.root root cl hr, h.table]
    rfl

theorem Inv_subscribe (c : String) (topics : List String) :
    ∀ (qoss : List Nat) (mgr : TopicManager) (S : SubTable), Inv mgr S →
      Inv (mgr.subscribe topics qoss c).1 (S.subscribe topics qoss c) := by
  induction topics with
  | nil => intro qoss mgr S h; rw [subscribe_nil]; exact h
  | cons t ts ih =>
    intro qoss mgr S h
    cases qoss with
    | nil => rw [subscribe_cons_nil]; exact h
    | cons q qs =>
      rcases splitTopic_cases t with hv | ⟨levels, hv⟩
      · rw [subscribe_cons_of_invalid ts q qs c h.cache hv]
        simp only [SubTable.subscribe, hv]
        exact h
      · rw [subscribe_cons_of_valid ts q qs c h.cache hv]
        simp only [SubTable.subscribe, hv]
        exact ih qs _ _ (Inv_insert q c h hv)

theorem Inv_unsubscribe (c : String) (topics : List String) :
    ∀ (mgr : TopicManager) (S : SubTable), Inv mgr S →
      Inv (mgr.unsubscribe topics c).1 (S.unsubscribe topics c) := by
  induction topics with
  | nil => intro mgr S h; rw [unsubscribe_nil]; exact h
  | cons t ts ih =>
    intro mgr S h
    rcases splitTopic_cases t with hv | ⟨levels, hv⟩
    · rw [unsubscribe_cons_of_invalid ts c h.cache hv]
      simp only [SubTable.unsubscribe, hv]
      exact h
    · rw [unsubscribe_cons_of_valid ts c h.cache hv]
      simp only [SubTable.unsubscribe, hv]
      exact ih _ _ (Inv_remove c h hv)

theorem Inv_findSubscribers {mgr : TopicManager} {S : SubTable} (topic : String)
    (h : Inv mgr S) : Inv (mgr.findSubscribers topic).1 S := by
  rcases splitTopic_cases topic with hv | ⟨levels, hv⟩
  · rw [findSubscribers_of_invalid h.cache hv]; exact h
  · obtain ⟨_, h2, h3⟩ := findSubscribers_of_valid h.cache hv
    exact ⟨h2 ▸ h.wf, h2 ▸ h.compact, h3, fun f c => by rw [h2]; exact h.table f c, h.valid⟩

theorem Inv_of_Reached {mgr : TopicManager} {S : SubTable} (h : Reached mgr S) : Inv mgr S := by
  induction h with
  | init cacheSize _ => exact Inv_init cacheSize
  | subscribe topics qoss c _ ih => exact Inv_subscribe c topics qoss _ _ ih
  | unsubscribe topics c _ ih => exact Inv_unsubscribe c topics _ _ ih
  | findSubscribers topic _ ih => exact Inv_findSubscribers topic ih
  | reorder root _ hr ih =>
    exact ⟨WF_reorder hr ih.wf, Compact_reorder hr ih.compact, ih.cache,
      fun f c => by rw [← ih.table]; exact (getSub_reorder hr ih.wf f c).symm, ih.valid⟩

/-! ### Valid filters -/

theorem hashOnlyLast_of_legalLevels (ls : List (List Char)) (h : legalLevels ls) :
    hashOnlyLast (ls.map String.mk) := by
  induction ls with
  | nil => trivial
  | cons l ls ih =>
    cases ls with
    | nil => trivial
    | cons l2 ls =>
      obtain ⟨h1, h2⟩ := h
      refine ⟨?_, ih h2⟩
      intro heq
      have hl : l = ['#'] := congrArg String.data heq
      subst hl
      rcases h1 with h1 | h1
      · simp [hasWild] at h1
      · simp at h1

theorem hashOnlyLast_of_valid {topic : String} {levels : List String}
    (h : splitTopic topic = .valid levels) : hashOnlyLast levels := by
  have heq := splitTopic_valid_eq_topicLevels topic levels h
  have hleg : legalLevels (topic.data.splitOn '/') := by
    have := (refSplit_valid_iff topic.data [] [] (by simp) (by simp)).1
      ⟨levels, by rw [← splitTopic_eq_refSplit]; exact h⟩
    simpa using this
  rw [heq]
  exact hashOnlyLast_of_legalLevels _ hleg

theorem Compact_descendant {root node : topicNode} (hc : root.Compact)
    (hd : Descendant root node) : ¬ node.isEmpty ∧ node.Compact := by
  induction hd with
  | child hmem => exact (Compact_iff root).1 hc _ hmem
  | step _ hmem ih => exact (Compact_iff _).1 ih.2 _ hmem

/-- A second `get` of the same topic returns the levels the first one returned, whatever the
cache holds. -/
theorem get_get {t t1 : topicLevelManager} {topic : String} {levels : List String}
    (h : t.get topic = (t1, .ok levels)) : ∃ t2, t1.get topic = (t2, .ok levels) := by
  unfold topicLevelManager.get lruCache.Get at h
  cases hg : mapGet t.data.items topic with
  | some val =>
    rw [hg] at h
    simp only [Prod.mk.injEq, Except.ok.injEq] at h
    obtain ⟨h1, h2⟩ := h
    subst h1 h2
    unfold topicLevelManager.get lruCache.Get
    simp only [mapGet, if_true]
    exact ⟨_, rfl⟩
  | none =>
    rw [hg] at h
    simp only at h
    cases hs : splitTopic topic with
    | panic => rw [hs] at h; simp at h
    | invalid => rw [hs] at h; simp at h
    | valid lv =>
      rw [hs] at h
      simp only [Prod.mk.injEq, Except.ok.injEq] at h
      obtain ⟨h1, h2⟩ := h
      subst h1 h2
      unfold topicLevelManager.get lruCache.Get
      simp only [lruCache.Add, hg]
      cases hitems : t.data.items with
      | nil =>
        by_cases hsz : ([(topic, lv)] : List (String × List String)).length > t.data.size
        · simp only [hsz, if_true, List.dropLast_single, mapGet, hs]
          exact ⟨_, rfl⟩
        · simp only [hsz, if_false, mapGet, if_true]
          exact ⟨_, rfl⟩
      | cons e items =>
        by_cases hsz : ((topic, lv) :: e :: items).length > t.data.size
        · simp only [hsz, if_true, List.dropLast_cons₂, mapGet]
          exact ⟨_, rfl⟩
        · simp only [hsz, if_false, mapGet, if_true]
          exact ⟨_, rfl⟩

theorem get_ok_of_valid (t : topicLevelManager) {topic : String} {levels : List String}
    (hv : splitTopic topic = .valid levels) : ∃ t1 lv, t.get topic = (t1, .ok lv) := by
  unfold topicLevelManager.get lruCache.Get
  cases hg : mapGet t.data.items topic with
  | some val => exact ⟨_, _, rfl⟩
  | none => simp only [hv]; exact ⟨_, _, rfl⟩

theorem remove_of_get {mgr : TopicManager} {topic : String} {lm : topicLevelManager}
    {lv : List String} (c : String) (h : mgr.levelMgr.get topic = (lm, .ok lv)) :
    mgr.remove topic c =
      (⟨match removeLevels lv c mgr.root with
          | none => mgr.root
          | some (root, _) => root, lm⟩, none) := by
  unfold TopicManager.remove TopicManager.getLevels
  rw [h]
  dsimp only
  cases removeLevels lv c mgr.root <;> rfl

theorem unsubscribe_single (mgr : TopicManager) (topic : String) (c : String) :
    mgr.unsubscribe [topic] c = mgr.remove topic c := by
  rw [TopicManager.unsubscribe]
  rcases hr : mgr.remove topic c with ⟨m, e⟩
  cases e with
  | none => simp only [unsubscribe_nil]
  | some err => rfl

theorem subscribe_single (mgr : TopicManager) (topic : String) (q : Nat) (c : String) :
    mgr.subscribe [topic] [q] c = mgr.insert topic q c := by
  rw [TopicManager.subscribe]
  rcases hr : mgr.insert topic q c with ⟨m, e⟩
  cases e with
  | none => simp only [subscribe_nil]
  | some err => rfl

theorem unsubscribe_twice (mgr : TopicManager) (topic : String) (levels : List String)
    (c : String) (hv : splitTopic topic = .valid levels) :
    (mgr.unsubscribe [topic] c).2 = none ∧
      ((mgr.unsubscribe [topic] c).1.unsubscribe [topic] c).2 = none ∧
      ((mgr.unsubscribe [topic] c).1.unsubscribe [topic] c).1.root =
        (mgr.unsubscribe [topic] c).1.root := by
  obtain ⟨lm, lv, hget⟩ := get_ok_of_valid mgr.levelMgr hv
  obtain ⟨lm2, hget2⟩ := get_get hget
  rw [unsubscribe_single, remove_of_get c hget]
  simp only [unsubscribe_single]
  rw [remove_of_get c hget2]
  refine ⟨trivial, rfl, ?_⟩
  simp only
  cases hr : removeLevels lv c mgr.root with
  | none => simp only [hr]
  | some p =>
    obtain ⟨root, cl⟩ := p
    simp only
    rcases removeLevels_idem lv c mgr.root root cl hr with h2 | ⟨cl2, h2⟩
    · simp only [h2]
    · simp only [h2]

theorem getSub_eq_some_iff (node : topicNode) (f : List String) (c : String) (q : Nat) :
    getSub node f c = some q ↔ ∃ m, walk f node = some m ∧ mapGet m.clients c = some q := by
  unfold getSub
  cases walk f node with
  | none => simp
  | some m => simp

theorem mem_keys_of_mapGet {V : Type} {m : List (String × V)} {k : String} {v : V}
    (h : mapGet m k = some v) : k ∈ m.map Prod.fst :=
  List.mem_map_of_mem Prod.fst (mapGet_mem h)

theorem exists_mapGet_of_mem_keys {V : Type} {m : List (String × V)} {k : String}
    (h : k ∈ m.map Prod.fst) : ∃ v, mapGet m k = some v := by
  cases hg : mapGet m k with
  | none => exact absurd h (mapGet_eq_none_iff.1 hg)
  | some v => exact ⟨v, rfl⟩

/-- Completeness of `findLevels` from the root, against the subscriptions recorded in the
trie. -/
theorem findLevels_root_complete {root : topicNode} {levels filter : List String} {c : String}
    {q : Nat} (hsub : getSub root filter c = some q) (hlast : hashOnlyLast filter)
    (hmatch : filterMatches filter levels = true) :
    c ∈ (findLevels levels [root] []).map Prod.fst := by
  obtain ⟨m, hw, hc⟩ := (getSub_eq_some_iff _ _ _ _).1 hsub
  exact findLevels_complete levels [root] [] c
    (Or.inr ⟨root, List.mem_singleton.2 rfl, filter, m, q, hw, hc,
      trieMatch_of_filterMatches filter levels hlast hmatch⟩)

/-- Soundness of `findLevels` from the root, against the subscriptions recorded in the trie. -/
theorem findLevels_root_sound {root : topicNode} {levels : List String} {c : String} {q : Nat}
    (hwf : root.WF) (hmem : (c, q) ∈ findLevels levels [root] []) :
    ∃ filter, getSub root filter c = some q ∧ filterMatches filter levels = true := by
  have hall : ∀ n ∈ [root], n.WF := by
    intro n hn
    rw [List.mem_singleton.1 hn]
    exact hwf
  rcases findLevels_sound levels [root] [] hall (c, q) hmem with h | ⟨n, hn, path, m, hw, hc, hm⟩
  · simp at h
  · rw [List.mem_singleton.1 hn] at hw
    exact ⟨path, (getSub_eq_some_iff _ _ _ _).2 ⟨m, hw, hc⟩, filterMatches_of_trieMatch hm⟩

/-- C1. Completeness of wildcard matching: in every state reached from a new topic manager by
calls of subscribe, unsubscribe and findSubscribers, for every valid topic, every client that
holds a subscription whose filter matches the topic is a key of the map that
findSubscribers returns for the topic.  (Topics without wildcard levels are a special
case.) -/
theorem findSubscribers_complete (mgr : TopicManager) (S : SubTable) (topic : String)
    (levels filter : List String) (clientID : String) (qos : Nat)
    (hreach : Reached mgr S) (hvalid : splitTopic topic = .valid levels)
    (hsub : S filter clientID = some qos) (hmatch : filterMatches filter levels = true) :
    ∃ ans, (mgr.findSubscribers topic).2 = .ok ans ∧ clientID ∈ ans.map Prod.fst := by
  have inv := Inv_of_Reached hreach
  obtain ⟨hfind, _, _⟩ := findSubscribers_of_valid inv.cache hvalid
  refine ⟨_, hfind, ?_⟩
  obtain ⟨t2, ht2⟩ := inv.valid filter clientID qos hsub
  rw [← inv.table] at hsub
  exact findLevels_root_complete hsub (hashOnlyLast_of_valid ht2) hmatch

theorem findSubscribers_complete_witness :
    Reached (((newTopicManager 8).subscribe ["sport/tennis/player1/#"] [1] "C1").1.subscribe
        ["a/b/#", "+/+/+"] [0, 2] "C2").1
      ((SubTable.empty.subscribe ["sport/tennis/player1/#"] [1] "C1").subscribe
        ["a/b/#", "+/+/+"] [0, 2] "C2") ∧
    splitTopic "sport/tennis/player1" = .valid ["sport", "tennis", "player1"] ∧
    filterMatches ["sport", "tennis", "player1", "#"] ["sport", "tennis", "player1"] = true ∧
    ∃ ans, ((((newTopicManager 8).subscribe ["sport/tennis/player1/#"] [1] "C1").1.subscribe
        ["a/b/#", "+/+/+"] [0, 2] "C2").1.findSubscribers "sport/tennis/player1").2 = .ok ans ∧
      "C1" ∈ ans.map Prod.fst :=
  ⟨Reached.subscribe _ _ _ (Reached.subscribe _ _ _ (Reached.init 8 (by decide))), by decide,
    by decide,
    findSubscribers_complete _ _ "sport/tennis/player1" ["sport", "tennis", "player1"]
      ["sport", "tennis", "player1", "#"] "C1" 1
      (Reached.subscribe _ _ _ (Reached.subscribe _ _ _ (Reached.init 8 (by decide))))
      (by decide) (by decide) (by decide)⟩

/-- C2. Soundness of wildcard matching: in every state reached from a new topic manager by
calls of subscribe, unsubscribe and findSubscribers, for every valid topic, every entry
(clientID, qos) of the map that findSubscribers returns comes from a subscription that the
client holds: one whose filter matches the topic and whose QoS is qos.  In particular a
client whose only subscription is to a/b is not returned for the topic a/c. -/
theorem findSubscribers_sound (mgr : TopicManager) (S : SubTable) (topic : String)
    (levels : List String) (clientID : String) (qos : Nat) (ans : List (String × Nat))
    (hreach : Reached mgr S) (hvalid : splitTopic topic = .valid levels)
    (hfind : (mgr.findSubscribers topic).2 = .ok ans) (hmem : (clientID, qos) ∈ ans) :
    (∃ filter, S filter clientID = some qos ∧ filterMatches filter levels = true) ∧
    (topic = "a/c" → ∃ filter q, S filter clientID = some q ∧ filter ≠ ["a", "b"]) := by
  have inv := Inv_of_Reached hreach
  obtain ⟨hfind2, _, _⟩ := findSubscribers_of_valid inv.cache hvalid
  rw [hfind2] at hfind
  simp only [Except.ok.injEq] at hfind
  subst hfind
  obtain ⟨filter, hsub, hmatch⟩ := findLevels_root_sound inv.wf hmem
  rw [inv.table] at hsub
  refine ⟨⟨filter, hsub, hmatch⟩, ?_⟩
  intro htopic
  subst htopic
  have hl : levels = ["a", "c"] := by
    have h2 : splitTopic "a/c" = .valid ["a", "c"] := by decide
    rw [h2] at hvalid
    simp only [SplitResult.valid.injEq] at hvalid
    exact hvalid.symm
  subst hl
  refine ⟨filter, qos, hsub, ?_⟩
  intro hf
  subst hf
  revert hmatch
  decide

theorem findSubscribers_sound_witness :
    Reached (((newTopicManager 8).subscribe ["a/b"] [1] "C1").1.subscribe ["a/+"] [2] "C2").1
      ((SubTable.empty.subscribe ["a/b"] [1] "C1").subscribe ["a/+"] [2] "C2") ∧
    splitTopic "a/c" = .valid ["a", "c"] ∧
    ((((newTopicManager 8).subscribe ["a/b"] [1] "C1").1.subscribe ["a/+"] [2] "C2").1.findSubscribers
      "a/c").2 = .ok [("C2", 2)] ∧
    (∃ filter, ((SubTable.empty.subscribe ["a/b"] [1] "C1").subscribe ["a/+"] [2] "C2") filter "C2"
        = some 2 ∧ filterMatches filter ["a", "c"] = true) ∧
    ("a/c" = "a/c" → ∃ filter q,
      ((SubTable.empty.subscribe ["a/b"] [1] "C1").subscribe ["a/+"] [2] "C2") filter "C2" = some q ∧
        filter ≠ ["a", "b"]) :=
  ⟨Reached.subscribe _ _ _ (Reached.subscribe _ _ _ (Reached.init 8 (by decide))), by decide, rfl,
    findSubscribers_sound _ _ "a/c" ["a", "c"] "C2" 2 [("C2", 2)]
      (Reached.subscribe _ _ _ (Reached.subscribe _ _ _ (Reached.init 8 (by decide))))
      (by decide) rfl (by decide)⟩

/-- C3, as stated, fails: a client subscribed to a/+ with QoS 0 subscribes to a/# with QoS 1
without error; findSubscribers of a/# then maps the client to QoS 0, not to 1. -/
theorem subscribe_then_find_qos_counterexample :
    splitTopic "a/#" = .valid ["a", "#"] ∧
    ((((newTopicManager 8).subscribe ["a/+"] [0] "c").1.subscribe ["a/#"] [1] "c").2 = none) ∧
    (((((newTopicManager 8).subscribe ["a/+"] [0] "c").1.subscribe ["a/#"] [1] "c").1.findSubscribers
      "a/#").2 = .ok [("c", 0)]) ∧
    mapGet [("c", 0)] "c" ≠ some 1 :=
  ⟨by decide, rfl, rfl, by decide⟩

/-- C3, amended: for every trie state, valid topic (wildcard filters included), QoS and
clientID, subscribe of the topic returns without error and findSubscribers of the topic then
returns a map with clientID as a key; its value is the QoS of one of the subscriptions that
clientID then holds on a filter matching the topic, so it is the subscribed QoS whenever
clientID held no subscription with another QoS on another filter matching the topic. -/
theorem subscribe_then_find_contains (mgr : TopicManager) (topic : String)
    (levels : List String) (qos : Nat) (clientID : String)
    (hwf : mgr.root.WF) (hcache : mgr.levelMgr.Consistent)
    (hvalid : splitTopic topic = .valid levels) :
    (mgr.subscribe [topic] [qos] clientID).2 = none ∧
    ∃ ans q, ((mgr.subscribe [topic] [qos] clientID).1.findSubscribers topic).2 = .ok ans ∧
      mapGet ans clientID = some q ∧
      (∃ filter, getSub (mgr.subscribe [topic] [qos] clientID).1.root filter clientID = some q ∧
        filterMatches filter levels = true) ∧
      ((∀ filter q2, filter ≠ levels → getSub mgr.root filter clientID = some q2 →
          filterMatches filter levels = true → q2 = qos) → q = qos) := by
  rw [subscribe_single]
  obtain ⟨h1, h2, h3⟩ := insert_of_valid qos clientID hcache hvalid
  refine ⟨h1, ?_⟩
  obtain ⟨hfind, _, _⟩ := findSubscribers_of_valid h3 hvalid
  have hsub : getSub (mgr.insert topic qos clientID).1.root levels clientID = some qos := by
    rw [h2, getSub_insertLevels]; simp
  have hkey := findLevels_root_complete hsub (hashOnlyLast_of_valid hvalid)
    (filterMatches_refl levels)
  obtain ⟨q, hq⟩ := exists_mapGet_of_mem_keys hkey
  have hwf2 : (mgr.insert topic qos clientID).1.root.WF := by
    rw [h2]; exact WF_insertLevels _ _ _ _ hwf
  obtain ⟨filter, hf1, hf2⟩ := findLevels_root_sound hwf2 (mapGet_mem hq)
  refine ⟨_, q, hfind, hq, ⟨filter, hf1, hf2⟩, ?_⟩
  intro hall
  rw [h2, getSub_insertLevels] at hf1
  by_cases hfl : filter = levels
  · simpa [hfl] using hf1.symm
  · rw [if_neg (fun h => hfl h.1)] at hf1
    exact hall filter q hfl hf1 hf2

theorem subscribe_then_find_contains_witness :
    ((newTopicManager 8).subscribe ["a/+"] [0] "c").1.root.WF ∧
    ((newTopicManager 8).subscribe ["a/+"] [0] "c").1.levelMgr.Consistent ∧
    splitTopic "a/#" = .valid ["a", "#"] ∧
    ((((newTopicManager 8).subscribe ["a/+"] [0] "c").1.subscribe ["a/#"] [1] "c").2 = none ∧
    ∃ ans q, ((((newTopicManager 8).subscribe ["a/+"] [0] "c").1.subscribe ["a/#"] [1]
        "c").1.findSubscribers "a/#").2 = .ok ans ∧
      mapGet ans "c" = some q ∧
      (∃ filter, getSub (((newTopicManager 8).subscribe ["a/+"] [0] "c").1.subscribe ["a/#"] [1]
          "c").1.root filter "c" = some q ∧ filterMatches filter ["a", "#"] = true) ∧
      ((∀ filter q2, filter ≠ ["a", "#"] →
          getSub ((newTopicManager 8).subscribe ["a/+"] [0] "c").1.root filter "c" = some q2 →
          filterMatches filter ["a", "#"] = true → q2 = 1) → q = 1)) :=
  have hinv := Inv_of_Reached
    (Reached.subscribe ["a/+"] [0] "c" (Reached.init 8 (by decide)))
  ⟨hinv.wf, hinv.cache, by decide,
    subscribe_then_find_contains _ "a/#" ["a", "#"] 1 "c" hinv.wf hinv.cache (by decide)⟩

/-- C4. `splitTopic` accepts a topic if and only if every level between its slashes is free
of the characters + and #, or is exactly +, or is exactly # and is the final level.  So
a/+b, #/a and a/b# are rejected while a/+/b, a/#, # and a//b are accepted. -/
theorem splitTopic_accepts_iff_levels_legal :
    (∀ topic : String, (∃ levels, splitTopic topic = .valid levels) ↔
      ∀ (j : Nat) (h : j < (topicLevels topic).length),
        levelLegal ((topicLevels topic).get ⟨j, h⟩)
          (decide (j + 1 = (topicLevels topic).length))) ∧
    splitTopic "a/+b" = .invalid ∧ splitTopic "#/a" = .invalid ∧
    splitTopic "a/b#" = .invalid ∧ splitTopic "a/+/b" = .valid ["a", "+", "b"] ∧
    splitTopic "a/#" = .valid ["a", "#"] ∧ splitTopic "#" = .valid ["#"] ∧
    splitTopic "a//b" = .valid ["a", "", "b"] :=
  ⟨splitTopic_valid_iff_legal, by decide, by decide, by decide, by decide, by decide, by decide,
    by decide⟩

/-- C5. For every topic that `splitTopic` accepts, the returned levels are the topic split on
the slash: there are count of slashes plus one of them, none contains a slash, and joined
with slashes they give back the topic (so consecutive slashes yield empty levels). -/
theorem splitTopic_levels_are_split (topic : String) (levels : List String)
    (h : splitTopic topic = .valid levels) :
    levels = topicLevels topic ∧ levels.length = topic.data.count '/' + 1 ∧
    (∀ l ∈ levels, '/' ∉ l.data) ∧ "/".intercalate levels = topic := by
  have heq := splitTopic_valid_eq_topicLevels topic levels h
  subst heq
  refine ⟨rfl, ?_, ?_, intercalate_topicLevels topic⟩
  · simp [topicLevels, length_splitOn]
  · intro l hl
    simp only [topicLevels, List.mem_map] at hl
    obtain ⟨cs, hcs, rfl⟩ := hl
    exact not_mem_of_mem_splitOn _ _ hcs

theorem splitTopic_levels_are_split_witness :
    splitTopic "a//b" = .valid ["a", "", "b"] ∧
    (["a", "", "b"] = topicLevels "a//b" ∧
      ["a", "", "b"].length = "a//b".data.count '/' + 1 ∧
      (∀ l ∈ ["a", "", "b"], '/' ∉ l.data) ∧ "/".intercalate ["a", "", "b"] = "a//b") :=
  ⟨by decide, splitTopic_levels_are_split "a//b" ["a", "", "b"] (by decide)⟩

theorem remove_root_of_valid {mgr : TopicManager} {topic : String} {levels : List String}
    (c : String) (hc : mgr.levelMgr.Consistent) (hv : splitTopic topic = .valid levels)
    {root : topicNode}
    (hrem : removeLevels levels c mgr.root = none ∨
      ∃ cl, removeLevels levels c mgr.root = some (root, cl))
    (hroot : removeLevels levels c mgr.root = none → root = mgr.root) :
    (mgr.remove topic c).2 = none ∧ (mgr.remove topic c).1.root = root := by
  obtain ⟨h1, h2, _⟩ := remove_of_valid c hc hv
  refine ⟨h1, ?_⟩
  rw [h2]
  rcases hrem with h | ⟨cl, h⟩
  · rw [h]; exact (hroot h).symm
  · rw [h]

/-- C6. Subscribe/unsubscribe round trip with compaction: in every state reached from a new
topic manager, for every valid topic and every client that holds no subscription to it,
subscribe of the topic followed by unsubscribe of the topic succeed and leave a trie equal
to the original one. -/
theorem subscribe_unsubscribe_roundtrip (mgr : TopicManager) (S : SubTable) (topic : String)
    (levels : List String) (qos : Nat) (clientID : String)
    (hreach : Reached mgr S) (hvalid : splitTopic topic = .valid levels)
    (hnot : S levels clientID = none) :
    (mgr.subscribe [topic] [qos] clientID).2 = none ∧
    ((mgr.subscribe [topic] [qos] clientID).1.unsubscribe [topic] clientID).2 = none ∧
    ((mgr.subscribe [topic] [qos] clientID).1.unsubscribe [topic] clientID).1.root = mgr.root := by
  have inv := Inv_of_Reached hreach
  rw [subscribe_single, unsubscribe_single]
  obtain ⟨h1, h2, h3⟩ := insert_of_valid qos clientID inv.cache hvalid
  rw [← inv.table] at hnot
  obtain ⟨cl, hrem, _⟩ := removeLevels_insertLevels levels qos clientID mgr.root inv.compact hnot
  rw [← h2] at hrem
  have := remove_root_of_valid clientID h3 hvalid (Or.inr ⟨cl, hrem⟩)
    (fun h => by rw [h] at hrem; simp at hrem)
  exact ⟨h1, this.1, this.2⟩

theorem subscribe_unsubscribe_roundtrip_witness :
    Reached (newTopicManager 8) SubTable.empty ∧
    splitTopic "a/b/c" = .valid ["a", "b", "c"] ∧
    SubTable.empty ["a", "b", "c"] "C1" = none ∧
    (((newTopicManager 8).subscribe ["a/b/c"] [1] "C1").2 = none ∧
      (((newTopicManager 8).subscribe ["a/b/c"] [1] "C1").1.unsubscribe ["a/b/c"] "C1").2 = none ∧
      (((newTopicManager 8).subscribe ["a/b/c"] [1] "C1").1.unsubscribe ["a/b/c"] "C1").1.root =
        (newTopicManager 8).root) ∧
    mapGet (((newTopicManager 8).subscribe ["a/b/c"] [1] "C1").1.unsubscribe ["a/b/c"]
      "C1").1.root.nodes "a" = none ∧
    ((((newTopicManager 8).subscribe ["a/b/c"] [1] "C1").1.unsubscribe ["a/b/c"]
      "C1").1.findSubscribers "a/b/c").2 = .ok [] :=
  ⟨Reached.init 8 (by decide), by decide, rfl,
    subscribe_unsubscribe_roundtrip _ _ "a/b/c" ["a", "b", "c"] 1 "C1"
      (Reached.init 8 (by decide)) (by decide) rfl,
    rfl, rfl⟩

/-- C7. Unsubscribe is idempotent: for every state of the topic manager, valid topic and
client, two unsubscribe calls of the topic both return no error and the second leaves the
trie as the first left it; in particular this holds right after a subscribe. -/
theorem unsubscribe_idempotent (mgr : TopicManager) (topic : String) (levels : List String)
    (clientID : String) (hvalid : splitTopic topic = .valid levels) :
    ((mgr.unsubscribe [topic] clientID).2 = none ∧
      ((mgr.unsubscribe [topic] clientID).1.unsubscribe [topic] clientID).2 = none ∧
      ((mgr.unsubscribe [topic] clientID).1.unsubscribe [topic] clientID).1.root =
        (mgr.unsubscribe [topic] clientID).1.root) ∧
    ∀ qos : Nat,
      (((mgr.subscribe [topic] [qos] clientID).1.unsubscribe [topic]
          clientID).1.unsubscribe [topic] clientID).1.root =
        ((mgr.subscribe [topic] [qos] clientID).1.unsubscribe [topic] clientID).1.root :=
  ⟨unsubscribe_twice mgr topic levels clientID hvalid,
    fun qos => (unsubscribe_twice (mgr.subscribe [topic] [qos] clientID).1 topic levels clientID
      hvalid).2.2⟩

theorem unsubscribe_idempotent_witness :
    splitTopic "a/b" = .valid ["a", "b"] ∧
    (((((newTopicManager 8).subscribe ["a/b", "a/#"] [1, 2] "C1").1.unsubscribe ["a/b"]
        "C1").2 = none ∧
      ((((newTopicManager 8).subscribe ["a/b", "a/#"] [1, 2] "C1").1.unsubscribe ["a/b"]
        "C1").1.unsubscribe ["a/b"] "C1").2 = none ∧
      ((((newTopicManager 8).subscribe ["a/b", "a/#"] [1, 2] "C1").1.unsubscribe ["a/b"]
        "C1").1.unsubscribe ["a/b"] "C1").1.root =
        (((newTopicManager 8).subscribe ["a/b", "a/#"] [1, 2] "C1").1.unsubscribe ["a/b"]
          "C1").1.root) ∧
    ∀ qos : Nat,
      (((((newTopicManager 8).subscribe ["a/b", "a/#"] [1, 2] "C1").1.subscribe ["a/b"] [qos]
          "C1").1.unsubscribe ["a/b"] "C1").1.unsubscribe ["a/b"] "C1").1.root =
        ((((newTopicManager 8).subscribe ["a/b", "a/#"] [1, 2] "C1").1.subscribe ["a/b"] [qos]
          "C1").1.unsubscribe ["a/b"] "C1").1.root) :=
  ⟨by decide, unsubscribe_idempotent _ "a/b" ["a", "b"] "C1" (by decide)⟩

/-- C8. Trie invariant: in every state reached from a new topic manager by any sequence of
calls of subscribe, unsubscribe and findSubscribers, failing calls included, every node
reachable from the root through child entries has at least one client or at least one
child. -/
theorem reached_nodes_not_empty (mgr : TopicManager) (S : SubTable) (node : topicNode)
    (hreach : Reached mgr S) (hdesc : Descendant mgr.root node) :
    0 < node.clients.length ∨ 0 < node.nodes.length := by
  have h := (Compact_descendant (Inv_of_Reached hreach).compact hdesc).1
  unfold topicNode.isEmpty at h
  omega

theorem reached_nodes_not_empty_witness :
    Reached (((newTopicManager 8).subscribe ["a/b", "a/+b", "c"] [1, 2, 0] "C1").1.unsubscribe
        ["a/b/c", "x#"] "C1").1
      ((SubTable.empty.subscribe ["a/b", "a/+b", "c"] [1, 2, 0] "C1").unsubscribe
        ["a/b/c", "x#"] "C1") ∧
    Descendant (((newTopicManager 8).subscribe ["a/b", "a/+b", "c"] [1, 2, 0] "C1").1.unsubscribe
        ["a/b/c", "x#"] "C1").1.root (.mk [] [("b", .mk [("C1", 1)] [])]) ∧
    (0 < (topicNode.mk [] [("b", .mk [("C1", 1)] [])]).clients.length ∨
      0 < (topicNode.mk [] [("b", .mk [("C1", 1)] [])]).nodes.length) :=
  have hd : Descendant (((newTopicManager 8).subscribe ["a/b", "a/+b", "c"] [1, 2, 0]
      "C1").1.unsubscribe ["a/b/c", "x#"] "C1").1.root (.mk [] [("b", .mk [("C1", 1)] [])]) :=
    @Descendant.child _ "a" _ (List.mem_cons_self _ _)
  ⟨Reached.unsubscribe _ _ (Reached.subscribe _ _ _ (Reached.init 8 (by decide))), hd,
    reached_nodes_not_empty _ _ _
      (Reached.unsubscribe _ _ (Reached.subscribe _ _ _ (Reached.init 8 (by decide)))) hd⟩

theorem subscribe_first_invalid (c : String) (topics : List String) :
    ∀ (qoss : List Nat) (mgr : TopicManager) (i : Nat) (bad : String),
      mgr.levelMgr.Consistent → topics.length = qoss.length → topics[i]? = some bad →
      (∀ j t, j < i → topics[j]? = some t → ∃ levels, splitTopic t = .valid levels) →
      (¬ ∃ levels, splitTopic bad = .valid levels) →
      (mgr.subscribe topics qoss c).2 = some (invalidTopicErr bad) ∧
      (mgr.subscribe topics qoss c).1.root =
        insertAll c mgr.root (((topics.take i).map topicLevels).zip (qoss.take i)) := by
  induction topics with
  | nil => intro qoss mgr i bad _ _ hi; simp at hi
  | cons t ts ih =>
    intro qoss mgr i bad hc hlen hi hbefore hbad
    cases qoss with
    | nil => simp at hlen
    | cons q qs =>
      cases i with
      | zero =>
        simp only [List.getElem?_cons_zero, Option.some.injEq] at hi
        subst hi
        have hv : splitTopic t = .invalid := by
          rcases splitTopic_cases t with h | h
          · exact h
          · exact absurd h hbad
        rw [subscribe_cons_of_invalid ts q qs c hc hv]
        simp [insertAll]
      | succ i =>
        obtain ⟨levels, hv⟩ := hbefore 0 t (Nat.succ_pos i) (by simp)
        obtain ⟨_, h2, h3⟩ := insert_of_valid q c hc hv
        rw [subscribe_cons_of_valid ts q qs c hc hv]
        have hrec := ih qs (mgr.insert t q c).1 i bad h3 (by simpa using hlen)
          (by simpa using hi)
          (fun j t2 hj ht2 => hbefore (j + 1) t2 (Nat.succ_lt_succ hj) (by simpa using ht2)) hbad
        refine ⟨hrec.1, ?_⟩
        rw [hrec.2, h2, splitTopic_valid_eq_topicLevels t levels hv]
        simp [insertAll]

/-- C9. Batch subscribe aborts without rollback: for every trie, client and lists topics and
qoss of equal length in which index i holds the first invalid topic, subscribe returns the
invalid-topic error of that topic and leaves the trie obtained by inserting exactly the
topics before index i with their QoS values. -/
theorem subscribe_aborts_without_rollback (mgr : TopicManager) (topics : List String)
    (qoss : List Nat) (clientID : String) (i : Nat) (bad : String)
    (hcache : mgr.levelMgr.Consistent) (hlen : topics.length = qoss.length)
    (hi : topics[i]? = some bad)
    (hbefore : ∀ j t, j < i → topics[j]? = some t → ∃ levels, splitTopic t = .valid levels)
    (hbad : ¬ ∃ levels, splitTopic bad = .valid levels) :
    (mgr.subscribe topics qoss clientID).2 =
      some (.invalidTopic ("topic " ++ bad ++ " is invalid")) ∧
    (mgr.subscribe topics qoss clientID).1.root =
      insertAll clientID mgr.root (((topics.take i).map topicLevels).zip (qoss.take i)) :=
  subscribe_first_invalid clientID topics qoss mgr i bad hcache hlen hi hbefore hbad

theorem subscribe_aborts_without_rollback_witness :
    (newTopicManager 8).levelMgr.Consistent ∧
    ["a/b", "c/#", "d/+e", "f"].length = [1, 2, 0, 1].length ∧
    ["a/b", "c/#", "d/+e", "f"][2]? = some "d/+e" ∧
    (∀ j t, j < 2 → ["a/b", "c/#", "d/+e", "f"][j]? = some t →
      ∃ levels, splitTopic t = .valid levels) ∧
    (¬ ∃ levels, splitTopic "d/+e" = .valid levels) ∧
    (((newTopicManager 8).subscribe ["a/b", "c/#", "d/+e", "f"] [1, 2, 0, 1] "C1").2 =
        some (.invalidTopic ("topic " ++ "d/+e" ++ " is invalid")) ∧
      ((newTopicManager 8).subscribe ["a/b", "c/#", "d/+e", "f"] [1, 2, 0, 1] "C1").1.root =
        insertAll "C1" (newTopicManager 8).root
          (((["a/b", "c/#", "d/+e", "f"].take 2).map topicLevels).zip ([1, 2, 0, 1].take 2))) :=
  have hbefore : ∀ j t, j < 2 → ["a/b", "c/#", "d/+e", "f"][j]? = some t →
      ∃ levels, splitTopic t = .valid levels := by
    intro j t hj ht
    have hcases : j = 0 ∨ j = 1 := by omega
    rcases hcases with rfl | rfl
    · simp only [List.getElem?_cons_zero, Option.some.injEq] at ht
      subst ht
      exact ⟨["a", "b"], by decide⟩
    · simp only [List.getElem?_cons_succ, List.getElem?_cons_zero, Option.some.injEq] at ht
      subst ht
      exact ⟨["c", "#"], by decide⟩
  have hbad : ¬ ∃ levels, splitTopic "d/+e" = .valid levels := by
    have h : splitTopic "d/+e" = .invalid := by decide
    rw [h]
    simp
  ⟨consistent_newTopicLevelManager 8, rfl, rfl, hbefore, hbad,
    subscribe_aborts_without_rollback _ _ _ "C1" 2 "d/+e" (consistent_newTopicLevelManager 8) rfl
      rfl hbefore hbad⟩

/-- C10. Unsubscribing a subscription that does not exist succeeds silently and changes
nothing: in every state reached from a new topic manager, for every valid topic and every
client that holds no subscription to it, unsubscribe returns no error and leaves the trie
unchanged. -/
theorem unsubscribe_absent_unchanged (mgr : TopicManager) (S : SubTable) (topic : String)
    (levels : List String) (clientID : String)
    (hreach : Reached mgr S) (hvalid : splitTopic topic = .valid levels)
    (hnot : S levels clientID = none) :
    (mgr.unsubscribe [topic] clientID).2 = none ∧
    (mgr.unsubscribe [topic] clientID).1.root = mgr.root := by
  have inv := Inv_of_Reached hreach
  rw [unsubscribe_single]
  rw [← inv.table] at hnot
  exact remove_root_of_valid clientID inv.cache hvalid
    (removeLevels_of_getSub_none levels clientID mgr.root inv.compact hnot) (fun _ => rfl)

theorem unsubscribe_absent_unchanged_witness :
    Reached ((newTopicManager 8).subscribe ["a/b", "a/b/c"] [1, 2] "C1").1
      (SubTable.empty.subscribe ["a/b", "a/b/c"] [1, 2] "C1") ∧
    splitTopic "a/b" = .valid ["a", "b"] ∧
    (SubTable.empty.subscribe ["a/b", "a/b/c"] [1, 2] "C1") ["a", "b"] "C2" = none ∧
    ((((newTopicManager 8).subscribe ["a/b", "a/b/c"] [1, 2] "C1").1.unsubscribe ["a/b"]
        "C2").2 = none ∧
      (((newTopicManager 8).subscribe ["a/b", "a/b/c"] [1, 2] "C1").1.unsubscribe ["a/b"]
        "C2").1.root = ((newTopicManager 8).subscribe ["a/b", "a/b/c"] [1, 2] "C1").1.root) :=
  ⟨Reached.subscribe _ _ _ (Reached.init 8 (by decide)), by decide, by decide,
    unsubscribe_absent_unchanged _ _ "a/b" ["a", "b"] "C2"
      (Reached.subscribe _ _ _ (Reached.init 8 (by decide))) (by decide) (by decide)⟩

/-! ### Later properties of the topic manager -/

theorem findSubscribers_root (mgr : TopicManager) (topic : String) :
    (mgr.findSubscribers topic).1.root = mgr.root := by
  unfold TopicManager.findSubscribers
  rcases mgr.getLevels topic with ⟨lm, r⟩
  cases r <;> rfl

theorem invalid_of_not_valid {topic : String}
    (h : ¬ ∃ levels, splitTopic topic = .valid levels) : splitTopic topic = .invalid := by
  rcases splitTopic_cases topic with h1 | h1
  · exact h1
  · exact absurd h1 h

/-- C11. `findSubscribers` never changes the subscription trie: for every state of the topic
manager and every topic string the trie after the call is the trie before it; and for an
invalid topic the call returns the invalid-topic error instead of a subscriber map. -/
theorem findSubscribers_keeps_trie (mgr : TopicManager) (topic : String) :
    (mgr.findSubscribers topic).1.root = mgr.root ∧
    (mgr.levelMgr.Consistent → (¬ ∃ levels, splitTopic topic = .valid levels) →
      (mgr.findSubscribers topic).2 =
        .error (.invalidTopic ("topic " ++ topic ++ " is invalid"))) := by
  refine ⟨findSubscribers_root mgr topic, ?_⟩
  intro hc hv
  rw [findSubscribers_of_invalid hc (invalid_of_not_valid hv)]
  rfl

theorem findSubscribers_keeps_trie_witness :
    (((newTopicManager 8).subscribe ["a/b"] [1] "C1").1.findSubscribers "a/+b").1.root =
      ((newTopicManager 8).subscribe ["a/b"] [1] "C1").1.root ∧
    (((newTopicManager 8).subscribe ["a/b"] [1] "C1").1.levelMgr.Consistent →
      (¬ ∃ levels, splitTopic "a/+b" = .valid levels) →
      (((newTopicManager 8).subscribe ["a/b"] [1] "C1").1.findSubscribers "a/+b").2 =
        .error (.invalidTopic ("topic " ++ "a/+b" ++ " is invalid"))) ∧
    ((newTopicManager 8).subscribe ["a/b"] [1] "C1").1.levelMgr.Consistent ∧
    (¬ ∃ levels, splitTopic "a/+b" = .valid levels) ∧
    (((newTopicManager 8).subscribe ["a/b"] [1] "C1").1.findSubscribers "a/+b").2 =
      .error (.invalidTopic "topic a/+b is invalid") :=
  have hc : ((newTopicManager 8).subscribe ["a/b"] [1] "C1").1.levelMgr.Consistent :=
    (Inv_of_Reached (Reached.subscribe ["a/b"] [1] "C1" (Reached.init 8 (by decide)))).cache
  have hv : ¬ ∃ levels, splitTopic "a/+b" = .valid levels := by
    have h : splitTopic "a/+b" = .invalid := by decide
    rw [h]
    simp
  ⟨(findSubscribers_keeps_trie _ "a/+b").1, (findSubscribers_keeps_trie _ "a/+b").2, hc, hv,
    (findSubscribers_keeps_trie _ "a/+b").2 hc hv⟩

/-! ### Duplicate subscribe -/

theorem insertLevels_insertLevels (ls : List String) (q1 q2 : Nat) (c : String) :
    ∀ node : topicNode,
      insertLevels ls q2 c (insertLevels ls q1 c node) = insertLevels ls q2 c node := by
  induction ls with
  | nil =>
    intro node
    simp only [insertLevels_nil, topicNode.clients_mk, topicNode.nodes_mk, mapSet_mapSet]
  | cons l ls ih =>
    intro node
    rw [insertLevels_cons l ls q1, insertLevels_cons l ls q2, insertLevels_cons l ls q2]
    simp only [topicNode.clients_mk, topicNode.nodes_mk, mapGet_mapSet_self, Option.getD_some,
      ih, mapSet_mapSet]

theorem WF_walk (path : List String) :
    ∀ (node m : topicNode), node.WF → walk path node = some m → m.WF := by
  induction path with
  | nil =>
    intro node m hwf h
    simp only [walk, Option.some.injEq] at h
    exact h ▸ hwf
  | cons l path ih =>
    intro node m hwf h
    simp only [walk] at h
    cases hg : mapGet node.nodes l with
    | none => rw [hg] at h; simp at h
    | some child =>
      rw [hg] at h
      exact ih child m (WF_child hwf hg) h

theorem filter_key_eq_singleton {V : Type} {m : List (String × V)} {k : String} {v : V}
    (hnd : (m.map Prod.fst).Nodup) (h : mapGet m k = some v) :
    m.filter (fun e => decide (e.1 = k)) = [(k, v)] := by
  induction m with
  | nil => simp [mapGet] at h
  | cons e m ih =>
    obtain ⟨k2, v2⟩ := e
    simp only [List.map_cons, List.nodup_cons] at hnd
    simp only [mapGet] at h
    by_cases hk : k2 = k
    · subst hk
      simp only [if_true, Option.some.injEq] at h
      subst h
      have hnone : m.filter (fun e => decide (e.1 = k2)) = [] := by
        rw [List.filter_eq_nil_iff]
        intro e he
        simp only [decide_eq_true_eq]
        intro hek
        exact hnd.1 (hek ▸ List.mem_map_of_mem Prod.fst he)
      simp [List.filter_cons, hnone]
    · rw [if_neg hk] at h
      simp [List.filter_cons, hk, ih hnd.2 h]

/-- C12. Duplicate subscribe overwrites the QoS with set semantics: for every trie, valid
topic, client and QoS values q1 and q2, subscribing with q1 and then with q2 leaves the trie
that subscribing once with q2 leaves; the client then appears once at the terminal node, with
QoS q2; and subscribing twice with the same QoS equals subscribing once. -/
theorem subscribe_twice_overwrites (mgr : TopicManager) (topic : String)
    (levels : List String) (clientID : String) (q1 q2 : Nat)
    (hwf : mgr.root.WF) (hcache : mgr.levelMgr.Consistent)
    (hvalid : splitTopic topic = .valid levels) :
    ((mgr.subscribe [topic] [q1] clientID).1.subscribe [topic] [q2] clientID).1.root =
      (mgr.subscribe [topic] [q2] clientID).1.root ∧
    (∃ node,
      walk levels ((mgr.subscribe [topic] [q1] clientID).1.subscribe [topic] [q2]
        clientID).1.root = some node ∧
      node.clients.filter (fun e => decide (e.1 = clientID)) = [(clientID, q2)]) ∧
    ((mgr.subscribe [topic] [q1] clientID).1.subscribe [topic] [q1] clientID).1.root =
      (mgr.subscribe [topic] [q1] clientID).1.root := by
  simp only [subscribe_single]
  obtain ⟨_, h1, hc1⟩ := insert_of_valid q1 clientID hcache hvalid
  obtain ⟨_, h2, _⟩ := insert_of_valid q2 clientID hcache hvalid
  obtain ⟨_, h12, _⟩ := insert_of_valid q2 clientID hc1 hvalid
  obtain ⟨_, h11, _⟩ := insert_of_valid q1 clientID hc1 hvalid
  rw [h12, h11, h1, h2, insertLevels_insertLevels, insertLevels_insertLevels]
  refine ⟨rfl, ?_, rfl⟩
  have hsub : getSub (insertLevels levels q2 clientID mgr.root) levels clientID = some q2 := by
    rw [getSub_insertLevels]; simp
  obtain ⟨m, hw, hm⟩ := (getSub_eq_some_iff _ _ _ _).1 hsub
  have hwfm := WF_walk levels _ m (WF_insertLevels levels q2 clientID mgr.root hwf) hw
  exact ⟨m, hw, filter_key_eq_singleton ((WF_iff m).1 hwfm).1 hm⟩

theorem subscribe_twice_overwrites_witness :
    ((newTopicManager 8).subscribe ["a/b"] [1] "C2").1.root.WF ∧
    ((newTopicManager 8).subscribe ["a/b"] [1] "C2").1.levelMgr.Consistent ∧
    splitTopic "a/b" = .valid ["a", "b"] ∧
    (((((newTopicManager 8).subscribe ["a/b"] [1] "C2").1.subscribe ["a/b"] [0] "C1").1.subscribe
        ["a/b"] [2] "C1").1.root =
      (((newTopicManager 8).subscribe ["a/b"] [1] "C2").1.subscribe ["a/b"] [2] "C1").1.root ∧
    (∃ node,
      walk ["a", "b"] ((((newTopicManager 8).subscribe ["a/b"] [1] "C2").1.subscribe ["a/b"] [0]
        "C1").1.subscribe ["a/b"] [2] "C1").1.root = some node ∧
      node.clients.filter (fun e => decide (e.1 = "C1")) = [("C1", 2)]) ∧
    ((((newTopicManager 8).subscribe ["a/b"] [1] "C2").1.subscribe ["a/b"] [0] "C1").1.subscribe
        ["a/b"] [0] "C1").1.root =
      (((newTopicManager 8).subscribe ["a/b"] [1] "C2").1.subscribe ["a/b"] [0] "C1").1.root) :=
  have hinv := Inv_of_Reached (Reached.subscribe ["a/b"] [1] "C2" (Reached.init 8 (by decide)))
  ⟨hinv.wf, hinv.cache, by decide,
    subscribe_twice_overwrites _ "a/b" ["a", "b"] "C1" 0 2 hinv.wf hinv.cache (by decide)⟩

/-! ### The cache -/

theorem Consistent_of_CacheReached {t : topicLevelManager} (h : CacheReached t) :
    t.Consistent := by
  induction h with
  | init cacheSize _ => exact consistent_newTopicLevelManager cacheSize
  | @get t topic _ ih =>
    rcases splitTopic_cases topic with hv | ⟨levels, hv⟩
    · rw [get_of_invalid ih hv]; exact ih
    · exact (get_of_valid ih hv).2

/-- C18. The topic level cache is transparent: in every state that calls of `get` reach from
a new topic level manager with a positive cache size, `get` of a valid topic returns exactly
the levels `splitTopic` returns, `get` of an invalid topic returns the error and leaves the
cache unchanged, and every cached entry maps a valid topic to its `splitTopic` levels. -/
theorem cache_transparent (t : topicLevelManager) (hreach : CacheReached t) :
    (∀ topic levels, splitTopic topic = .valid levels → (t.get topic).2 = .ok levels) ∧
    (∀ topic, (¬ ∃ levels, splitTopic topic = .valid levels) →
      (t.get topic).2 = .error (.invalidTopic ("topic " ++ topic ++ " is invalid")) ∧
      (t.get topic).1 = t) ∧
    (∀ e ∈ t.data.items, splitTopic e.1 = .valid e.2) := by
  have hc := Consistent_of_CacheReached hreach
  refine ⟨fun topic levels hv => (get_of_valid hc hv).1, ?_, hc⟩
  intro topic hv
  rw [get_of_invalid hc (invalid_of_not_valid hv)]
  exact ⟨rfl, rfl⟩

theorem cache_transparent_witness :
    CacheReached ((((newTopicLevelManager 2).get "a/b").1.get "c/#").1.get "d").1 ∧
    ((((newTopicLevelManager 2).get "a/b").1.get "c/#").1.get "d").1.data.items =
      [("d", ["d"]), ("c/#", ["c", "#"])] ∧
    ((∀ topic levels, splitTopic topic = .valid levels →
      (((((newTopicLevelManager 2).get "a/b").1.get "c/#").1.get "d").1.get topic).2 =
        .ok levels) ∧
    (∀ topic, (¬ ∃ levels, splitTopic topic = .valid levels) →
      (((((newTopicLevelManager 2).get "a/b").1.get "c/#").1.get "d").1.get topic).2 =
        .error (.invalidTopic ("topic " ++ topic ++ " is invalid")) ∧
      (((((newTopicLevelManager 2).get "a/b").1.get "c/#").1.get "d").1.get topic).1 =
        ((((newTopicLevelManager 2).get "a/b").1.get "c/#").1.get "d").1) ∧
    (∀ e ∈ ((((newTopicLevelManager 2).get "a/b").1.get "c/#").1.get "d").1.data.items,
      splitTopic e.1 = .valid e.2)) :=
  ⟨CacheReached.get "d" (CacheReached.get "c/#" (CacheReached.get "a/b"
      (CacheReached.init 2 (by decide)))),
    by decide,
    cache_transparent _ (CacheReached.get "d" (CacheReached.get "c/#" (CacheReached.get "a/b"
      (CacheReached.init 2 (by decide)))))⟩

/-- The keys of the result of `findLevels` from a root are the clients recorded along the
paths that the topic levels select. -/
theorem mem_keys_findLevels_iff {root : topicNode} (hwf : root.WF) (levels : List String)
    (d : String) :
    d ∈ (findLevels levels [root] []).map Prod.fst ↔
      ∃ path q, getSub root path d = some q ∧ TrieMatch path levels := by
  constructor
  · intro h
    obtain ⟨q, hq⟩ := exists_mapGet_of_mem_keys h
    have hall : ∀ n ∈ [root], n.WF := by
      intro n hn
      rw [List.mem_singleton.1 hn]
      exact hwf
    rcases findLevels_sound levels [root] [] hall (d, q) (mapGet_mem hq) with
      h | ⟨n, hn, path, m, hw, hc, hm⟩
    · simp at h
    · rw [List.mem_singleton.1 hn] at hw
      exact ⟨path, q, (getSub_eq_some_iff _ _ _ _).2 ⟨m, hw, hc⟩, hm⟩
  · rintro ⟨path, q, hsub, hm⟩
    obtain ⟨m, hw, hc⟩ := (getSub_eq_some_iff _ _ _ _).1 hsub
    exact findLevels_complete levels [root] [] d
      (Or.inr ⟨root, List.mem_singleton.2 rfl, path, m, q, hw, hc, hm⟩)

theorem mem_keys_findLevels_congr {root root2 : topicNode} (hwf : root.WF) (hwf2 : root2.WF)
    (levels : List String) (d : String)
    (h : ∀ f, getSub root2 f d = getSub root f d) :
    d ∈ (findLevels levels [root2] []).map Prod.fst ↔
      d ∈ (findLevels levels [root] []).map Prod.fst := by
  rw [mem_keys_findLevels_iff hwf2, mem_keys_findLevels_iff hwf]
  constructor
  · rintro ⟨path, q, hs, hm⟩
    exact ⟨path, q, by rw [← h]; exact hs, hm⟩
  · rintro ⟨path, q, hs, hm⟩
    exact ⟨path, q, by rw [h]; exact hs, hm⟩

theorem remove_frame {mgr : TopicManager} {topic : String} {levels : List String}
    (c : String) (hwf : mgr.root.WF) (hc : mgr.levelMgr.Consistent)
    (hv : splitTopic topic = .valid levels) :
    (mgr.remove topic c).2 = none ∧ (mgr.remove topic c).1.root.WF ∧
      (mgr.remove topic c).1.levelMgr.Consistent ∧
      ∀ f d, d ≠ c → getSub (mgr.remove topic c).1.root f d = getSub mgr.root f d := by
  obtain ⟨h1, h2, h3⟩ := remove_of_valid c hc hv
  refine ⟨h1, ?_, h3, ?_⟩
  · rw [h2]
    cases hr : removeLevels levels c mgr.root with
    | none => exact hwf
    | some p => exact WF_removeLevels levels c mgr.root p.1 p.2 hwf hr
  · intro f d hd
    rw [h2]
    cases hr : removeLevels levels c mgr.root with
    | none => rfl
    | some p =>
      have := getSub_removeLevels levels c mgr.root p.1 p.2 hr f d
      rw [if_neg (fun h => hd h.2)] at this
      exact this

theorem insert_frame {mgr : TopicManager} {topic : String} {levels : List String}
    (q : Nat) (c : String) (hwf : mgr.root.WF) (hc : mgr.levelMgr.Consistent)
    (hv : splitTopic topic = .valid levels) :
    (mgr.insert topic q c).2 = none ∧ (mgr.insert topic q c).1.root.WF ∧
      (mgr.insert topic q c).1.levelMgr.Consistent ∧
      ∀ f d, d ≠ c → getSub (mgr.insert topic q c).1.root f d = getSub mgr.root f d := by
  obtain ⟨h1, h2, h3⟩ := insert_of_valid q c hc hv
  refine ⟨h1, ?_, h3, ?_⟩
  · rw [h2]; exact WF_insertLevels _ _ _ _ hwf
  · intro f d hd
    rw [h2, getSub_insertLevels, if_neg (fun h => hd h.2)]

/-- C19. Subscriptions of different clients are independent: for every trie, valid topics t
and u and distinct clients c and d, a subscribe or an unsubscribe of t by c succeeds and
changes neither the QoS that d is recorded with at any node of the trie (so the only client
entries added or removed are those of c) nor whether d is a key of findSubscribers of u. -/
theorem other_clients_untouched (mgr : TopicManager) (t u : String)
    (tlevels ulevels : List String) (c d : String) (q : Nat)
    (hwf : mgr.root.WF) (hcache : mgr.levelMgr.Consistent)
    (ht : splitTopic t = .valid tlevels) (hu : splitTopic u = .valid ulevels) (hcd : d ≠ c) :
    ((mgr.subscribe [t] [q] c).2 = none ∧
      (∀ f, getSub (mgr.subscribe [t] [q] c).1.root f d = getSub mgr.root f d) ∧
      ∃ before after, (mgr.findSubscribers u).2 = .ok before ∧
        ((mgr.subscribe [t] [q] c).1.findSubscribers u).2 = .ok after ∧
        (d ∈ after.map Prod.fst ↔ d ∈ before.map Prod.fst)) ∧
    ((mgr.unsubscribe [t] c).2 = none ∧
      (∀ f, getSub (mgr.unsubscribe [t] c).1.root f d = getSub mgr.root f d) ∧
      ∃ before after, (mgr.findSubscribers u).2 = .ok before ∧
        ((mgr.unsubscribe [t] c).1.findSubscribers u).2 = .ok after ∧
        (d ∈ after.map Prod.fst ↔ d ∈ before.map Prod.fst)) := by
  rw [subscribe_single, unsubscribe_single]
  obtain ⟨hb, _, _⟩ := findSubscribers_of_valid hcache hu
  constructor
  · obtain ⟨h1, h2, h3, h4⟩ := insert_frame q c hwf hcache ht
    obtain ⟨ha, _, _⟩ := findSubscribers_of_valid h3 hu
    exact ⟨h1, fun f => h4 f d hcd, _, _, hb, ha,
      mem_keys_findLevels_congr hwf h2 ulevels d (fun f => h4 f d hcd)⟩
  · obtain ⟨h1, h2, h3, h4⟩ := remove_frame c hwf hcache ht
    obtain ⟨ha, _, _⟩ := findSubscribers_of_valid h3 hu
    exact ⟨h1, fun f => h4 f d hcd, _, _, hb, ha,
      mem_keys_findLevels_congr hwf h2 ulevels d (fun f => h4 f d hcd)⟩

theorem other_clients_untouched_witness :
    ((newTopicManager 8).subscribe ["a/b", "a/+"] [1, 2] "D").1.root.WF ∧
    ((newTopicManager 8).subscribe ["a/b", "a/+"] [1, 2] "D").1.levelMgr.Consistent ∧
    splitTopic "a/+" = .valid ["a", "+"] ∧ splitTopic "a/b" = .valid ["a", "b"] ∧ "D" ≠ "C" ∧
    (((((newTopicManager 8).subscribe ["a/b", "a/+"] [1, 2] "D").1.subscribe ["a/+"] [0] "C").2 =
        none ∧
      (∀ f, getSub (((newTopicManager 8).subscribe ["a/b", "a/+"] [1, 2] "D").1.subscribe ["a/+"]
          [0] "C").1.root f "D" =
        getSub ((newTopicManager 8).subscribe ["a/b", "a/+"] [1, 2] "D").1.root f "D") ∧
      ∃ before after,
        (((newTopicManager 8).subscribe ["a/b", "a/+"] [1, 2] "D").1.findSubscribers "a/b").2 =
          .ok before ∧
        ((((newTopicManager 8).subscribe ["a/b", "a/+"] [1, 2] "D").1.subscribe ["a/+"] [0]
          "C").1.findSubscribers "a/b").2 = .ok after ∧
        ("D" ∈ after.map Prod.fst ↔ "D" ∈ before.map Prod.fst)) ∧
    ((((newTopicManager 8).subscribe ["a/b", "a/+"] [1, 2] "D").1.unsubscribe ["a/+"] "C").2 =
        none ∧
      (∀ f, getSub (((newTopicManager 8).subscribe ["a/b", "a/+"] [1, 2] "D").1.unsubscribe
          ["a/+"] "C").1.root f "D" =
        getSub ((newTopicManager 8).subscribe ["a/b", "a/+"] [1, 2] "D").1.root f "D") ∧
      ∃ before after,
        (((newTopicManager 8).subscribe ["a/b", "a/+"] [1, 2] "D").1.findSubscribers "a/b").2 =
          .ok before ∧
        ((((newTopicManager 8).subscribe ["a/b", "a/+"] [1, 2] "D").1.unsubscribe ["a/+"]
          "C").1.findSubscribers "a/b").2 = .ok after ∧
        ("D" ∈ after.map Prod.fst ↔ "D" ∈ before.map Prod.fst))) :=
  have hinv := Inv_of_Reached
    (Reached.subscribe ["a/b", "a/+"] [1, 2] "D" (Reached.init 8 (by decide)))
  ⟨hinv.wf, hinv.cache, by decide, by decide, by decide,
    other_clients_untouched _ "a/+" "a/b" ["a", "+"] ["a", "b"] "C" "D" 0 hinv.wf hinv.cache
      (by decide) (by decide) (by decide)⟩

theorem splitLoopTraced_fst (topic : String) (rest : List Char) :
    ∀ (i : Nat) (st : splitState),
      (splitLoopTraced topic rest i st).1 = splitLoop topic rest i st := by
  induction rest with
  | nil => intro i st; rfl
  | cons c r ih =>
    intro i st
    simp only [splitLoopTraced, splitLoop]
    split
    · cases goSlice topic st.levelStart i with
      | none => rfl
      | some level =>
        simp only
        split
        · rfl
        · cases setIndex st.levels st.levelsLoc level with
          | none => rfl
          | some levels => simp only [ih]
    · split
      · exact ih _ _
      · split
        · split
          · rfl
          · exact ih _ _
        · exact ih _ _

theorem splitTopicTraced_fst (topic : String) :
    (splitTopicTraced topic).1 = splitTopic topic := by
  unfold splitTopicTraced splitTopic
  simp only
  rw [← splitLoopTraced_fst]
  rcases splitLoopTraced topic topic.data 0
    ⟨List.replicate (topic.data.count '/' + 1) "", 0, 0, false⟩ with ⟨r, trace⟩
  cases r with
  | error e => rfl
  | ok st =>
    simp only
    cases goSlice topic st.levelStart topic.utf8ByteSize with
    | none => rfl
    | some level =>
      simp only
      split
      · rfl
      · cases setIndex st.levels st.levelsLoc level <;> rfl

theorem setIndex_some_of_lt (levels : List String) (loc : Nat) (level : String)
    (h : loc < levels.length) : setIndex levels loc level = some (levels.set loc level) := by
  rw [setIndex, if_pos h]

/-- The accesses of the loop are within bounds, and a loop that runs to its end stores to the
indices from `levelsLoc` on, once each, in order. -/
theorem splitLoopTraced_spec (topic : String) (rest : List Char) :
    ∀ (pre cur : List Char) (st : splitState) (i : Nat),
      topic.data = pre ++ cur ++ rest →
      st.levelStart = utf8Len pre →
      i = utf8Len pre + utf8Len cur →
      st.levels.length = st.levelsLoc + rest.count '/' + 1 →
      (∀ a ∈ (splitLoopTraced topic rest i st).2,
        a.InBounds topic.utf8ByteSize st.levels.length) ∧
      ∀ st2, (splitLoopTraced topic rest i st).1 = .ok st2 →
        (splitLoopTraced topic rest i st).2.filterMap Access.storeIdx =
          List.range' st.levelsLoc (rest.count '/') ∧
        st2.levelStart ≤ topic.utf8ByteSize ∧
        st2.levelsLoc = st.levelsLoc + rest.count '/' ∧
        st2.levels.length = st.levels.length := by
  induction rest with
  | nil =>
    intro pre cur st i htopic hstart _ _
    refine ⟨by simp [splitLoopTraced], ?_⟩
    intro st2 h
    simp only [splitLoopTraced, Except.ok.injEq] at h
    subst h
    have hlen : topic.utf8ByteSize = utf8Len pre + utf8Len cur := by
      have hsz : topic.utf8ByteSize = utf8Len topic.data := by cases topic; rfl
      rw [hsz, htopic]; simp
    simp [splitLoopTraced, hstart, hlen]
  | cons c r ih =>
    intro pre cur st i htopic hstart hi hlevels
    have hlen : topic.utf8ByteSize = utf8Len pre + utf8Len cur + utf8Len (c :: r) := by
      have hsz : topic.utf8ByteSize = utf8Len topic.data := by cases topic; rfl
      rw [hsz, htopic, String.utf8Len_append, String.utf8Len_append]
    by_cases hslash : c = '/'
    · subst hslash
      have hslice := goSlice_mid topic pre cur ('/' :: r) htopic
      rw [← hi, ← hstart] at hslice
      have hcount : List.count '/' ('/' :: r) = List.count '/' r + 1 := by simp
      rw [hcount] at hlevels
      have hlt : st.levelsLoc < st.levels.length := by omega
      have hsl : (Access.slice st.levelStart i).InBounds topic.utf8ByteSize st.levels.length := by
        simp only [Access.InBounds]
        omega
      simp only [splitLoopTraced, if_true, hslice, setIndex_some_of_lt _ _ _ hlt]
      by_cases hrej : (⟨cur⟩ : String).utf8ByteSize > 1 ∧ st.wildCardFlag = true
      · rw [if_pos hrej]
        refine ⟨?_, ?_⟩
        · intro a ha
          simp only [List.mem_singleton] at ha
          exact ha ▸ hsl
        · intro st2 h
          simp at h
      · rw [if_neg hrej]
        have hrec := ih (pre ++ cur ++ ['/']) []
          ⟨st.levels.set st.levelsLoc ⟨cur⟩, st.levelsLoc + 1, i + 1, false⟩
          (i + Char.utf8Size '/') (by simp [htopic])
          (by simp [hi]; rfl) (by simp [hi]; rfl)
          (by simp only [List.length_set]; omega)
        simp only [List.length_set] at hrec
        refine ⟨?_, ?_⟩
        · intro a ha
          simp only [List.mem_cons] at ha
          rcases ha with ha | ha | ha
          · exact ha ▸ hsl
          · subst ha; exact hlt
          · exact hrec.1 a ha
        · intro st2 h
          obtain ⟨h1, h2, h3, h4⟩ := hrec.2 st2 h
          refine ⟨?_, h2, ?_, h4⟩
          · simp only [List.filterMap_cons, Access.storeIdx, h1, hcount]
            rfl
          · rw [h3, hcount]; omega
    · have hdata : topic.data = pre ++ (cur ++ [c]) ++ r := by simp [htopic]
      have hi2 : i + c.utf8Size = utf8Len pre + utf8Len (cur ++ [c]) := by
        simp [hi]; omega
      have hcount : List.count '/' (c :: r) = List.count '/' r :=
        List.count_cons_of_ne (Ne.symm hslash) r
      rw [hcount] at hlevels
      rw [hcount]
      have hrec1 := ih pre (cur ++ [c]) { st with wildCardFlag := true } (i + c.utf8Size)
        hdata hstart hi2 hlevels
      have hrec2 := ih pre (cur ++ [c]) st (i + c.utf8Size) hdata hstart hi2 hlevels
      simp only [splitLoopTraced, if_neg hslash]
      split
      · exact hrec1
      · split
        · split
          · refine ⟨by simp, ?_⟩
            intro st2 h
            simp at h
          · exact hrec1
        · exact hrec2

theorem splitLoop_error_ne_valid (topic : String) (rest : List Char) :
    ∀ (i : Nat) (st : splitState) (levels : List String),
      splitLoop topic rest i st ≠ .error (.valid levels) := by
  induction rest with
  | nil => intro i st levels h; simp [splitLoop] at h
  | cons c r ih =>
    intro i st levels
    simp only [splitLoop]
    split
    · cases goSlice topic st.levelStart i with
      | none => simp
      | some level =>
        simp only
        split
        · simp
        · cases setIndex st.levels st.levelsLoc level with
          | none => simp
          | some lv => exact ih _ _ _
    · split
      · exact ih _ _ _
      · split
        · split
          · simp
          · exact ih _ _ _
        · exact ih _ _ _

theorem goSlice_some_of_le (topic : String) (lo hi : Nat) (h : lo ≤ hi ∧ hi ≤ topic.utf8ByteSize) :
    goSlice topic lo hi = some (topic.extract ⟨lo⟩ ⟨hi⟩) := by
  rw [goSlice, if_pos h]

theorem splitTopicTraced_spec (topic : String) :
    (∀ a ∈ (splitTopicTraced topic).2,
      a.InBounds topic.utf8ByteSize (topic.data.count '/' + 1)) ∧
    ∀ levels, (splitTopicTraced topic).1 = .valid levels →
      (splitTopicTraced topic).2.filterMap Access.storeIdx =
        List.range (topic.data.count '/' + 1) := by
  have hspec := splitLoopTraced_spec topic topic.data [] []
    ⟨List.replicate (topic.data.count '/' + 1) "", 0, 0, false⟩ 0 (by simp) rfl rfl (by simp)
  have hfst := splitLoopTraced_fst topic topic.data 0
    ⟨List.replicate (topic.data.count '/' + 1) "", 0, 0, false⟩
  simp only [List.length_replicate, Nat.zero_add] at hspec
  unfold splitTopicTraced
  simp only
  rcases hloop : splitLoopTraced topic topic.data 0
    ⟨List.replicate (topic.data.count '/' + 1) "", 0, 0, false⟩ with ⟨r, trace⟩
  rw [hloop] at hspec hfst
  simp only at hspec hfst
  cases r with
  | error e =>
    refine ⟨hspec.1, ?_⟩
    intro levels h
    simp only at h
    subst h
    exact absurd hfst.symm (splitLoop_error_ne_valid _ _ _ _ _)
  | ok st =>
    obtain ⟨h1, h2, h3, h4⟩ := hspec.2 st rfl
    have hsl : (Access.slice st.levelStart topic.utf8ByteSize).InBounds topic.utf8ByteSize
        (topic.data.count '/' + 1) := ⟨h2, Nat.le_refl _⟩
    have hst : (Access.store st.levelsLoc).InBounds topic.utf8ByteSize
        (topic.data.count '/' + 1) := by
      simp only [Access.InBounds]; omega
    simp only [goSlice_some_of_le topic _ _ ⟨h2, Nat.le_refl _⟩,
      setIndex_some_of_lt st.levels st.levelsLoc _ (by omega)]
    split
    · refine ⟨?_, ?_⟩
      · intro a ha
        simp only [List.mem_append, List.mem_singleton] at ha
        rcases ha with ha | ha
        · exact hspec.1 a ha
        · exact ha ▸ hsl
      · intro levels h
        simp at h
    · refine ⟨?_, ?_⟩
      · intro a ha
        simp only [List.mem_append, List.mem_cons, List.mem_singleton, List.not_mem_nil,
          or_false] at ha
        rcases ha with ha | ha | ha
        · exact hspec.1 a ha
        · exact ha ▸ hsl
        · exact ha ▸ hst
      · intro levels _
        simp only [List.filterMap_append, h1, List.filterMap_cons, Access.storeIdx,
          List.filterMap_nil, h3]
        rw [List.range_succ, List.range_eq_range']

/-- C20. `splitTopic` is total and index-safe: for every input string it returns without a
run-time panic; each slice expression it evaluates has bounds in order and within the string,
each indexed store is within the slice allocated with count of slashes plus one entries, and
when the topic is accepted every entry of that slice is stored to exactly once. -/
theorem splitTopic_index_safe (topic : String) :
    splitTopic topic ≠ .panic ∧
    (splitTopicTraced topic).1 = splitTopic topic ∧
    (∀ lo hi, Access.slice lo hi ∈ (splitTopicTraced topic).2 →
      lo ≤ hi ∧ hi ≤ topic.utf8ByteSize) ∧
    (∀ loc, Access.store loc ∈ (splitTopicTraced topic).2 → loc < topic.data.count '/' + 1) ∧
    (∀ levels, splitTopic topic = .valid levels →
      (splitTopicTraced topic).2.filterMap Access.storeIdx =
        List.range (topic.data.count '/' + 1)) := by
  obtain ⟨h1, h2⟩ := splitTopicTraced_spec topic
  refine ⟨splitTopic_ne_panic topic, splitTopicTraced_fst topic, ?_, ?_, ?_⟩
  · intro lo hi h
    exact h1 _ h
  · intro loc h
    exact h1 _ h
  · intro levels h
    exact h2 levels (by rw [splitTopicTraced_fst]; exact h)

theorem splitTopic_index_safe_witness :
    splitTopicTraced "é//+" =
      (.valid ["é", "", "+"],
        [.slice 0 2, .store 0, .slice 3 3, .store 1, .slice 4 5, .store 2]) ∧
    splitTopicTraced "" = (.valid [""], [.slice 0 0, .store 0]) ∧
    splitTopicTraced "//" =
      (.valid ["", "", ""], [.slice 0 0, .store 0, .slice 1 1, .store 1, .slice 2 2, .store 2]) ∧
    splitTopicTraced "a/b#/c" = (.invalid, [.slice 0 1, .store 0]) ∧
    (splitTopic "é//+" ≠ .panic ∧
      (splitTopicTraced "é//+").1 = splitTopic "é//+" ∧
      (∀ lo hi, Access.slice lo hi ∈ (splitTopicTraced "é//+").2 →
        lo ≤ hi ∧ hi ≤ "é//+".utf8ByteSize) ∧
      (∀ loc, Access.store loc ∈ (splitTopicTraced "é//+").2 →
        loc < "é//+".data.count '/' + 1) ∧
      (∀ levels, splitTopic "é//+" = .valid levels →
        (splitTopicTraced "é//+").2.filterMap Access.storeIdx =
          List.range ("é//+".data.count '/' + 1))) :=
  ⟨by decide, by decide, by decide, by decide, splitTopic_index_safe "é//+"⟩

end mqttproxy

namespace cluster
open mqttproxy (mapGet mapSet mapDelete)

/-! ### Formatting and parsing integers -/

theorem digitValue_ldigits (d : Nat) (h : d < 16) : digitValue (ldigits.getD d '?') = some d := by
  interval_cases d <;> decide

theorem ldigits_mem (d : Nat) (h : d < 16) :
    ldigits.getD d '?' ∈ "0123456789abcdef".data := by
  interval_cases d <;> decide

theorem parseUintLoop_append (base : Nat) (xs ys : List Char) :
    ∀ n, parseUintLoop base (xs ++ ys) n =
      match parseUintLoop base xs n with
      | .ok m => parseUintLoop base ys m
      | .error e => .error e := by
  induction xs with
  | nil => intro n; rfl
  | cons c cs ih =>
    intro n
    simp only [List.cons_append, parseUintLoop]
    cases digitValue c with
    | none => rfl
    | some d =>
      simp only
      split
      · rfl
      · split
        · rfl
        · split
          · rfl
          · exact ih _

theorem parseUintLoop_digit (base d n : Nat) (hb : base ≤ 16) (hd : d < base)
    (hmax : n * base + d ≤ maxUint64) (hbase : 0 < base) :
    parseUintLoop base [ldigits.getD d '?'] n = .ok (n * base + d) := by
  have hn : ¬ n ≥ maxUint64 / base + 1 := by
    intro h
    have h1 : n * base ≤ maxUint64 := by omega
    have h2 : n ≤ maxUint64 / base := (Nat.le_div_iff_mul_le hbase).2 h1
    omega
  simp only [parseUintLoop, digitValue_ldigits d (by omega)]
  rw [if_neg (by omega), if_neg hn, if_neg (by omega)]

theorem parse_fmtDigits (base : Nat) (hb2 : 2 ≤ base) (hb : base ≤ 16) :
    ∀ (fuel u : Nat), u < base ^ (fuel + 1) → u ≤ maxUint64 →
      parseUintLoop base (fmtDigits base fuel u) 0 = .ok u := by
  intro fuel
  induction fuel with
  | zero =>
    intro u hu hmax
    simp only [Nat.zero_add, pow_one] at hu
    have := parseUintLoop_digit base u 0 hb hu (by omega) (by omega)
    simpa [fmtDigits] using this
  | succ fuel ih =>
    intro u hu hmax
    simp only [fmtDigits]
    by_cases hge : u ≥ base
    · rw [if_pos hge, parseUintLoop_append]
      have hdiv : u / base < base ^ (fuel + 1) := by
        rw [Nat.div_lt_iff_lt_mul (by omega)]
        rw [pow_succ] at hu
        exact hu
      rw [ih (u / base) hdiv (le_trans (Nat.div_le_self _ _) hmax)]
      have hmod : u % base < base := Nat.mod_lt _ (by omega)
      have hsum : u / base * base + u % base = u := Nat.div_add_mod' u base
      have := parseUintLoop_digit base (u % base) (u / base) hb hmod (by omega) (by omega)
      rw [hsum] at this
      exact this
    · rw [if_neg hge]
      have := parseUintLoop_digit base u 0 hb (by omega) (by omega) (by omega)
      simpa using this

theorem fmtDigits_mem (base : Nat) (hb2 : 2 ≤ base) (hb : base ≤ 16) :
    ∀ (fuel u : Nat), u < base ^ (fuel + 1) →
      ∀ c ∈ fmtDigits base fuel u, c ∈ "0123456789abcdef".data := by
  intro fuel
  induction fuel with
  | zero =>
    intro u hu c hc
    simp only [Nat.zero_add, pow_one] at hu
    simp only [fmtDigits, List.mem_singleton] at hc
    exact hc ▸ ldigits_mem u (by omega)
  | succ fuel ih =>
    intro u hu c hc
    simp only [fmtDigits] at hc
    by_cases hge : u ≥ base
    · rw [if_pos hge] at hc
      simp only [List.mem_append, List.mem_singleton] at hc
      rcases hc with hc | hc
      · refine ih (u / base) ?_ c hc
        rw [Nat.div_lt_iff_lt_mul (by omega)]
        rw [pow_succ] at hu
        exact hu
      · have hmod : u % base < base := Nat.mod_lt _ (by omega)
        exact hc ▸ ldigits_mem (u % base) (by omega)
    · rw [if_neg hge] at hc
      simp only [List.mem_singleton] at hc
      exact hc ▸ ldigits_mem u (by omega)

theorem fmtDigits_ne_nil (base fuel u : Nat) : fmtDigits base fuel u ≠ [] := by
  cases fuel with
  | zero => simp [fmtDigits]
  | succ fuel =>
    simp only [fmtDigits]
    split <;> simp

theorem lt_pow_65 (base u : Nat) (hb2 : 2 ≤ base) (hu : u ≤ maxUint64) : u < base ^ (64 + 1) := by
  show u < base ^ 65
  have h1 : (2 : Nat) ^ 65 ≤ base ^ 65 := Nat.pow_le_pow_left hb2 65
  have h2 : u < 2 ^ 65 := by
    unfold maxUint64 at hu
    omega
  exact Nat.lt_of_lt_of_le h2 h1

theorem toInt64_of_range (x : Int) (hlo : -2 ^ 63 ≤ x) (hhi : x < 2 ^ 63) : toInt64 x = x := by
  unfold toInt64
  omega

theorem toInt64_range (x : Int) : -2 ^ 63 ≤ toInt64 x ∧ toInt64 x < 2 ^ 63 := by
  unfold toInt64
  omega

theorem ParseInt_of_minus {s : String} {rest : List Char} {base un : Nat}
    (hdata : s.data = '-' :: rest) (hparse : ParseUint rest base = .ok un)
    (hle : un ≤ 2 ^ 63) : ParseInt s base = .ok (toInt64 (- toInt64 un)) := by
  have hgt : ¬ un > 2 ^ 63 := Nat.not_lt.2 hle
  have hdec : decide ('-' = '-') = true := by decide
  have hor : ('-' = '+' ∨ '-' = '-') := Or.inr rfl
  unfold ParseInt
  rw [hdata]
  dsimp only
  rw [if_pos hor, hparse]
  dsimp only
  rw [hdec, if_neg (fun h => Bool.noConfusion h.1), if_neg (fun h => hgt h.2), if_pos rfl]

theorem ParseInt_of_digit {s : String} {c : Char} {rest : List Char} {base un : Nat}
    (hdata : s.data = c :: rest) (hcp : c ≠ '+') (hcm : c ≠ '-')
    (hparse : ParseUint (c :: rest) base = .ok un) (hlt : un < 2 ^ 63) :
    ParseInt s base = .ok (toInt64 un) := by
  have hge : ¬ un ≥ 2 ^ 63 := Nat.not_le.2 hlt
  have hdec : decide (c = '-') = false := decide_eq_false hcm
  have hor : ¬ (c = '+' ∨ c = '-') := fun h => h.elim hcp hcm
  unfold ParseInt
  rw [hdata]
  dsimp only
  rw [if_neg hor, hparse]
  dsimp only
  rw [hdec, if_neg (fun h => hge h.2), if_neg (fun h => Bool.noConfusion h.1),
    if_neg (fun h => Bool.noConfusion h)]

/-- Parsing the text that `fmtInteger` makes of an `int64` gives back the number. -/
theorem ParseInt_fmtInteger (base : Nat) (hb2 : 2 ≤ base) (hb : base ≤ 16) (v : Int)
    (hlo : -2 ^ 63 ≤ v) (hhi : v < 2 ^ 63) : ParseInt (fmtInteger base v) base = .ok v := by
  have habs : v.natAbs ≤ maxUint64 := by
    unfold maxUint64
    omega
  have hparse := parse_fmtDigits base hb2 hb 64 v.natAbs (lt_pow_65 base _ hb2 habs) habs
  have hmem := fmtDigits_mem base hb2 hb 64 v.natAbs (lt_pow_65 base _ hb2 habs)
  rcases hds : fmtDigits base 64 v.natAbs with _ | ⟨c, rest⟩
  · exact absurd hds (fmtDigits_ne_nil _ _ _)
  · rw [hds] at hparse hmem
    have hc : c ∈ "0123456789abcdef".data := hmem c (List.mem_cons_self _ _)
    have hcp : c ≠ '+' := by
      intro h
      rw [h] at hc
      revert hc
      decide
    have hcm : c ≠ '-' := by
      intro h
      rw [h] at hc
      revert hc
      decide
    have hpu : ParseUint (c :: rest) base = .ok v.natAbs := hparse
    by_cases hneg : v < 0
    · have hdata : (fmtInteger base v).data = '-' :: c :: rest := by
        simp [fmtInteger, hneg, hds]
      have hm : (v.natAbs : Int) = -v := Int.ofNat_natAbs_of_nonpos (le_of_lt hneg)
      have hle : v.natAbs ≤ 2 ^ 63 := by omega
      have hval : toInt64 (- toInt64 (v.natAbs : Int)) = v := by
        rw [hm]
        unfold toInt64
        omega
      rw [ParseInt_of_minus hdata hpu hle, hval]
    · have hdata : (fmtInteger base v).data = c :: rest := by
        simp [fmtInteger, hneg, hds]
      have hm : (v.natAbs : Int) = v := Int.natAbs_of_nonneg (not_lt.1 hneg)
      have hlt : v.natAbs < 2 ^ 63 := by omega
      have hval : toInt64 (v.natAbs : Int) = v := by
        rw [hm]
        unfold toInt64
        omega
      rw [ParseInt_of_digit hdata hcp hcm hpu hlt, hval]

theorem ParseInt_range {s : String} {base : Nat} {v : Int} (h : ParseInt s base = .ok v) :
    -2 ^ 63 ≤ v ∧ v < 2 ^ 63 := by
  unfold ParseInt at h
  split at h
  · simp at h
  · simp only at h
    split at h
    · simp at h
    · split at h
      · simp at h
      · split at h
        · simp at h
        · split at h
          · simp only [Except.ok.injEq] at h
            exact h ▸ toInt64_range _
          · simp only [Except.ok.injEq] at h
            exact h ▸ toInt64_range _

/-- C14. Lease ids round-trip through their wire form: for every 64-bit lease id, the text
made by the verb `%x` (lowercase hexadecimal digits without a prefix, after a minus sign
when the id is negative) is parsed by `strTolease` back to the same id, without error. -/
theorem lease_text_roundtrip (lease : Int) (hlo : -2 ^ 63 ≤ lease) (hhi : lease < 2 ^ 63) :
    strTolease (fmtInteger 16 lease) = .ok lease ∧
    (∀ c ∈ (fmtInteger 16 lease).data, c ∈ "-0123456789abcdef".data) ∧
    (0 ≤ lease → ∀ c ∈ (fmtInteger 16 lease).data, c ∈ "0123456789abcdef".data) := by
  have habs : lease.natAbs ≤ maxUint64 := by
    unfold maxUint64
    omega
  have hmem := fmtDigits_mem 16 (by decide) (by decide) 64 lease.natAbs
    (lt_pow_65 16 _ (by decide) habs)
  refine ⟨?_, ?_, ?_⟩
  · simp only [strTolease, ParseInt_fmtInteger 16 (by decide) (by decide) lease hlo hhi]
  · intro c hc
    simp only [fmtInteger, List.mem_append] at hc
    rcases hc with hc | hc
    · split at hc
      · simp only [List.mem_singleton] at hc
        rw [hc]
        decide
      · simp at hc
    · have := hmem c hc
      exact List.mem_cons_of_mem _ this
  · intro hpos c hc
    simp only [fmtInteger, if_neg (not_lt.2 hpos), List.nil_append] at hc
    exact hmem c hc

theorem lease_text_roundtrip_witness :
    (-2 : Int) ^ 63 ≤ 7587848943234632483 ∧ (7587848943234632483 : Int) < 2 ^ 63 ∧
    fmtInteger 16 7587848943234632483 = "694d746966d2cb23" ∧
    (strTolease (fmtInteger 16 7587848943234632483) = .ok 7587848943234632483 ∧
      (∀ c ∈ (fmtInteger 16 7587848943234632483).data, c ∈ "-0123456789abcdef".data) ∧
      (0 ≤ (7587848943234632483 : Int) →
        ∀ c ∈ (fmtInteger 16 7587848943234632483).data, c ∈ "0123456789abcdef".data)) :=
  ⟨by decide, by decide, by decide,
    lease_text_roundtrip 7587848943234632483 (by decide) (by decide)⟩

/-! ### Requests -/

theorem request_of_no_faults {w : World} (hf : w.faults = []) : w.request = (none, w) := by
  unfold World.request
  rw [hf]

theorem request_frame (w : World) :
    w.request.2.kv = w.kv ∧ w.request.2.revoked = w.revoked ∧ w.request.2.members = w.members := by
  unfold World.request
  cases w.faults <;> exact ⟨rfl, rfl, rfl⟩

theorem getClient_frame (c : cluster) (w : World) :
    (c.getClient w).2.1.kv = w.kv ∧ (c.getClient w).2.1.revoked = w.revoked := by
  unfold cluster.getClient
  cases c.client with
  | some client => exact ⟨rfl, rfl⟩
  | none =>
    have h := request_frame w
    rcases hr : w.request with ⟨f, w1⟩
    rw [hr] at h
    cases f with
    | none => exact ⟨h.1, h.2.1⟩
    | some err => exact ⟨h.1, h.2.1⟩

theorem getClient_of_no_faults (c : cluster) {w : World} (hf : w.faults = []) :
    (∃ client, (c.getClient w).2.2 = .ok client) ∧ (c.getClient w).2.1.faults = [] := by
  unfold cluster.getClient
  cases c.client with
  | some client => exact ⟨⟨client, rfl⟩, hf⟩
  | none =>
    rw [request_of_no_faults hf]
    exact ⟨⟨_, rfl⟩, hf⟩

theorem Get_frame (c : cluster) (w : World) (key : String) :
    (c.Get w key).2.1.kv = w.kv ∧ (c.Get w key).2.1.revoked = w.revoked ∧
    ∀ r, (c.Get w key).2.2 = .ok r → r = mapGet w.kv key := by
  unfold cluster.Get
  have h1 := getClient_frame c w
  rcases hg : c.getClient w with ⟨c1, w1, r1⟩
  rw [hg] at h1
  simp only at h1
  cases r1 with
  | error err => exact ⟨h1.1, h1.2, fun r h => by simp at h⟩
  | ok client =>
    dsimp only
    have h2 := request_frame w1
    rcases hr : w1.request with ⟨f, w2⟩
    rw [hr] at h2
    simp only at h2
    cases f with
    | some err => exact ⟨h2.1.trans h1.1, h2.2.1.trans h1.2, fun r h => by simp at h⟩
    | none =>
      refine ⟨h2.1.trans h1.1, h2.2.1.trans h1.2, ?_⟩
      intro r h
      simp only [Except.ok.injEq] at h
      rw [← h, h2.1, h1.1]

theorem Get_of_no_faults (c : cluster) {w : World} (key : String) (hf : w.faults = []) :
    (c.Get w key).2.2 = .ok (mapGet w.kv key) ∧ (c.Get w key).2.1.faults = [] ∧
    (c.Get w key).2.1.kv = w.kv := by
  unfold cluster.Get
  have h1 := getClient_frame c w
  obtain ⟨⟨client, h2⟩, h3⟩ := getClient_of_no_faults c hf
  rcases hg : c.getClient w with ⟨c1, w1, r1⟩
  rw [hg] at h1 h2 h3
  simp only at h1 h2 h3
  subst h2
  simp only [request_of_no_faults h3]
  exact ⟨by rw [h1.1], h3, h1.1⟩

theorem Put_of_no_faults (c : cluster) {w : World} (key value : String) (hf : w.faults = []) :
    (c.Put w key value).2.2 = none ∧ (c.Put w key value).2.1.faults = [] ∧
    (c.Put w key value).2.1.kv = mapSet w.kv key value := by
  unfold cluster.Put
  have h1 := getClient_frame c w
  obtain ⟨⟨client, h2⟩, h3⟩ := getClient_of_no_faults c hf
  rcases hg : c.getClient w with ⟨c1, w1, r1⟩
  rw [hg] at h1 h2 h3
  simp only at h1 h2 h3
  subst h2
  simp only [request_of_no_faults h3]
  exact ⟨trivial, h3, by rw [h1.1]⟩

theorem MemberList_frame (w : World) :
    (MemberList w).1.kv = w.kv ∧ (MemberList w).1.revoked = w.revoked := by
  unfold MemberList
  have h := request_frame w
  rcases hr : w.request with ⟨f, w1⟩
  rw [hr] at h
  cases f <;> exact ⟨h.1, h.2.1⟩

theorem MemberRemove_frame (w : World) (id : Nat) :
    (MemberRemove w id).1.kv = w.kv ∧ (MemberRemove w id).1.revoked = w.revoked := by
  unfold MemberRemove
  have h := request_frame w
  rcases hr : w.request with ⟨f, w1⟩
  rw [hr] at h
  cases f <;> exact ⟨h.1, h.2.1⟩

/-! ### Requests that all succeed, and the leases the store holds -/

theorem request_of_ok {w : World} (hf : ∀ f ∈ w.faults, f = none) :
    w.request.1 = none ∧ ∀ f ∈ w.request.2.faults, f = none := by
  unfold World.request
  cases h : w.faults with
  | nil =>
    refine ⟨rfl, ?_⟩
    intro f hmem
    exact hf f hmem
  | cons f faults =>
    rw [h] at hf
    refine ⟨hf f (List.mem_cons_self _ _), ?_⟩
    intro g hmem
    exact hf g (List.mem_cons_of_mem _ hmem)

theorem request_granted (w : World) : w.request.2.granted = w.granted := by
  unfold World.request
  cases w.faults <;> rfl

theorem getClient_of_ok (c : cluster) {w : World} (hf : ∀ f ∈ w.faults, f = none) :
    (∃ client, (c.getClient w).2.2 = .ok client) ∧
    ∀ f ∈ (c.getClient w).2.1.faults, f = none := by
  unfold cluster.getClient
  cases c.client with
  | some client => exact ⟨⟨client, rfl⟩, hf⟩
  | none =>
    have h := request_of_ok hf
    rcases hr : w.request with ⟨f, w1⟩
    rw [hr] at h
    simp only at h
    obtain ⟨h1, h2⟩ := h
    subst h1
    exact ⟨⟨_, rfl⟩, h2⟩

theorem getClient_granted (c : cluster) (w : World) :
    (c.getClient w).2.1.granted = w.granted := by
  unfold cluster.getClient
  cases c.client with
  | some client => rfl
  | none =>
    have h := request_granted w
    rcases hr : w.request with ⟨f, w1⟩
    rw [hr] at h
    cases f <;> exact h

theorem Get_of_ok (c : cluster) {w : World} (key : String)
    (hf : ∀ f ∈ w.faults, f = none) :
    (c.Get w key).2.2 = .ok (mapGet w.kv key) ∧ ∀ f ∈ (c.Get w key).2.1.faults, f = none := by
  unfold cluster.Get
  have h1 := getClient_frame c w
  obtain ⟨⟨client, h2⟩, h3⟩ := getClient_of_ok c hf
  rcases hg : c.getClient w with ⟨c1, w1, r1⟩
  rw [hg] at h1 h2 h3
  simp only at h1 h2 h3
  subst h2
  dsimp only
  have h4 := request_of_ok h3
  have h5 := request_frame w1
  rcases hr : w1.request with ⟨f, w2⟩
  rw [hr] at h4 h5
  simp only at h4 h5
  obtain ⟨h6, h7⟩ := h4
  subst h6
  dsimp only
  exact ⟨by rw [h5.1, h1.1], h7⟩

theorem Get_granted (c : cluster) (w : World) (key : String) :
    (c.Get w key).2.1.granted = w.granted := by
  unfold cluster.Get
  have h1 := getClient_granted c w
  rcases hg : c.getClient w with ⟨c1, w1, r1⟩
  rw [hg] at h1
  simp only at h1
  cases r1 with
  | error err => exact h1
  | ok client =>
    dsimp only
    have h2 := request_granted w1
    rcases hr : w1.request with ⟨f, w2⟩
    rw [hr] at h2
    cases f <;> exact h2.trans h1

theorem MemberList_of_ok {w : World} (hf : ∀ f ∈ w.faults, f = none) :
    (∃ members, (MemberList w).2 = .ok members) ∧
    ∀ f ∈ (MemberList w).1.faults, f = none := by
  unfold MemberList
  have h := request_of_ok hf
  rcases hr : w.request with ⟨f, w1⟩
  rw [hr] at h
  simp only at h
  obtain ⟨h1, h2⟩ := h
  subst h1
  exact ⟨⟨_, rfl⟩, h2⟩

theorem MemberList_granted (w : World) : (MemberList w).1.granted = w.granted := by
  unfold MemberList
  have h := request_granted w
  rcases hr : w.request with ⟨f, w1⟩
  rw [hr] at h
  cases f <;> exact h

theorem MemberRemove_of_ok {w : World} (id : Nat) (hf : ∀ f ∈ w.faults, f = none) :
    (MemberRemove w id).2 = none ∧ ∀ f ∈ (MemberRemove w id).1.faults, f = none := by
  unfold MemberRemove
  have h := request_of_ok hf
  rcases hr : w.request with ⟨f, w1⟩
  rw [hr] at h
  simp only at h
  obtain ⟨h1, h2⟩ := h
  subst h1
  exact ⟨rfl, h2⟩

theorem MemberRemove_granted (w : World) (id : Nat) :
    (MemberRemove w id).1.granted = w.granted := by
  unfold MemberRemove
  have h := request_granted w
  rcases hr : w.request with ⟨f, w1⟩
  rw [hr] at h
  cases f <;> exact h

theorem removeIfFound_frame (w : World) (id : Option Nat) :
    (removeIfFound w id).1.kv = w.kv ∧ (removeIfFound w id).1.revoked = w.revoked := by
  unfold removeIfFound
  cases id with
  | none => exact ⟨rfl, rfl⟩
  | some id => exact MemberRemove_frame w id

theorem removeIfFound_of_ok {w : World} (id : Option Nat) (hf : ∀ f ∈ w.faults, f = none) :
    (removeIfFound w id).2 = none ∧ ∀ f ∈ (removeIfFound w id).1.faults, f = none := by
  unfold removeIfFound
  cases id with
  | none => exact ⟨rfl, hf⟩
  | some id => exact MemberRemove_of_ok id hf

theorem removeIfFound_granted (w : World) (id : Option Nat) :
    (removeIfFound w id).1.granted = w.granted := by
  unfold removeIfFound
  cases id with
  | none => rfl
  | some id => exact MemberRemove_granted w id

/-- With no value under the lease key of the member, `PurgeMember` returns an error and
revokes nothing, whatever the outcomes of its requests. -/
theorem PurgeMember_absent (c : cluster) (w : World) (memberName : String)
    (habs : mapGet w.kv (Layout.OtherLease memberName) = none) :
    (∃ err, (c.PurgeMember w memberName).2.2 = some err) ∧
    (c.PurgeMember w memberName).2.1.revoked = w.revoked ∧
    (c.PurgeMember w memberName).2.1.granted = w.granted := by
  unfold cluster.PurgeMember
  have h1 := getClient_frame c w
  have g1 := getClient_granted c w
  rcases hg : c.getClient w with ⟨c1, w1, r1⟩
  rw [hg] at h1 g1
  simp only at h1 g1
  cases r1 with
  | error err => exact ⟨⟨err, rfl⟩, h1.2, g1⟩
  | ok client =>
    dsimp only
    have h2 := MemberList_frame w1
    have g2 := MemberList_granted w1
    rcases hm : MemberList w1 with ⟨w2, r2⟩
    rw [hm] at h2 g2
    simp only at h2 g2
    cases r2 with
    | error err => exact ⟨⟨err, rfl⟩, h2.2.trans h1.2, g2.trans g1⟩
    | ok members =>
      dsimp only
      have h3 := removeIfFound_frame w2 (findMemberID members memberName)
      have g3 := removeIfFound_granted w2 (findMemberID members memberName)
      rcases hx : removeIfFound w2 (findMemberID members memberName) with ⟨w3, r3⟩
      rw [hx] at h3 g3
      simp only at h3 g3
      cases r3 with
      | some err => exact ⟨⟨err, rfl⟩, h3.2.trans (h2.2.trans h1.2), g3.trans (g2.trans g1)⟩
      | none =>
        dsimp only
        have h4 := Get_frame c1 w3 (Layout.OtherLease memberName)
        have g4 := Get_granted c1 w3 (Layout.OtherLease memberName)
        rcases hget : c1.Get w3 (Layout.OtherLease memberName) with ⟨c4, w4, r4⟩
        rw [hget] at h4 g4
        simp only at h4 g4
        have hrev : w4.revoked = w.revoked := h4.2.1.trans (h3.2.trans (h2.2.trans h1.2))
        have hgr : w4.granted = w.granted := g4.trans (g3.trans (g2.trans g1))
        cases r4 with
        | error err => exact ⟨⟨err, rfl⟩, hrev, hgr⟩
        | ok r =>
          have hr : r = none := by
            rw [h4.2.2 r rfl, h3.1, h2.1, h1.1]
            exact habs
          subst hr
          exact ⟨⟨_, rfl⟩, hrev, hgr⟩

/-- With no value under the lease key of the member and every request succeeding,
`PurgeMember` returns the error that names the key. -/
theorem PurgeMember_absent_of_ok (c : cluster) (w : World) (memberName : String)
    (habs : mapGet w.kv (Layout.OtherLease memberName) = none)
    (hf : ∀ f ∈ w.faults, f = none) :
    (c.PurgeMember w memberName).2.2 =
      some (.text (Layout.OtherLease memberName ++ " not found")) := by
  unfold cluster.PurgeMember
  have h1 := getClient_frame c w
  obtain ⟨⟨client, hc⟩, hf1⟩ := getClient_of_ok c hf
  rcases hg : c.getClient w with ⟨c1, w1, r1⟩
  rw [hg] at h1 hc hf1
  simp only at h1 hc hf1
  subst hc
  dsimp only
  have h2 := MemberList_frame w1
  obtain ⟨⟨members, hm2⟩, hf2⟩ := MemberList_of_ok hf1
  rcases hm : MemberList w1 with ⟨w2, r2⟩
  rw [hm] at h2 hm2 hf2
  simp only at h2 hm2 hf2
  subst hm2
  dsimp only
  have h3 := removeIfFound_frame w2 (findMemberID members memberName)
  have h3f := removeIfFound_of_ok (findMemberID members memberName) hf2
  rcases hx : removeIfFound w2 (findMemberID members memberName) with ⟨w3, r3⟩
  rw [hx] at h3 h3f
  simp only at h3 h3f
  obtain ⟨hr3, hf3⟩ := h3f
  subst hr3
  dsimp only
  have h4 := Get_of_ok c1 (Layout.OtherLease memberName) hf3
  rcases hget : c1.Get w3 (Layout.OtherLease memberName) with ⟨c4, w4, r4⟩
  rw [hget] at h4
  simp only at h4
  have hr : r4 = .ok none := by
    rw [h4.1, h3.1, h2.1, h1.1, habs]
  subst hr
  rfl

/-! ### Purging a member, closing and creating handles -/

/-- Claim C15: `PurgeMember(name)` on a store that holds no value under `OtherLease(name)`,
the requests to the store succeeding, returns the error `<leaseKey> not found`; and whatever
the outcomes of the requests, it returns an error and revokes no lease: the revoked leases
and the leases the store holds are as before the call. -/
theorem PurgeMember_missing_lease (c : cluster) (w : World) (memberName : String)
    (habs : mapGet w.kv (Layout.OtherLease memberName) = none) :
    ((∀ f ∈ w.faults, f = none) → (c.PurgeMember w memberName).2.2 =
      some (.text (Layout.OtherLease memberName ++ " not found"))) ∧
    (∃ err, (c.PurgeMember w memberName).2.2 = some err) ∧
    (c.PurgeMember w memberName).2.1.revoked = w.revoked ∧
    (c.PurgeMember w memberName).2.1.granted = w.granted :=
  ⟨PurgeMember_absent_of_ok c w memberName habs, PurgeMember_absent c w memberName habs⟩

theorem PurgeMember_missing_lease_witness :
    mapGet (⟨[("/leases/m2", "1f")], [("/leases/m2", 31)], [("m1", 7), ("m2", 8)], [], [], 0,
      [none, none, none, none], [31]⟩ : World).kv (Layout.OtherLease "m1") = none ∧
    ((⟨"me", none, none, none, none⟩ : cluster).PurgeMember
      ⟨[("/leases/m2", "1f")], [("/leases/m2", 31)], [("m1", 7), ("m2", 8)], [], [], 0,
        [none, none, none, none], [31]⟩ "m1").2.2 = some (.text "/leases/m1 not found") ∧
    ((⟨"me", none, none, none, none⟩ : cluster).PurgeMember
      ⟨[("/leases/m2", "1f")], [("/leases/m2", 31)], [("m1", 7), ("m2", 8)], [], [], 0,
        [none, none, none, none], [31]⟩ "m1").2.1.revoked = [] ∧
    ((⟨"me", none, none, none, none⟩ : cluster).PurgeMember
      ⟨[("/leases/m2", "1f")], [("/leases/m2", 31)], [("m1", 7), ("m2", 8)], [], [], 0,
        [none, none, none, none], [31]⟩ "m1").2.1.granted = [31] :=
  ⟨by decide,
    (PurgeMember_missing_lease ⟨"me", none, none, none, none⟩
      ⟨[("/leases/m2", "1f")], [("/leases/m2", 31)], [("m1", 7), ("m2", 8)], [], [], 0,
        [none, none, none, none], [31]⟩ "m1" (by decide)).1 (by decide),
    (PurgeMember_missing_lease ⟨"me", none, none, none, none⟩
      ⟨[("/leases/m2", "1f")], [("/leases/m2", 31)], [("m1", 7), ("m2", 8)], [], [], 0,
        [none, none, none, none], [31]⟩ "m1" (by decide)).2.2.1,
    (PurgeMember_missing_lease ⟨"me", none, none, none, none⟩
      ⟨[("/leases/m2", "1f")], [("/leases/m2", 31)], [("m1", 7), ("m2", 8)], [], [], 0,
        [none, none, none, none], [31]⟩ "m1" (by decide)).2.2.2⟩

/-- Claim C16: `closeClient` and `closeSession` clear their handle and a second call changes
nothing, but `closeServer` keeps the server handle, so that a second call closes the same
server once more. -/
theorem closeServer_keeps_handle :
    (∀ (c : cluster) (w : World), (c.closeClient w).1.client = none ∧
      (c.closeClient w).1.closeClient (c.closeClient w).2 = c.closeClient w) ∧
    (∀ (c : cluster) (w : World), (c.closeSession w).1.session = none ∧
      (c.closeSession w).1.closeSession (c.closeSession w).2 = c.closeSession w) ∧
    (∀ (name : String) (srv : Nat) (client : Option Nat) (lease : Option Int)
        (session : Option Nat) (w : World),
      ((⟨name, some srv, client, lease, session⟩ : cluster).closeServer w).1.server
        = some srv ∧
      ((⟨name, some srv, client, lease, session⟩ : cluster).closeServer w).2.closed
        = w.closed ++ [.server srv] ∧
      (((⟨name, some srv, client, lease, session⟩ : cluster).closeServer w).1.closeServer
        ((⟨name, some srv, client, lease, session⟩ : cluster).closeServer w).2).2.closed
        = w.closed ++ [.server srv, .server srv]) ∧
    ((⟨"me", some 0, none, none, none⟩ : cluster).closeServer
      ⟨[], [], [], [], [], 1, [], []⟩).1.server = some 0 ∧
    (((⟨"me", some 0, none, none, none⟩ : cluster).closeServer
      ⟨[], [], [], [], [], 1, [], []⟩).1.closeServer
      ((⟨"me", some 0, none, none, none⟩ : cluster).closeServer
        ⟨[], [], [], [], [], 1, [], []⟩).2).2.closed = [.server 0, .server 0] := by
  refine ⟨?_, ?_, ?_, rfl, rfl⟩
  · intro c w
    unfold cluster.closeClient
    cases h : c.client with
    | none => simp [h]
    | some client => simp
  · intro c w
    unfold cluster.closeSession
    cases h : c.session with
    | none => simp [h]
    | some session => simp
  · intro name srv client lease session w
    simp [cluster.closeServer, closeEtcdServer]

/-- Claim C17: `getClient` installs the client it creates, but `getSession` returns the new
session without installing it: the session handle stays nil, the next `getSession` creates
another session, and `closeSession` closes none of them. -/
theorem getSession_not_installed :
    (∀ (name : String) (server : Option Nat) (lease : Option Int) (session : Option Nat)
        (kv : List (String × String)) (leaseOf : List (String × Int))
        (members : List (String × Nat)) (revoked : List Int) (closed : List Resource)
        (n : Nat) (granted : List Int),
      ((⟨name, server, none, lease, session⟩ : cluster).getClient
        ⟨kv, leaseOf, members, revoked, closed, n, [], granted⟩).2.2 = .ok n ∧
      ((⟨name, server, none, lease, session⟩ : cluster).getClient
        ⟨kv, leaseOf, members, revoked, closed, n, [], granted⟩).1.client = some n ∧
      (((⟨name, server, none, lease, session⟩ : cluster).getClient
        ⟨kv, leaseOf, members, revoked, closed, n, [], granted⟩).1.getClient
        ((⟨name, server, none, lease, session⟩ : cluster).getClient
          ⟨kv, leaseOf, members, revoked, closed, n, [], granted⟩).2.1).2.2 = .ok n) ∧
    (∀ (name : String) (server : Option Nat) (client : Nat) (lease : Option Int)
        (kv : List (String × String)) (leaseOf : List (String × Int))
        (members : List (String × Nat)) (revoked : List Int) (closed : List Resource)
        (n : Nat) (granted : List Int),
      ((⟨name, server, some client, lease, none⟩ : cluster).getSession
        ⟨kv, leaseOf, members, revoked, closed, n, [], granted⟩).2.2 = .ok n ∧
      ((⟨name, server, some client, lease, none⟩ : cluster).getSession
        ⟨kv, leaseOf, members, revoked, closed, n, [], granted⟩).1.session = none ∧
      (((⟨name, server, some client, lease, none⟩ : cluster).getSession
        ⟨kv, leaseOf, members, revoked, closed, n, [], granted⟩).1.getSession
        ((⟨name, server, some client, lease, none⟩ : cluster).getSession
          ⟨kv, leaseOf, members, revoked, closed, n, [], granted⟩).2.1).2.2 = .ok (n + 1) ∧
      (((⟨name, server, some client, lease, none⟩ : cluster).getSession
        ⟨kv, leaseOf, members, revoked, closed, n, [], granted⟩).1.closeSession
        ((⟨name, server, some client, lease, none⟩ : cluster).getSession
          ⟨kv, leaseOf, members, revoked, closed, n, [], granted⟩).2.1).2.closed = closed) ∧
    ((⟨"me", none, some 0, none, none⟩ : cluster).getSession
      ⟨[], [], [], [], [], 1, [], []⟩).2.2 = .ok 1 ∧
    ((⟨"me", none, some 0, none, none⟩ : cluster).getSession
      ⟨[], [], [], [], [], 1, [], []⟩).1.session = none ∧
    (((⟨"me", none, some 0, none, none⟩ : cluster).getSession
      ⟨[], [], [], [], [], 1, [], []⟩).1.getSession
      ((⟨"me", none, some 0, none, none⟩ : cluster).getSession
        ⟨[], [], [], [], [], 1, [], []⟩).2.1).2.2 = .ok 2 := by
  refine ⟨?_, ?_, rfl, rfl, rfl⟩
  · intro name server lease session kv leaseOf members revoked closed n granted
    exact ⟨rfl, rfl, rfl⟩
  · intro name server client lease kv leaseOf members revoked closed n granted
    exact ⟨rfl, rfl, rfl, rfl⟩

/-! ### The lease of the member -/

theorem getClient_fields (c : cluster) (w : World) :
    (c.getClient w).1.lease = c.lease ∧ (c.getClient w).1.memberName = c.memberName := by
  unfold cluster.getClient
  cases c.client with
  | some client => exact ⟨rfl, rfl⟩
  | none =>
    dsimp only
    rcases w.request with ⟨_ | err, w1⟩ <;> exact ⟨rfl, rfl⟩

theorem Get_fields (c : cluster) (w : World) (key : String) :
    (c.Get w key).1.lease = c.lease ∧ (c.Get w key).1.memberName = c.memberName := by
  unfold cluster.Get
  have h1 := getClient_fields c w
  rcases hg : c.getClient w with ⟨c1, w1, r1⟩
  rw [hg] at h1
  simp only at h1
  cases r1 with
  | error err => exact h1
  | ok client =>
    dsimp only
    rcases w1.request with ⟨_ | err, w2⟩ <;> exact h1

theorem LeaseGrant_frame (w : World) :
    (LeaseGrant w).1.kv = w.kv ∧
    ∀ lease, (LeaseGrant w).2 = .ok lease → ∃ x, lease = toInt64 x := by
  unfold LeaseGrant World.request
  cases w.faults with
  | nil => exact ⟨rfl, fun lease hl => ⟨_, (Except.ok.inj hl).symm⟩⟩
  | cons f faults =>
    cases f with
    | none => exact ⟨rfl, fun lease hl => ⟨_, (Except.ok.inj hl).symm⟩⟩
    | some err => exact ⟨rfl, fun lease hl => Except.noConfusion hl⟩

theorem PutUnderLease_ok (c : cluster) (w : World) (key value : String)
    (hok : (c.PutUnderLease w key value).2.2 = none) :
    mapGet (c.PutUnderLease w key value).2.1.kv key = some value ∧
    (c.PutUnderLease w key value).1.lease = c.lease := by
  unfold cluster.PutUnderLease at hok ⊢
  have h1 := getClient_fields c w
  rcases hg : c.getClient w with ⟨c1, w1, r1⟩
  rw [hg] at h1 hok
  simp only at h1 hok
  cases r1 with
  | error err => cases hok
  | ok client =>
    dsimp only at hok ⊢
    cases hl : c1.getLease with
    | error err =>
      rw [hl] at hok
      cases hok
    | ok lease =>
      rw [hl] at hok
      dsimp only at hok ⊢
      rcases hr : w1.request with ⟨_ | err, w2⟩
      · rw [hr] at hok
        dsimp only at hok ⊢
        by_cases hmem : lease ∈ w2.granted
        · rw [if_pos hmem]
          exact ⟨mqttproxy.mapGet_mapSet_self _ _ _, h1.1⟩
        · rw [if_neg hmem] at hok
          cases hok
      · rw [hr] at hok
        cases hok

theorem strTolease_fmtInteger (lease : Int) (hlo : -2 ^ 63 ≤ lease) (hhi : lease < 2 ^ 63) :
    strTolease (fmtInteger 16 lease) = .ok lease := by
  unfold strTolease
  rw [ParseInt_fmtInteger 16 (by decide) (by decide) lease hlo hhi]

/-- A call of `initLease` that finds no lease in memory and returns without error leaves in
the store, under the lease key, a text that `strTolease` parses to the lease then held in
memory; with no value under the key before the call, the text is the `%x` text of it. -/
theorem initLease_publishes (c : cluster) (w : World) (hl : c.lease = none)
    (hok : (c.initLease w).2.2 = none) :
    ∃ lease s, (c.initLease w).1.lease = some lease ∧
      mapGet (c.initLease w).2.1.kv (Layout.Lease c) = some s ∧
      strTolease s = .ok lease ∧
      (mapGet w.kv (Layout.Lease c) = none → s = fmtInteger 16 lease) := by
  unfold cluster.initLease at hok ⊢
  have hgl : c.getLease = .error (.text "lease is not ready") := by
    unfold cluster.getLease
    rw [hl]
  rw [hgl] at hok ⊢
  dsimp only at hok ⊢
  have h1 := Get_frame c w (Layout.Lease c)
  have h1f := Get_fields c w (Layout.Lease c)
  rcases hg : c.Get w (Layout.Lease c) with ⟨c1, w1, r1⟩
  rw [hg] at h1 h1f hok
  simp only at h1 h1f hok
  cases r1 with
  | error err => cases hok
  | ok r =>
    have hr := h1.2.2 r rfl
    cases r with
    | some leaseStr =>
      dsimp only at hok ⊢
      cases hs : strTolease leaseStr with
      | error err =>
        rw [hs] at hok
        cases hok
      | ok lease =>
        dsimp only
        refine ⟨lease, leaseStr, rfl, ?_, hs, ?_⟩
        · rw [h1.1, ← hr]
        · intro hnone
          rw [hnone] at hr
          cases hr
    | none =>
      dsimp only at hok ⊢
      have h2 := getClient_frame c1 w1
      have h2f := getClient_fields c1 w1
      rcases hc : c1.getClient w1 with ⟨c2, w2, r2⟩
      rw [hc] at h2 h2f hok
      simp only at h2 h2f hok
      cases r2 with
      | error err => cases hok
      | ok client =>
        dsimp only at hok ⊢
        have h3 := LeaseGrant_frame w2
        rcases hgr : LeaseGrant w2 with ⟨w3, r3⟩
        rw [hgr] at h3 hok
        simp only at h3 hok
        cases r3 with
        | error err => cases hok
        | ok lease =>
          dsimp only at hok ⊢
          obtain ⟨x, hx⟩ := h3.2 lease rfl
          have hrange := toInt64_range x
          rw [← hx] at hrange
          have hkey : Layout.Lease c2 = Layout.Lease c := by
            unfold Layout.Lease
            rw [h2f.2, h1f.2]
          rw [hkey] at hok ⊢
          have h4 := PutUnderLease_ok ({ c2 with lease := some lease } : cluster) w3
            (Layout.Lease c) (fmtInteger 16 lease)
          rcases hp : ({ c2 with lease := some lease } : cluster).PutUnderLease w3
            (Layout.Lease c) (fmtInteger 16 lease) with ⟨c4, w4, r4⟩
          rw [hp] at h4 hok
          simp only at h4 hok
          cases r4 with
          | some err => cases hok
          | none =>
            dsimp only
            obtain ⟨h4a, h4b⟩ := h4 rfl
            exact ⟨lease, fmtInteger 16 lease, h4b, h4a,
              strTolease_fmtInteger lease hrange.1 hrange.2, fun _ => rfl⟩

/-- C21. A call of `initLease` whose publish fails returns the error with the granted lease
already in the in-memory field, so the retry returns without error at its first check while
the store holds nothing under the lease key: the lease is reported ready with its id
unpublished. -/
theorem initLease_retry_unpublished :
    (∀ (name : String) (server session : Option Nat) (members : List (String × Nat))
        (revoked : List Int) (closed : List Resource) (n : Nat) (err : String)
        (rest : List (Option String)) (granted : List Int),
      ((⟨name, server, none, none, session⟩ : cluster).initLease
        ⟨[], [], members, revoked, closed, n,
          none :: none :: none :: some err :: rest, granted⟩).2.2 =
        some (.wrapped ("put lease to " ++ Layout.OtherLease name ++ " failed: ")
          (.text err)) ∧
      ((⟨name, server, none, none, session⟩ : cluster).initLease
        ⟨[], [], members, revoked, closed, n,
          none :: none :: none :: some err :: rest, granted⟩).1.lease =
        some (toInt64 ((n + 1 : Nat) : Int)) ∧
      ((⟨name, server, none, none, session⟩ : cluster).initLease
        ⟨[], [], members, revoked, closed, n,
          none :: none :: none :: some err :: rest, granted⟩).2.1.kv = [] ∧
      (((⟨name, server, none, none, session⟩ : cluster).initLease
        ⟨[], [], members, revoked, closed, n,
          none :: none :: none :: some err :: rest, granted⟩).1.initLease
        ((⟨name, server, none, none, session⟩ : cluster).initLease
          ⟨[], [], members, revoked, closed, n,
            none :: none :: none :: some err :: rest, granted⟩).2.1).2.2 = none ∧
      (((⟨name, server, none, none, session⟩ : cluster).initLease
        ⟨[], [], members, revoked, closed, n,
          none :: none :: none :: some err :: rest, granted⟩).1.initLease
        ((⟨name, server, none, none, session⟩ : cluster).initLease
          ⟨[], [], members, revoked, closed, n,
            none :: none :: none :: some err :: rest, granted⟩).2.1).2.1.kv = []) ∧
    ((⟨"me", none, none, none, none⟩ : cluster).initLease
      ⟨[], [], [], [], [], 0, [none, none, none, some "context deadline exceeded"], []⟩).2.2 =
      some (.wrapped "put lease to /leases/me failed: "
        (.text "context deadline exceeded")) ∧
    (((⟨"me", none, none, none, none⟩ : cluster).initLease
      ⟨[], [], [], [], [], 0, [none, none, none, some "context deadline exceeded"], []⟩).1.initLease
      ((⟨"me", none, none, none, none⟩ : cluster).initLease
        ⟨[], [], [], [], [], 0,
          [none, none, none, some "context deadline exceeded"], []⟩).2.1).2.2 = none ∧
    (((⟨"me", none, none, none, none⟩ : cluster).initLease
      ⟨[], [], [], [], [], 0, [none, none, none, some "context deadline exceeded"], []⟩).1.initLease
      ((⟨"me", none, none, none, none⟩ : cluster).initLease
        ⟨[], [], [], [], [], 0,
          [none, none, none, some "context deadline exceeded"], []⟩).2.1).1.getLease = .ok 1 ∧
    mapGet (((⟨"me", none, none, none, none⟩ : cluster).initLease
      ⟨[], [], [], [], [], 0, [none, none, none, some "context deadline exceeded"], []⟩).1.initLease
      ((⟨"me", none, none, none, none⟩ : cluster).initLease
        ⟨[], [], [], [], [], 0,
          [none, none, none, some "context deadline exceeded"], []⟩).2.1).2.1.kv
      "/leases/me" = none ∧
    ((⟨"me", none, none, none, none⟩ : cluster).initLease
      ⟨[], [], [], [], [], 0, [], []⟩).2.2 = none ∧
    mapGet ((⟨"me", none, none, none, none⟩ : cluster).initLease
      ⟨[], [], [], [], [], 0, [], []⟩).2.1.kv "/leases/me" = some "1" := by
  refine ⟨?_, by decide, by decide, by decide, by decide, by decide, by decide⟩
  intro name server session members revoked closed n err rest granted
  exact ⟨rfl, rfl, rfl, rfl, rfl⟩

end cluster

namespace api
open mqttproxy (mapGet mapSet mapDelete)
open cluster (World Error NumError ParseInt fmtInteger toInt64)

/-! ### The config version -/

theorem storedVersion_range {w : World} {v : Int} (hv : storedVersion w = .ok v) :
    -2 ^ 63 ≤ v ∧ v < 2 ^ 63 := by
  unfold storedVersion at hv
  split at hv
  · cases hv
    constructor <;> norm_num
  · exact cluster.ParseInt_range hv

theorem getVersion_of_no_faults (s : Server) {w : World} {v : Int} (hf : w.faults = [])
    (hv : storedVersion w = .ok v) :
    (s._getVersion w).2.2 = .ok v ∧ (s._getVersion w).2.1.faults = [] ∧
    (s._getVersion w).2.1.kv = w.kv := by
  unfold Server._getVersion
  have h := cluster.Get_of_no_faults s.cluster cluster.Layout.ConfigVersion hf
  rcases hg : s.cluster.Get w cluster.Layout.ConfigVersion with ⟨c1, w1, r1⟩
  rw [hg] at h
  simp only at h
  obtain ⟨hr, hf1, hkv⟩ := h
  subst hr
  unfold storedVersion at hv
  cases hm : mapGet w.kv cluster.Layout.ConfigVersion with
  | none =>
    rw [hm] at hv
    simp only at hv
    cases hv
    exact ⟨rfl, hf1, hkv⟩
  | some value =>
    rw [hm] at hv
    simp only at hv
    dsimp only
    rw [hv]
    exact ⟨rfl, hf1, hkv⟩

theorem plusOneVersion_of_no_faults (s : Server) {w : World} {v : Int} (hf : w.faults = [])
    (hv : storedVersion w = .ok v) (hlt : v + 1 < 2 ^ 63) :
    (s._plusOneVersion w).2.2 = .ok (v + 1) ∧ (s._plusOneVersion w).2.1.faults = [] ∧
    storedVersion (s._plusOneVersion w).2.1 = .ok (v + 1) := by
  unfold Server._plusOneVersion
  have hrange := storedVersion_range hv
  have h := getVersion_of_no_faults s hf hv
  rcases hg : s._getVersion w with ⟨s1, w1, r1⟩
  rw [hg] at h
  simp only at h
  obtain ⟨hr, hf1, hkv⟩ := h
  subst hr
  dsimp only
  have hwrap : toInt64 (v + 1) = v + 1 :=
    cluster.toInt64_of_range (v + 1) (by omega) hlt
  rw [hwrap]
  have hp := cluster.Put_of_no_faults s1.cluster cluster.Layout.ConfigVersion
    (fmtInteger 10 (v + 1)) hf1
  rcases hput : s1.cluster.Put w1 cluster.Layout.ConfigVersion (fmtInteger 10 (v + 1))
    with ⟨c2, w2, r2⟩
  rw [hput] at hp
  simp only at hp
  obtain ⟨hr2, hf2, hkv2⟩ := hp
  subst hr2
  refine ⟨rfl, hf2, ?_⟩
  show storedVersion w2 = .ok (v + 1)
  unfold storedVersion
  rw [hkv2, mqttproxy.mapGet_mapSet_self]
  exact cluster.ParseInt_fmtInteger 10 (by decide) (by decide) (v + 1) (by omega) hlt

theorem plusOneVersions_of_no_faults (k : Nat) (s : Server) (w : World) (v : Int)
    (hf : w.faults = []) (hv : storedVersion w = .ok v) (hk : v + (k : Int) < 2 ^ 63) :
    (plusOneVersions k s w).2.2 = (List.range k).map (fun (i : Nat) => v + 1 + (i : Int)) ∧
    storedVersion (plusOneVersions k s w).2.1 = .ok (v + (k : Int)) := by
  induction k generalizing s w v with
  | zero =>
    refine ⟨rfl, ?_⟩
    show storedVersion w = .ok (v + ((0 : Nat) : Int))
    rw [hv]
    simp
  | succ k ih =>
    have hk2 : v + 1 + (k : Int) < 2 ^ 63 := by
      push_cast at hk
      omega
    have hstep := plusOneVersion_of_no_faults s hf hv (by omega)
    unfold plusOneVersions
    rcases hg : s._plusOneVersion w with ⟨s1, w1, r1⟩
    rw [hg] at hstep
    simp only at hstep
    obtain ⟨hr, hf1, hv1⟩ := hstep
    subst hr
    dsimp only
    obtain ⟨h1, h2⟩ := ih s1 w1 (v + 1) hf1 hv1 hk2
    constructor
    · rw [h1, List.range_succ_eq_map, List.map_cons, List.map_map]
      congr 1
      · simp
      · apply List.map_congr_left
        intro i _
        simp only [Function.comp, Nat.succ_eq_add_one]
        push_cast
        ring
    · rw [h2]
      congr 1
      push_cast
      ring

/-- Claim C13 (as amended): starting from a store whose config version is `v` (0 when the
version key is absent), with every store request succeeding and `v + k` within the 64-bit
signed range, `k` consecutive calls of `_plusOneVersion` by one writer return
`v + 1, v + 2, …, v + k` in that order, and the store then holds version `v + k`. -/
theorem plusOneVersion_sequence (s : Server) (w : World) (v : Int) (k : Nat)
    (hf : w.faults = []) (hv : storedVersion w = .ok v) (hk : v + (k : Int) < 2 ^ 63) :
    (plusOneVersions k s w).2.2 = (List.range k).map (fun (i : Nat) => v + 1 + (i : Int)) ∧
    storedVersion (plusOneVersions k s w).2.1 = .ok (v + (k : Int)) :=
  plusOneVersions_of_no_faults k s w v hf hv hk

theorem plusOneVersion_sequence_witness :
    (⟨[("/config/version", "41")], [], [], [], [], 0, [], []⟩ : World).faults = [] ∧
    storedVersion ⟨[("/config/version", "41")], [], [], [], [], 0, [], []⟩ = .ok 41 ∧
    (41 : Int) + ((3 : Nat) : Int) < 2 ^ 63 ∧
    (plusOneVersions 3 ⟨⟨"me", none, none, none, none⟩⟩
      ⟨[("/config/version", "41")], [], [], [], [], 0, [], []⟩).2.2 = [42, 43, 44] ∧
    storedVersion (plusOneVersions 3 ⟨⟨"me", none, none, none, none⟩⟩
      ⟨[("/config/version", "41")], [], [], [], [], 0, [], []⟩).2.1 = .ok 44 :=
  ⟨rfl, by decide, by decide,
    (plusOneVersion_sequence ⟨⟨"me", none, none, none, none⟩⟩
      ⟨[("/config/version", "41")], [], [], [], [], 0, [], []⟩ 41 3 rfl (by decide) (by decide)).1,
    (plusOneVersion_sequence ⟨⟨"me", none, none, none, none⟩⟩
      ⟨[("/config/version", "41")], [], [], [], [], 0, [], []⟩ 41 3 rfl (by decide) (by decide)).2⟩

/-- Claim C13, counterexample: on the empty store (version key absent, so `v = 0`) three
calls of `_plusOneVersion` return 1, 2, 3 and not 0, 1, 2; on a store holding version 41 one
call returns 42. -/
theorem plusOneVersion_sequence_counterexample :
    storedVersion ⟨[], [], [], [], [], 0, [], []⟩ = .ok 0 ∧
    (plusOneVersions 3 ⟨⟨"me", none, none, none, none⟩⟩ ⟨[], [], [], [], [], 0, [], []⟩).2.2
      = [1, 2, 3] ∧
    (plusOneVersions 3 ⟨⟨"me", none, none, none, none⟩⟩ ⟨[], [], [], [], [], 0, [], []⟩).2.2
      ≠ (List.range 3).map (fun (i : Nat) => (0 : Int) + (i : Int)) ∧
    ((⟨⟨"me", none, none, none, none⟩⟩ : Server)._plusOneVersion
      ⟨[("/config/version", "41")], [], [], [], [], 0, [], []⟩).2.2 = .ok 42 := by
  decide

end api
